import Mathlib

/-!
# Verification of the dmasm expression compiler

This file is a shallow embedding of the expression-compilation core of dmasm
(`src/compiler.rs`, `src/compiler/follow.rs`, `src/compiler/term.rs`) together
with theorems settling the specification claims about it.

Modelling conventions:

* Rust `Vec<Node>` buffers become Lean `List Node`, with `push` appending at
  the right end.
* The Rust label strings `format!("LAB_{:0>4X}", label_count)` are in
  bijection with the counter value (the formatting of distinct counters is
  injective), so label operands and label nodes carry the counter value, a
  `Nat`, directly.
* Machine integers (`i32`, `u32`) carry parser-produced literals that the
  compiler never performs arithmetic on; they are modelled as `Int`/`Nat`.
* `f32` literals are carried opaquely as their bit pattern (a `Nat`); the
  compiler only moves them around.
* Fallible compilation is a state-passing function into `Except`.  Besides the
  typed `CompileError`s, the embedding has a `stuck` outcome covering both
  recursion-fuel exhaustion and the Rust `unwrap` panics on an empty
  short-circuit stack; no claim is about `stuck` outcomes.
* Several compiler modules are declared in `compiler.rs` but their files are
  not part of the sources (`chain_builder.rs`, `binary_ops.rs`, `ternary.rs`,
  `assignment.rs`, `unary.rs`, `args`, `builtin_procs`, `strings`, and the
  `operands`/AST declarations).  Definitions for those carry a doc comment
  starting with `Modelled from the spec:` and follow the specification text;
  everything else is translated from the sources.
-/

/-- Compilation errors, from the `CompileError` enum in `src/compiler.rs`.
The payloads of `parseError` (an upstream parser error) and
`unsupportedExpressionTerm` (the offending AST term) are dropped: the parser
is external and the payloads are never inspected.  The last four variants are
referenced by `src/compiler/term.rs` but missing from the enum as given; they
are included so `term.rs` translates faithfully. -/
inductive CompileError where
  | parseError
  | unsupportedExpressionTerm
  | unsupportedPrefabWithVars
  | expectedLValue
  | expectedFieldReference
  | namedArgumentsNotImplemented
  | incorrectArgCount (s : String)
  | missingArgument (proc : String) (index : Nat)
  | tooManyArguments (proc : String) (expected : Nat)
  | unsupportedBuiltin (proc : String)
  | unexpectedRange
  | unexpectedGlobal
  | unexpectedNamedArguments
  | unsupportedImplicitNew
  | unsupportedRelativeCall
  | unsupportedImplicitLocate
  | unsupportedSafeListAccess
  | invalidLocateArgs
  | unexpectedProbability
  | unexpectedArgList
  | unsupportedStringInterpolation
  | unsupportedInput
deriving DecidableEq

/-- Modelled from the spec: the `Variable` operand sum type lives in the
missing `operands` module.  Spec §3: "sum type for directly addressable VM
slots: implicit receiver, caller, argument list, current-iteration value,
numbered argument, local, global, world object, a scratch accumulator slot, a
dynamically named field off the scratch slot, or a dynamically named procedure
off it", plus the composite chain encoding produced by the chain builder
(`setCache` evaluates its first operand into the scratch slot and then
evaluates the second against it).  Constructor names follow the variants used
by the sources. -/
inductive Variable where
  | usr
  | src
  | args
  | dot
  | cacheIndex
  | world
  | cache
  | arg (n : Nat)
  | localVar (n : Nat)
  | global (name : String)
  | field (name : String)
  | dynamicProc (name : String)
  | setCache (holder : Variable) (rest : Variable)
deriving DecidableEq

/-- `is_writable` from `src/compiler.rs`. -/
def is_writable (var : Variable) : Bool :=
  match var with
  | .usr | .src | .args | .dot | .cacheIndex
  | .arg _ | .localVar _ | .global _ => true
  | _ => false

/-- Modelled from the spec: constant operands (missing `operands` module).
Number literals carry the `f32` bit pattern opaquely. -/
inductive Value where
  | null
  | number (bits : Nat)
  | dmString (s : String)
  | resource (s : String)
  | path (s : String)
deriving DecidableEq

/-- VM instructions, restricted to the ones the expression compiler emits.
The exact instruction set lives in the external assembler; operand shapes
follow the uses in the sources.  Label operands are the label counter value
(see the header).  The final four are used only by the spec-modelled operator
emitters: `jmpAnd`/`jmpOr` are the short-circuit conditional jumps,
`jmpIfFalse` the ternary conditional jump, and `binOp`/`unOp`/`setVarOp`/
`listSetOp` the generic operator/compound-store instructions. -/
inductive Instruction where
  | dbgFile (s : String)
  | getVar (v : Variable)
  | setVar (v : Variable)
  | listGet
  | listSet
  | ret
  | newList (n : Nat)
  | newAssocList (n : Nat)
  | newArgList
  | new (n : Nat)
  | pushVal (v : Value)
  | pushInt (i : Int)
  | pushCache
  | popCache
  | pick
  | pickProb (cases : List Nat)
  | jmp (l : Nat)
  | setCacheJmpIfNull (l : Nat)
  | call (v : Variable) (n : Nat)
  | callGlob (n : Nat) (proc : String)
  | callGlobalArgList (proc : String)
  | callPath (n : Nat)
  | callName (n : Nat)
  | callPathArgList
  | callNameArgList
  | locateRef
  | locateType
  | locatePos
  | jmpAnd (l : Nat)
  | jmpOr (l : Nat)
  | jmpIfFalse (l : Nat)
  | binOp (op : Nat)
  | unOp (op : Nat)
  | setVarOp (op : Nat) (v : Variable)
  | listSetOp (op : Nat)
deriving DecidableEq

/-- A node of the output stream: an instruction or a named jump target
(`Node` in the crate root; the unit debug payload on instructions is
dropped). -/
inductive Node where
  | instruction (i : Instruction)
  | label (l : Nat)
deriving DecidableEq

/-- The labels an instruction references (jump targets). -/
def Instruction.jumps : Instruction → List Nat
  | .jmp l => [l]
  | .setCacheJmpIfNull l => [l]
  | .jmpAnd l => [l]
  | .jmpOr l => [l]
  | .jmpIfFalse l => [l]
  | .pickProb cases => cases
  | _ => []

/-- Labels emitted as label nodes, in stream order. -/
def emittedLabels (ns : List Node) : List Nat :=
  ns.filterMap fun n => match n with
    | .label l => some l
    | .instruction _ => none

/-- Labels referenced by instructions of the stream. -/
def referencedLabels (ns : List Node) : List Nat :=
  ns.flatMap fun n => match n with
    | .instruction i => i.jumps
    | .label _ => []

/-! ## The input AST

The expression tree is produced by the external `dreammaker` parser; the
shapes below mirror exactly the constructors the compiler consumes. -/

/-- The four spellings of a field access: `.`, `:`, `?.`, `?:`. -/
inductive IndexKind where
  | dot
  | colon
  | safeDot
  | safeColon
deriving DecidableEq

/-- Unary operators.  The compiler treats them uniformly (spec §4.4), so the
payload is an opaque operator code. -/
inductive UnaryOp where
  | mk (code : Nat)
deriving DecidableEq

/-- Binary operators.  `and`/`or` short-circuit and `to` builds a range
(spec §3, §4.4); all others are uniform, carried as an opaque code. -/
inductive BinaryOp where
  | and
  | or
  | to
  | other (code : Nat)
deriving DecidableEq

/-- Assignment operators: plain `=` or a compound operator (opaque code). -/
inductive AssignOp where
  | assign
  | compound (code : Nat)
deriving DecidableEq

/-- A type path: ordered `(operator, part)` segments, plus inline variable
declarations (compilation rejects those when nonempty; their payload is
irrelevant, only how many there are). -/
structure Prefab where
  path : List (String × String)
  vars : List Unit
deriving DecidableEq

/-- The target of a `new`: a literal type path, a variable with a field
chain, or implicit. -/
inductive NewType where
  | prefab (p : Prefab)
  | miniExpr (ident : String) (fields : List (IndexKind × String))
  | implicit
deriving DecidableEq

mutual

/-- Expressions (`dreammaker::ast::Expression`). -/
inductive Expression where
  | base (unary : List UnaryOp) (term : Term) (follow : List Follow)
  | binaryOp (op : BinaryOp) (lhs rhs : Expression)
  | assignOp (op : AssignOp) (lhs rhs : Expression)
  | ternaryOp (cond ifE elseE : Expression)

/-- Leaf terms (`dreammaker::ast::Term`), restricted to the constructors
`term.rs` consumes.  `interpString` and `input` are rejected outright, so
their payloads are dropped. -/
inductive Term where
  | expr (e : Expression)
  | null
  | int (i : Int)
  | float (bits : Nat)
  | string (s : String)
  | ident (s : String)
  | resource (s : String)
  | asBits (bits : Int)
  | prefab (p : Prefab)
  | call (ident : String) (args : List Expression)
  | dynamicCall (lhs : List Expression) (rhs : List Expression)
  | selfCall
  | parentCall
  | new (ty : NewType) (args : Option (List Expression))
  | locate (args : List Expression) (inList : Option Expression)
  | pick (args : List (Option Expression × Expression))
  | list (args : List Expression)
  | interpString
  | input

/-- Postfix accesses (`dreammaker::ast::Follow`). -/
inductive Follow where
  | field (kind : IndexKind) (ident : String)
  | index (e : Expression)
  | call (kind : IndexKind) (ident : String) (args : List Expression)

end

/-- Modelled from the spec: the chain builder (`chain_builder.rs` is not in
the sources).  Spec §3: "owns a base operand plus ordered pending field
names; `append` fuses a hop; `finalize` resolves the chain to a concrete
field-access operand".  The resolved encoding nests `setCache` operands:
`base.f1.f2` becomes `setCache base (setCache (field f1) (field f2))`, one
operand for the whole fused chain. -/
structure ChainBuilder where
  base : Variable
  fields : List String
deriving DecidableEq

namespace ChainBuilder

/-- Open a chain rooted at a variable. -/
def begin (v : Variable) : ChainBuilder := ⟨v, []⟩

/-- Fuse one more pending field hop. -/
def append (cb : ChainBuilder) (f : String) : ChainBuilder :=
  { cb with fields := cb.fields ++ [f] }

/-- Resolve a nonempty pending-field list to a nested field operand. -/
def fieldsVar : String → List String → Variable
  | f, [] => .field f
  | f, g :: rest => .setCache (.field f) (fieldsVar g rest)

/-- Resolve the chain to the operand holding its current value. -/
def get (cb : ChainBuilder) : Variable :=
  match cb.fields with
  | [] => cb.base
  | f :: rest => .setCache cb.base (fieldsVar f rest)

/-- Resolve the chain extended by one final field to a field-access
operand. -/
def get_field (cb : ChainBuilder) (f : String) : Variable :=
  get ⟨cb.base, cb.fields ++ [f]⟩

end ChainBuilder

/-- `EvalKind` from `src/compiler.rs`: where an expression's result currently
lives.  The `safeField` variant is constructed and consumed by
`src/compiler/follow.rs` but missing from the enum as given in `compiler.rs`;
it is included per spec §3: "like Field, but guarded — if the chain's current
value is null, the remainder (transitively, the rest of the enclosing
expression) short-circuits to null". -/
inductive EvalKind where
  | stack
  | listRef
  | range
  | global
  | var (v : Variable)
  | field (builder : ChainBuilder) (name : String)
  | safeField (builder : ChainBuilder) (name : String)
deriving DecidableEq

/-- The compiler state (`Compiler` in `src/compiler.rs`): the declared
parameter names, the output node buffer, the label counter, and the
short-circuit label stack.  The stack's top is the head of the list. -/
structure Compiler where
  params : List String
  nodes : List Node
  labelCount : Nat
  shortCircuitLabels : List (Nat × Bool)
deriving DecidableEq

/-- A failed emission: either a typed compilation error, or `stuck`, which
covers recursion-fuel exhaustion and the Rust `unwrap` panic on an empty
short-circuit stack.  No claim concerns `stuck` outcomes. -/
inductive EmitErr where
  | stuck
  | err (e : CompileError)
deriving DecidableEq

/-- The emission monad: state passing over the compiler, short-circuited by
`EmitErr`. -/
def EmitM (α : Type) : Type := Compiler → Except EmitErr (α × Compiler)

namespace EmitM

def pureE {α : Type} (a : α) : EmitM α := fun c => .ok (a, c)

def bind {α β : Type} (x : EmitM α) (f : α → EmitM β) : EmitM β := fun c =>
  match x c with
  | .ok (a, c') => f a c'
  | .error e => .error e

instance : Monad EmitM where
  pure := pureE
  bind := bind

@[simp] theorem bind_def {α β : Type} (x : EmitM α) (f : α → EmitM β) :
    (x >>= f) = EmitM.bind x f := rfl

@[simp] theorem pure_def {α : Type} (a : α) :
    (pure a : EmitM α) = EmitM.pureE a := rfl

end EmitM

/-- Fail with a typed compilation error. -/
def throwE {α : Type} (e : CompileError) : EmitM α := fun _ => .error (.err e)

/-- Fail without a typed error (fuel exhaustion / `unwrap` panic). -/
def stuckE {α : Type} : EmitM α := fun _ => .error .stuck

/-- `Compiler::emit_ins`: push an instruction node.  (The state is taken
apart by a constructor pattern in all these primitives so that evaluation
inside the kernel keeps it in shared constructor form.) -/
def emit_ins (i : Instruction) : EmitM Unit := fun c =>
  match c with
  | ⟨p, ns, lc, scl⟩ => .ok ((), ⟨p, ns ++ [.instruction i], lc, scl⟩)

/-- `Compiler::emit_label`: push a label node. -/
def emit_label (l : Nat) : EmitM Unit := fun c =>
  match c with
  | ⟨p, ns, lc, scl⟩ => .ok ((), ⟨p, ns ++ [.label l], lc, scl⟩)

/-- Reserve a fresh label: returns the current counter value (the Rust code
formats it into the label string) and increments the counter. -/
def alloc_label : EmitM Nat := fun c =>
  match c with
  | ⟨p, ns, lc, scl⟩ => .ok (lc, ⟨p, ns, lc + 1, scl⟩)

/-- Read the declared parameter names. -/
def get_params : EmitM (List String) := fun c =>
  match c with
  | ⟨p, ns, lc, scl⟩ => .ok (p, ⟨p, ns, lc, scl⟩)

/-- Push a fresh `(label, used = false)` short-circuit scope. -/
def push_scope (l : Nat) : EmitM Unit := fun c =>
  match c with
  | ⟨p, ns, lc, scl⟩ => .ok ((), ⟨p, ns, lc, (l, false) :: scl⟩)

/-- Pop the innermost short-circuit scope (`unwrap` panics on empty). -/
def pop_scope : EmitM (Nat × Bool) := fun c =>
  match c with
  | ⟨_, _, _, []⟩ => .error .stuck
  | ⟨p, ns, lc, q :: rest⟩ => .ok (q, ⟨p, ns, lc, rest⟩)

/-- `Compiler::short_circuit`: mark the innermost scope's label used and
return it (`unwrap` panics on empty). -/
def short_circuit : EmitM Nat := fun c =>
  match c with
  | ⟨_, _, _, []⟩ => .error .stuck
  | ⟨p, ns, lc, (l, _) :: rest⟩ => .ok (l, ⟨p, ns, lc, (l, true) :: rest⟩)

/-- Rust `Iterator::rposition` on a string slice: index of the last matching
element. -/
def rposition (l : List String) (x : String) : Option Nat :=
  match l with
  | [] => none
  | a :: rest =>
    match rposition rest x with
    | some i => some (i + 1)
    | none => if a = x then some 0 else none

/-- `Compiler::emit_find_var`: parameters are consulted (most recent match
first) before the fixed keyword table; anything else is a global variable
reference. -/
def emit_find_var (params : List String) (ident : String) : EvalKind :=
  match rposition params ident with
  | some i => .var (.arg i)
  | none =>
    match ident with
    | "." => .var .dot
    | "usr" => .var .usr
    | "src" => .var .src
    | "args" => .var .args
    | "world" => .var .world
    | "global" => .global
    | _ => .var (.global ident)

/-- `Compiler::emit_move_to_stack`.  The `safeField` arm is missing from the
sources; Modelled from the spec (§3, §4.2): the deferred null guard is placed
at the read — fetch the chain's holder, branch-if-null to the enclosing
short-circuit label while storing the tested value in the scratch slot, else
read the guarded field. -/
def emit_move_to_stack (kind : EvalKind) : EmitM EvalKind := do
  match kind with
  | .stack => pure ()
  | .listRef => emit_ins .listGet
  | .range => throwE .unexpectedRange
  | .global => throwE .unexpectedGlobal
  | .var v => emit_ins (.getVar v)
  | .field builder f => emit_ins (.getVar (builder.get_field f))
  | .safeField builder f => do
    let label ← short_circuit
    emit_ins (.getVar builder.get)
    emit_ins (.setCacheJmpIfNull label)
    emit_ins (.getVar (.field f))
  pure .stack

/-- `Compiler::emit_move_to_chain_builder`.  The `safeField` arm is missing
from the sources; Modelled from the spec (§3): guard as in
`emit_move_to_stack`, then store into the scratch slot and reopen a chain
rooted there. -/
def emit_move_to_chain_builder (kind : EvalKind) : EmitM ChainBuilder := do
  match kind with
  | .stack => do
    emit_ins (.setVar .cache)
    pure (ChainBuilder.begin .cache)
  | .listRef => do
    emit_ins .listGet
    emit_ins (.setVar .cache)
    pure (ChainBuilder.begin .cache)
  | .range => throwE .unexpectedRange
  | .global => throwE .unexpectedGlobal
  | .field builder f => pure (builder.append f)
  | .safeField builder f => do
    let label ← short_circuit
    emit_ins (.getVar builder.get)
    emit_ins (.setCacheJmpIfNull label)
    emit_ins (.getVar (.field f))
    emit_ins (.setVar .cache)
    pure (ChainBuilder.begin .cache)
  | .var v => pure (ChainBuilder.begin v)

/-- Split a nonempty list (head given separately) into its leading fields and
its last element, mirroring `field_chain.pop()` plus iteration over the
rest. -/
def initLast (f : String) : List String → List String × String
  | [] => ([], f)
  | g :: rest =>
    let (i, l) := initLast g rest
    (f :: i, l)

/-- Shared tail of `commit_field_buffer`: append the leading fields to the
builder and return the deferred final field. -/
def commit_rest (builder : ChainBuilder) (f : String) (rest : List String) :
    EmitM EvalKind :=
  let (lead, last) := initLast f rest
  pure (.field (lead.foldl ChainBuilder.append builder) last)

/-- `commit_field_buffer` from `src/compiler/follow.rs`: resolve the buffered
consecutive field names against the current `EvalKind`.  An empty buffer is a
no-op; a `global` base reinterprets the first buffered name as a global
variable and recurses; a `safeField` base emits the deferred null guard
(fresh label, converge, reopen at the scratch slot). -/
def commit_field_buffer : EvalKind → List String → EmitM EvalKind
  | kind, [] => pure kind
  | .global, name :: rest =>
    commit_field_buffer (.var (.global name)) rest
  | .stack, f :: rest => do
    emit_ins (.setVar .cache)
    commit_rest (ChainBuilder.begin .cache) f rest
  | .listRef, f :: rest => do
    emit_ins .listGet
    emit_ins (.setVar .cache)
    commit_rest (ChainBuilder.begin .cache) f rest
  | .range, _ :: _ => throwE .unexpectedRange
  | .field builder fld, f :: rest =>
    commit_rest (builder.append fld) f rest
  | .safeField builder fld, f :: rest => do
    let label ← alloc_label
    emit_ins (.getVar builder.get)
    emit_ins (.setCacheJmpIfNull label)
    emit_ins (.getVar (.field fld))
    emit_label label
    emit_ins (.setVar .cache)
    commit_rest (ChainBuilder.begin .cache) f rest
  | .var v, f :: rest =>
    commit_rest (ChainBuilder.begin v) f rest

/-- Modelled from the spec: `unary.rs` is not in the sources.  Spec §4.4:
"Binary/unary operators recurse via the expression compiler on operands,
emitting the operator's instruction once operands are on the stack."  An
empty operator list passes the kind through untouched. -/
def unary_emit : List UnaryOp → EvalKind → EmitM EvalKind
  | [], kind => pure kind
  | .mk code :: rest, kind => do
    let _ ← emit_move_to_stack kind
    emit_ins (.unOp code)
    unary_emit rest .stack

/-- Modelled from the spec: `strings::parse` is not in the sources.  String
literals "push one constant operand" (§4.3); escape processing is carried
opaquely. -/
def strings_parse (s : String) : String := s

/-- Render a type path by concatenating each segment's operator and part
(the `write!("{}{}", op, part)` loop; `FormatTypePath` renders the same
segments). -/
def render_path (path : List (String × String)) : String :=
  path.foldl (fun acc op_part => acc ++ op_part.1 ++ op_part.2) ""

/-- Argument-classification context (`args::ArgsContext`): a procedure call
or a list literal. -/
inductive ArgsContext where
  | proc
  | list
deriving DecidableEq

/-- Argument-shape classification result (`args::ArgsResult`). -/
inductive ArgsResult where
  | normal
  | assoc
  | argList
deriving DecidableEq

/-- `Expression::AssignOp { .. }` test used by the follow-call argument
check. -/
def is_assign_expr : Expression → Bool
  | .assignOp _ _ _ => true
  | _ => false

/-! ## The recursive emitters

All mutually recursive emission functions are gathered into one bundle
indexed by recursion fuel: each level's functions call the previous level's
for every (mutually) recursive call, making the whole development a single
structural recursion on `Nat` that the kernel can evaluate.  Any fuel at
least the number of emission steps gives the Rust function's behaviour;
exhaustion is the `stuck` outcome. -/

/-- The bundle of mutually recursive emitters at one fuel level. -/
structure Emitters where
  /-- `Compiler::emit_expr`. -/
  expr : Expression → EmitM EvalKind
  /-- `Compiler::emit_inner_expr`. -/
  inner : Expression → EmitM EvalKind
  /-- `term::emit`. -/
  term : Term → EmitM EvalKind
  /-- The loop of `follow::emit`, with the buffered field names. -/
  followLoop : List Follow → EvalKind → List String → EmitM EvalKind
  /-- The `for arg in args` compile-to-stack loops. -/
  each : List Expression → EmitM Unit
  /-- `args::emit` (spec-modelled shape classification). -/
  argsE : ArgsContext → List Expression → EmitM ArgsResult
  /-- `args::emit_normal` (spec-modelled). -/
  argsNormal : ArgsContext → List Expression → EmitM Unit
  /-- `emit_new` from `term.rs`. -/
  newE : Option (List Expression) → EmitM EvalKind
  /-- `binary_ops::emit` (spec-modelled). -/
  binary : BinaryOp → Expression → Expression → EmitM EvalKind
  /-- `ternary::emit` (spec-modelled). -/
  ternary : Expression → Expression → Expression → EmitM EvalKind
  /-- `assignment::emit` (spec-modelled). -/
  assign : AssignOp → Expression → Expression → EmitM EvalKind
  /-- The `pick` weight-and-label loop of `term.rs`. -/
  pickWeights : List (Option Expression × Expression) →
    EmitM (List (Nat × Expression))
  /-- The `pick` branch-body loop of `term.rs`. -/
  pickBodies : List (Nat × Expression) → Nat → EmitM Unit

/-- The all-`stuck` bundle: fuel has run out. -/
def stuckEmitters : Emitters where
  expr _ := stuckE
  inner _ := stuckE
  term _ := stuckE
  followLoop _ _ _ := stuckE
  each _ := stuckE
  argsE _ _ := stuckE
  argsNormal _ _ := stuckE
  newE _ := stuckE
  binary _ _ _ := stuckE
  ternary _ _ _ := stuckE
  assign _ _ _ := stuckE
  pickWeights _ := stuckE
  pickBodies _ _ := stuckE

/-- `Compiler::emit_expr`, one level: wrap inner emission in a fresh
short-circuit scope; place the label only if some inner step marked it
used.  `P` is the bundle of emitters for the recursive calls. -/
def emit_expr_step (P : Emitters) (e : Expression) : EmitM EvalKind := do
  let label ← alloc_label
  push_scope label
  let kind ← P.inner e
  let popped ← pop_scope
  if popped.2 then do
    let _ ← emit_move_to_stack kind
    emit_label popped.1
    pure .stack
  else
    pure kind

/-- `Compiler::emit_inner_expr`, one level: dispatch on the expression
shape. -/
def emit_inner_expr_step (P : Emitters) (e : Expression) : EmitM EvalKind :=
  match e with
  | .ternaryOp cond ifE elseE => P.ternary cond ifE elseE
  | .binaryOp op lhs rhs => P.binary op lhs rhs
  | .assignOp op lhs rhs => P.assign op lhs rhs
  | .base unary term follow => do
    let kind ← P.term term
    let kind ← P.followLoop follow kind []
    unary_emit unary kind

/-- `term::emit`, one level.  `builtin_procs::emit` is an external lookup
table (spec §6); Modelled from the spec as always missing, so plain calls
always take the global-call path. -/
def term_emit_step (P : Emitters) (t : Term) : EmitM EvalKind :=
  match t with
  | .expr e => P.expr e
  | .null => do
    emit_ins (.pushVal .null)
    pure .stack
  | .int i => do
    emit_ins (.pushInt i)
    pure .stack
  | .float bits => do
    emit_ins (.pushVal (.number bits))
    pure .stack
  | .string s => do
    emit_ins (.pushVal (.dmString (strings_parse s)))
    pure .stack
  | .ident s => do
    let ps ← get_params
    pure (emit_find_var ps s)
  | .resource r => do
    emit_ins (.pushVal (.resource r))
    pure .stack
  | .asBits bits => do
    emit_ins (.pushInt bits)
    pure .stack
  | .prefab p =>
    if p.vars ≠ [] then
      throwE .unsupportedPrefabWithVars
    else do
      emit_ins (.pushVal (.path (render_path p.path)))
      pure .stack
  | .call ident args => do
    match ← P.argsE .proc args with
    | .normal =>
      emit_ins (.callGlob args.length ("/proc/" ++ ident))
    | .assoc => do
      emit_ins (.newAssocList args.length)
      emit_ins (.callGlobalArgList ("/proc/" ++ ident))
    | .argList =>
      emit_ins (.callGlobalArgList ("/proc/" ++ ident))
    pure .stack
  | .dynamicCall lhs rhs =>
    if lhs.isEmpty then
      throwE (.missingArgument "call" 1)
    else if lhs.length > 2 then
      throwE (.tooManyArguments "call" 2)
    else do
      P.each lhs
      match ← P.argsE .list rhs with
      | .normal =>
        match lhs.length with
        | 1 => emit_ins (.callPath rhs.length)
        | _ => emit_ins (.callName rhs.length)
      | .assoc => do
        emit_ins (.newAssocList rhs.length)
        match lhs.length with
        | 1 => emit_ins .callPathArgList
        | _ => emit_ins .callNameArgList
      | .argList =>
        match lhs.length with
        | 1 => emit_ins .callPathArgList
        | _ => emit_ins .callNameArgList
      pure .stack
  | .selfCall => throwE .unsupportedRelativeCall
  | .parentCall => throwE .unsupportedRelativeCall
  | .new ty args =>
    match ty with
    | .prefab p =>
      if p.vars ≠ [] then
        throwE .unsupportedPrefabWithVars
      else do
        emit_ins (.pushVal (.path (render_path p.path)))
        P.newE args
    | .miniExpr ident fields => do
      let ps ← get_params
      let var := emit_find_var ps ident
      let follows := fields.map fun kf => Follow.field kf.1 kf.2
      let kind ← P.followLoop follows var []
      let _ ← emit_move_to_stack kind
      P.newE args
    | .implicit => throwE .unsupportedImplicitNew
  | .locate args inList => do
    P.argsNormal .proc args
    match args.length, inList with
    | 0, _ => throwE .unsupportedImplicitLocate
    | 1, none => do
      emit_ins .locateRef
      pure .stack
    | 1, some e => do
      let kind ← P.expr e
      let _ ← emit_move_to_stack kind
      emit_ins .locateType
      pure .stack
    | 3, _ => do
      emit_ins .locatePos
      pure .stack
    | _, _ => throwE .invalidLocateArgs
  | .pick args =>
    match args with
    | [] => throwE (.missingArgument "pick" 1)
    | [(lhs, rhs)] =>
      match lhs with
      | some _ => throwE .unexpectedProbability
      | none => do
        let kind ← P.expr rhs
        let _ ← emit_move_to_stack kind
        emit_ins .pick
        pure .stack
    | _ :: _ :: _ => do
      let labelEnd ← alloc_label
      let branches ← P.pickWeights args
      emit_ins (.pickProb (branches.map Prod.fst))
      P.pickBodies branches labelEnd
      emit_label labelEnd
      pure .stack
  | .list args => do
    match ← P.argsE .list args with
    | .normal => do
      emit_ins (.newList args.length)
      pure .stack
    | .assoc => do
      emit_ins (.newAssocList args.length)
      pure .stack
    | .argList => throwE .unexpectedArgList
  | .interpString => throwE .unsupportedStringInterpolation
  | .input => throwE .unsupportedInput

/-- The loop of `follow::emit` over the postfix accesses, one level,
threading the current `EvalKind` and the buffered consecutive plain
fields. -/
def follow_loop_step (P : Emitters) (follows : List Follow) (kind : EvalKind)
    (buf : List String) : EmitM EvalKind :=
  match follows with
  | [] => commit_field_buffer kind buf
  | f :: rest =>
    match f with
    | .field ik ident =>
      match ik with
      | .dot | .colon => P.followLoop rest kind (buf ++ [ident])
      | .safeDot | .safeColon => do
        let kind ← commit_field_buffer kind buf
        let builder ← emit_move_to_chain_builder kind
        P.followLoop rest (.safeField builder ident) []
    | .index e => do
      let kind ← commit_field_buffer kind buf
      let _ ← emit_move_to_stack kind
      let ek ← P.expr e
      let _ ← emit_move_to_stack ek
      P.followLoop rest .listRef []
    | .call ik ident args =>
      if args.any is_assign_expr then
        throwE .namedArgumentsNotImplemented
      else
        match ik with
        | .dot | .colon =>
          match kind, buf with
          | .global, [] => do
            P.each args
            emit_ins (.callGlob args.length ("/proc/" ++ ident))
            P.followLoop rest .stack []
          | kind, buf => do
            let kind ← commit_field_buffer kind buf
            let _ ← emit_move_to_stack kind
            emit_ins (.setVar .cache)
            emit_ins .pushCache
            P.each args
            emit_ins .popCache
            emit_ins (.call (.dynamicProc ident) args.length)
            P.followLoop rest .stack []
        | .safeDot | .safeColon => do
          let kind ← commit_field_buffer kind buf
          let _ ← emit_move_to_stack kind
          let label ← alloc_label
          emit_ins (.setCacheJmpIfNull label)
          emit_ins .pushCache
          P.each args
          emit_ins .popCache
          emit_ins (.call (.dynamicProc ident) args.length)
          emit_label label
          P.followLoop rest .stack []

/-- The repeated `for arg in args { emit_expr; move-to-stack }` loop, one
level. -/
def emit_each_step (P : Emitters) (args : List Expression) : EmitM Unit :=
  match args with
  | [] => pure ()
  | e :: rest => do
    let kind ← P.expr e
    let _ ← emit_move_to_stack kind
    P.each rest

/-- Modelled from the spec: the `args` module is not in the sources and its
shape-classification tables are external ("their tables are out of scope",
§6); every argument list is classified positional, after compiling each
argument to the stack left-to-right. -/
def args_emit_step (P : Emitters) (_ctx : ArgsContext)
    (args : List Expression) : EmitM ArgsResult := do
  P.each args
  pure .normal

/-- Modelled from the spec: `args::emit_normal` compiles each argument to
the stack left-to-right. -/
def args_emit_normal_step (P : Emitters) (_ctx : ArgsContext)
    (args : List Expression) : EmitM Unit :=
  P.each args

/-- `emit_new` from `term.rs`, one level: an absent argument list is the
empty one. -/
def emit_new_step (P : Emitters) (args : Option (List Expression)) :
    EmitM EvalKind := do
  let args := args.getD []
  match ← P.argsE .proc args with
  | .normal => emit_ins (.new args.length)
  | .assoc => do
    emit_ins (.newAssocList args.length)
    emit_ins .newArgList
  | .argList => emit_ins .newArgList
  pure .stack

/-- Modelled from the spec: `binary_ops.rs` is not in the sources.  §4.4:
short-circuit operators compile the left operand and conditionally jump via
the shared short-circuit label; `to` leaves its two operands on the stack as
a range (§3); all others emit the operator instruction once both operands
are on the stack. -/
def binary_ops_step (P : Emitters) (op : BinaryOp) (lhs rhs : Expression) :
    EmitM EvalKind :=
  match op with
  | .and => do
    let kl ← P.expr lhs
    let _ ← emit_move_to_stack kl
    let label ← short_circuit
    emit_ins (.jmpAnd label)
    let kr ← P.expr rhs
    let _ ← emit_move_to_stack kr
    pure .stack
  | .or => do
    let kl ← P.expr lhs
    let _ ← emit_move_to_stack kl
    let label ← short_circuit
    emit_ins (.jmpOr label)
    let kr ← P.expr rhs
    let _ ← emit_move_to_stack kr
    pure .stack
  | .to => do
    let kl ← P.expr lhs
    let _ ← emit_move_to_stack kl
    let kr ← P.expr rhs
    let _ ← emit_move_to_stack kr
    pure .range
  | .other code => do
    let kl ← P.expr lhs
    let _ ← emit_move_to_stack kl
    let kr ← P.expr rhs
    let _ ← emit_move_to_stack kr
    emit_ins (.binOp code)
    pure .stack

/-- Modelled from the spec: `ternary.rs` is not in the sources.  §4.4:
"condition, conditional jump to else-label, if-branch, jump to end,
else-label, else-branch, end-label". -/
def ternary_step (P : Emitters) (cond ifE elseE : Expression) :
    EmitM EvalKind := do
  let kc ← P.expr cond
  let _ ← emit_move_to_stack kc
  let labelElse ← alloc_label
  let labelEnd ← alloc_label
  emit_ins (.jmpIfFalse labelElse)
  let ki ← P.expr ifE
  let _ ← emit_move_to_stack ki
  emit_ins (.jmp labelEnd)
  emit_label labelElse
  let ke ← P.expr elseE
  let _ ← emit_move_to_stack ke
  emit_label labelEnd
  pure .stack

/-- Modelled from the spec: `assignment.rs` is not in the sources.  §4.4:
materialize the left-hand side to an addressable location (compiling its
base/chain first), fail with an lvalue error on non-addressable kinds,
compile the right-hand side to the stack and emit the matching store or
compound-store; the target's base/chain is evaluated before the right-hand
side when the target is a field/list reference.  For a safe-field target the
deferred null guard (§4.2: "until the value is read, written, or called") is
placed at the write: fetch the chain's holder, branch-if-null to the
enclosing short-circuit label storing the tested value in the scratch slot,
then store into the guarded field off the scratch slot. -/
def assignment_step (P : Emitters) (op : AssignOp) (lhs rhs : Expression) :
    EmitM EvalKind := do
  let kl ← P.expr lhs
  match kl with
  | .var v =>
    if is_writable v then do
      let kr ← P.expr rhs
      let _ ← emit_move_to_stack kr
      match op with
      | .assign => emit_ins (.setVar v)
      | .compound code => emit_ins (.setVarOp code v)
      pure .stack
    else
      throwE .expectedLValue
  | .field builder f => do
    let kr ← P.expr rhs
    let _ ← emit_move_to_stack kr
    match op with
    | .assign => emit_ins (.setVar (builder.get_field f))
    | .compound code => emit_ins (.setVarOp code (builder.get_field f))
    pure .stack
  | .listRef => do
    let kr ← P.expr rhs
    let _ ← emit_move_to_stack kr
    match op with
    | .assign => emit_ins .listSet
    | .compound code => emit_ins (.listSetOp code)
    pure .stack
  | .safeField builder f => do
    let label ← short_circuit
    emit_ins (.getVar builder.get)
    emit_ins (.setCacheJmpIfNull label)
    let kr ← P.expr rhs
    let _ ← emit_move_to_stack kr
    match op with
    | .assign => emit_ins (.setVar (.field f))
    | .compound code => emit_ins (.setVarOp code (.field f))
    pure .stack
  | _ => throwE .expectedLValue

/-- The `pick` weight loop, one level: per branch, the compiled weight
expression (or a pushed constant 100 when absent) and a freshly reserved
label. -/
def pick_weights_step (P : Emitters)
    (args : List (Option Expression × Expression)) :
    EmitM (List (Nat × Expression)) :=
  match args with
  | [] => pure []
  | (lhs, rhs) :: rest => do
    match lhs with
    | some l => do
      let kind ← P.expr l
      let _ ← emit_move_to_stack kind
      pure ()
    | none => emit_ins (.pushInt 100)
    let label ← alloc_label
    let branches ← P.pickWeights rest
    pure ((label, rhs) :: branches)

/-- The `pick` body loop, one level: per branch, its label, its compiled
body and a jump to the shared end label. -/
def pick_bodies_step (P : Emitters) (branches : List (Nat × Expression))
    (labelEnd : Nat) : EmitM Unit :=
  match branches with
  | [] => pure ()
  | (label, e) :: rest => do
    emit_label label
    let kind ← P.expr e
    let _ ← emit_move_to_stack kind
    emit_ins (.jmp labelEnd)
    P.pickBodies rest labelEnd

/-- One fuel level of every emitter: each function of level `fuel + 1` runs
its `*_step` body with level-`fuel` functions for every recursive call, so
the whole development is a single structural recursion on `Nat`. -/
def emitters : Nat → Emitters
  | 0 => stuckEmitters
  | fuel + 1 =>
    { expr := emit_expr_step (emitters fuel)
      inner := emit_inner_expr_step (emitters fuel)
      term := term_emit_step (emitters fuel)
      followLoop := follow_loop_step (emitters fuel)
      each := emit_each_step (emitters fuel)
      argsE := args_emit_step (emitters fuel)
      argsNormal := args_emit_normal_step (emitters fuel)
      newE := emit_new_step (emitters fuel)
      binary := binary_ops_step (emitters fuel)
      ternary := ternary_step (emitters fuel)
      assign := assignment_step (emitters fuel)
      pickWeights := pick_weights_step (emitters fuel)
      pickBodies := pick_bodies_step (emitters fuel) }

/-- `Compiler::emit_expr` at a given fuel. -/
def emit_expr (fuel : Nat) (e : Expression) : EmitM EvalKind :=
  (emitters fuel).expr e

/-- `term::emit` at a given fuel. -/
def term_emit (fuel : Nat) (t : Term) : EmitM EvalKind :=
  (emitters fuel).term t

/-- `follow::emit` at a given fuel: run the loop with an empty field
buffer. -/
def follow_emit (fuel : Nat) (follows : List Follow) (kind : EvalKind) :
    EmitM EvalKind :=
  (emitters fuel).followLoop follows kind []

/-- The trailing parameter-echo loop of `compile_expr`: fetch each declared
parameter's current value. -/
def fetch_args : Nat → Nat → EmitM Unit
  | _, 0 => pure ()
  | i, k + 1 => do
    emit_ins (.getVar (.arg i))
    fetch_args (i + 1) k

/-- The fresh compiler state `compile_expr` constructs: the debug-file
marker, counter zero, empty short-circuit stack. -/
def freshCompiler (params : List String) : Compiler where
  params := params
  nodes := [.instruction (.dbgFile "<dmasm expression>")]
  labelCount := 0
  shortCircuitLabels := []

/-- `compile_expr` from `src/compiler.rs`, starting from the already-parsed
expression (lexing/parsing is the external `dreammaker` front end): compile
the expression, force its result to the stack, fetch each declared
parameter, build the result list and return. -/
def compile_expr (fuel : Nat) (e : Expression) (params : List String) :
    Except EmitErr (List Node) :=
  let run : EmitM Unit := do
    let kind ← emit_expr fuel e
    let _ ← emit_move_to_stack kind
    fetch_args 0 params.length
    emit_ins (.newList (params.length + 1))
    emit_ins .ret
  match run (freshCompiler params) with
  | .ok (_, c) => .ok c.nodes
  | .error x => .error x

/-! ## Proof infrastructure -/

theorem EmitM.bind_ok {α β : Type} {x : EmitM α} {f : α → EmitM β}
    {c : Compiler} {r : β × Compiler} :
    EmitM.bind x f c = .ok r ↔
      ∃ a c', x c = .ok (a, c') ∧ f a c' = .ok r := by
  unfold EmitM.bind
  cases h : x c with
  | ok p =>
    cases p
    simp only [Except.ok.injEq]
    constructor
    · intro h'
      exact ⟨_, _, rfl, h'⟩
    · rintro ⟨a, c', he, h'⟩
      cases he
      exact h'
  | error e => simp

theorem EmitM.bind_error {α β : Type} {x : EmitM α} {f : α → EmitM β}
    {c : Compiler} {e : EmitErr} :
    EmitM.bind x f c = .error e ↔
      x c = .error e ∨ ∃ a c', x c = .ok (a, c') ∧ f a c' = .error e := by
  unfold EmitM.bind
  cases h : x c with
  | ok p =>
    cases p
    simp only [Except.error.injEq]
    constructor
    · intro h'
      exact Or.inr ⟨_, _, rfl, h'⟩
    · rintro (h' | ⟨a, c', he, h'⟩)
      · cases h'
      · cases he
        exact h'
  | error e' => simp

deriving instance DecidableEq for Except

/-! ## Claim C1: placement of the safe-navigation guard label in `a?.b.c` -/

/-- The parsed form of `a?.b.c` (with no declared parameters, `a` resolves
to a global-variable reference). -/
def safeChainExpr : Expression :=
  .base [] (.ident "a") [.field .safeDot "b", .field .dot "c"]

/-- The stream the compiler produces for `a?.b.c`. -/
def safeChainStream : List Node :=
  [.instruction (.dbgFile "<dmasm expression>"),
   .instruction (.getVar (.global "a")),
   .instruction (.setCacheJmpIfNull 1),
   .instruction (.getVar (.field "b")),
   .label 1,
   .instruction (.setVar .cache),
   .instruction (.getVar (.setCache .cache (.field "c"))),
   .instruction (.newList 1),
   .instruction .ret]

/-- Claim C1 is false at the input `a?.b.c`: the only referenced label — the
null-guard's branch target — is emitted at stream index 4, strictly between
the instruction reading `.b` (index 3) and the instruction evaluating `.c`
(index 6), not after the instruction evaluating `.c`. -/
theorem c1_counterexample :
    compile_expr 20 safeChainExpr [] = .ok safeChainStream ∧
    referencedLabels safeChainStream = [1] ∧
    safeChainStream.indexOf (.label 1) = 4 ∧
    safeChainStream.indexOf (.instruction (.getVar (.field "b"))) = 3 ∧
    safeChainStream.indexOf
      (.instruction (.getVar (.setCache .cache (.field "c")))) = 6 ∧
    ¬ safeChainStream.indexOf
        (.instruction (.getVar (.setCache .cache (.field "c")))) <
      safeChainStream.indexOf (.label 1) := by
  decide

/-- Amended claim C1: for the input `a?.b.c` the null-guard's branch target
label lands immediately after the instruction reading `.b` and before the
instruction evaluating `.c`; the convergence point stores the tested value
(null, when `a` is null) into the scratch slot, and `.c` is then evaluated
against the scratch slot rather than being skipped. -/
theorem c1_amended :
    compile_expr 20 safeChainExpr [] = .ok safeChainStream := by
  decide

/-! ## Claim C2: label-free compilation

The predicate families below express the claim's syntactic hypothesis: the
expression "contains no safe-navigation access and no short-circuiting
boolean/ternary operator".  The `strict` flag additionally excludes `pick`
terms with two or more branches — the amendment the counterexample below
forces. -/

/-- Is this access spelling a safe-navigation one? -/
def IndexKind.isSafe : IndexKind → Bool
  | .safeDot | .safeColon => true
  | .dot | .colon => false

mutual

/-- No safe navigation, no short-circuit boolean operator, no ternary
anywhere in the expression (and, when `strict`, no multi-branch `pick`). -/
def exprScFree (strict : Bool) : Expression → Bool
  | .base _ t fs => termScFree strict t && followsScFree strict fs
  | .binaryOp op l r =>
    (match op with
     | .and => false
     | .or => false
     | _ => true) &&
    exprScFree strict l && exprScFree strict r
  | .assignOp _ l r => exprScFree strict l && exprScFree strict r
  | .ternaryOp _ _ _ => false

/-- `exprScFree`, on a term. -/
def termScFree (strict : Bool) : Term → Bool
  | .expr e => exprScFree strict e
  | .call _ args => exprsScFree strict args
  | .dynamicCall l r => exprsScFree strict l && exprsScFree strict r
  | .new ty args =>
    (match ty with
     | .miniExpr _ fields => fields.all fun kf => !kf.1.isSafe
     | _ => true) &&
    (match args with
     | none => true
     | some l => exprsScFree strict l)
  | .locate args il =>
    exprsScFree strict args &&
    (match il with
     | none => true
     | some e => exprScFree strict e)
  | .pick args => (!strict || args.length ≤ 1) && pickArgsScFree strict args
  | .list args => exprsScFree strict args
  | _ => true

/-- `exprScFree`, on a single postfix access. -/
def followScFree (strict : Bool) : Follow → Bool
  | .field k _ => !k.isSafe
  | .index e => exprScFree strict e
  | .call k _ args => !k.isSafe && exprsScFree strict args

/-- `exprScFree`, on a list of postfix accesses. -/
def followsScFree (strict : Bool) : List Follow → Bool
  | [] => true
  | f :: rest => followScFree strict f && followsScFree strict rest

/-- `exprScFree`, on a list of expressions. -/
def exprsScFree (strict : Bool) : List Expression → Bool
  | [] => true
  | e :: rest => exprScFree strict e && exprsScFree strict rest

/-- `exprScFree`, on the weighted branches of a `pick`. -/
def pickArgsScFree (strict : Bool) :
    List (Option Expression × Expression) → Bool
  | [] => true
  | (w, b) :: rest =>
    (match w with
     | none => true
     | some e => exprScFree strict e) &&
    exprScFree strict b && pickArgsScFree strict rest

end

/-- The parsed form of `pick(1, 2)`: two unweighted branches, no
safe-navigation access and no short-circuiting operator anywhere. -/
def pickTwoExpr : Expression :=
  .base []
    (.pick [(none, .base [] (.int 1) []), (none, .base [] (.int 2) [])]) []

/-- The stream the compiler produces for `pick(1, 2)`. -/
def pickTwoStream : List Node :=
  [.instruction (.dbgFile "<dmasm expression>"),
   .instruction (.pushInt 100),
   .instruction (.pushInt 100),
   .instruction (.pickProb [2, 3]),
   .label 2,
   .instruction (.pushInt 1),
   .instruction (.jmp 1),
   .label 3,
   .instruction (.pushInt 2),
   .instruction (.jmp 1),
   .label 1,
   .instruction (.newList 1),
   .instruction (.ret)]

/-- Claim C2 is false at the input `pick(1, 2)`: the expression contains no
safe-navigation access and no short-circuiting boolean/ternary operator,
yet its compiled stream contains three label nodes. -/
theorem c2_counterexample :
    exprScFree false pickTwoExpr = true ∧
    compile_expr 10 pickTwoExpr [] = .ok pickTwoStream ∧
    emittedLabels pickTwoStream = [2, 3, 1] ∧
    ¬ emittedLabels pickTwoStream = [] := by
  refine ⟨?_, by decide, by decide, by decide⟩
  simp [pickTwoExpr, exprScFree, termScFree, pickArgsScFree, followsScFree,
    exprsScFree]

/-! ## Claim C9: declared parameters shadow the pseudo-slot keywords -/

/-- `rposition` finds an occurrence: the returned index holds the sought
name. -/
theorem rposition_found {params : List String} {x : String} {j : Nat}
    (h : rposition params x = some j) : params[j]? = some x := by
  induction params generalizing j with
  | nil => simp [rposition] at h
  | cons a rest ih =>
    rw [rposition] at h
    cases hr : rposition rest x with
    | some i =>
      rw [hr] at h
      cases h
      simpa using ih hr
    | none =>
      rw [hr] at h
      by_cases ha : a = x
      · simp [ha] at h
        cases h
        simpa using ha
      · simp [ha] at h

/-- A name with no `rposition` does not occur. -/
theorem rposition_eq_none {params : List String} {x : String}
    (h : rposition params x = none) : x ∉ params := by
  induction params with
  | nil => simp
  | cons a rest ih =>
    rw [rposition] at h
    cases hr : rposition rest x with
    | some i => rw [hr] at h; cases h
    | none =>
      rw [hr] at h
      by_cases ha : a = x
      · simp [ha] at h
      · simp only [List.mem_cons, not_or]
        exact ⟨fun hx => ha hx.symm, ih hr⟩

/-- `rposition` finds the last occurrence: beyond the returned index the
sought name does not occur. -/
theorem rposition_last {params : List String} {x : String} {j : Nat}
    (h : rposition params x = some j) :
    ∀ k, j < k → params[k]? ≠ some x := by
  induction params generalizing j with
  | nil => simp [rposition] at h
  | cons a rest ih =>
    rw [rposition] at h
    cases hr : rposition rest x with
    | some i =>
      rw [hr] at h
      cases h
      intro k hk
      match k, hk with
      | k + 1, hk =>
        simpa using ih hr k (by omega)
    | none =>
      rw [hr] at h
      by_cases ha : a = x
      · simp [ha] at h
        cases h
        intro k hk
        match k, hk with
        | k + 1, _ =>
          simp only [List.getElem?_cons_succ]
          intro hmem
          exact rposition_eq_none hr (List.getElem?_mem hmem)
      · simp [ha] at h

/-- A name that does not occur has no `rposition`. -/
theorem rposition_none {params : List String} {x : String}
    (h : x ∉ params) : rposition params x = none := by
  induction params with
  | nil => rfl
  | cons a rest ih =>
    rw [rposition, ih (fun hm => h (List.mem_cons_of_mem a hm))]
    simp only [List.mem_cons, not_or] at h
    have : ¬ a = x := fun hax => h.1 hax.symm
    simp [this]

/-- Claim C9: a declared parameter shadows everything, including the fixed
pseudo-slot keywords: a bare identifier occurring among the parameters
resolves to the most recent matching argument slot, whatever the identifier
is; the keyword table (shared with the no-parameter resolution) is reached
only when no parameter matches. -/
theorem c9_param_shadowing :
    (∀ (params : List String) (ident : String), ident ∈ params →
      ∃ j, emit_find_var params ident = .var (.arg j) ∧
        params[j]? = some ident ∧
        ∀ k, j < k → params[k]? ≠ some ident) ∧
    (∀ (params : List String) (ident : String), ident ∉ params →
      emit_find_var params ident = emit_find_var [] ident) := by
  constructor
  · intro params ident hmem
    cases hr : rposition params ident with
    | none => exact absurd hmem (rposition_eq_none hr)
    | some j =>
      refine ⟨j, ?_, rposition_found hr, rposition_last hr⟩
      unfold emit_find_var
      rw [hr]
  · intro params ident hmem
    unfold emit_find_var
    rw [rposition_none hmem]
    rfl

/-- Witness for C9 at a concrete input: in the parameter list
`["src", "world", "src"]` the identifier `src` resolves to argument slot 1,
the most recent matching declaration, not to the `src` pseudo-slot. -/
theorem c9_witness :
    ∃ j, emit_find_var ["src", "world", "src"] "src" = .var (.arg j) ∧
      (["src", "world", "src"] : List String)[j]? = some "src" ∧
      ∀ k, j < k → (["src", "world", "src"] : List String)[k]? ≠ some "src" :=
  c9_param_shadowing.1 ["src", "world", "src"] "src" (by decide)

/-! ## Claim C10: `new T` compiles exactly like `new T()` -/

/-- Claim C10: for every type path, `new T` with no argument list compiles
exactly like `new T()` with an empty one, and (when the prefab carries no
inline variable declarations) the emitted instructions are exactly a push of
the type path followed by a new-object instruction of argument count 0. -/
theorem c10_new_default_args :
    ∀ (fuel : Nat) (p : Prefab) (c : Compiler),
      term_emit fuel (.new (.prefab p) none) c =
        term_emit fuel (.new (.prefab p) (some [])) c ∧
      (p.vars = [] →
        term_emit (fuel + 4) (.new (.prefab p) none) c =
          .ok (.stack,
            ⟨c.params,
             c.nodes ++
               [.instruction (.pushVal (.path (render_path p.path))),
                .instruction (.new 0)],
             c.labelCount, c.shortCircuitLabels⟩)) := by
  intro fuel p c
  constructor
  · rcases fuel with _ | (_ | f)
    · rfl
    · rfl
    · rfl
  · intro hv
    obtain ⟨pp, ns, lc, scl⟩ := c
    simp [term_emit, emitters, term_emit_step, emit_new_step, args_emit_step,
      emit_each_step, hv, emit_ins, EmitM.bind, EmitM.pureE]

/-- Witness for C10 at a concrete input: `new /obj` with no argument list
and `new /obj()` with an empty one compile identically, to a push of the
path `/obj` and a zero-argument new instruction. -/
theorem c10_witness :
    term_emit 6 (.new (.prefab ⟨[("/", "obj")], []⟩) none)
        (freshCompiler []) =
      term_emit 6 (.new (.prefab ⟨[("/", "obj")], []⟩) (some []))
        (freshCompiler []) ∧
    term_emit 6 (.new (.prefab ⟨[("/", "obj")], []⟩) none)
        (freshCompiler []) =
      .ok (.stack,
        ⟨[],
         [.instruction (.dbgFile "<dmasm expression>"),
          .instruction (.pushVal (.path (render_path [("/", "obj")]))),
          .instruction (.new 0)],
         0, []⟩) :=
  ⟨(c10_new_default_args 6 ⟨[("/", "obj")], []⟩ (freshCompiler [])).1,
   (c10_new_default_args 2 ⟨[("/", "obj")], []⟩ (freshCompiler [])).2 rfl⟩

/-! ## Claim C7: arity validation errors of `locate` and `call` -/

/-- Claim C7: `locate` with zero arguments fails with the
implicit-locate-unsupported error; with any argument count other than 0, 1,
1-with-container, or 3 (i.e. with count 2 or at least 4) it fails — once the
arguments themselves compiled — with the invalid-locate-arguments error; the
dynamic two-part call with zero left-hand arguments fails with a
missing-argument error naming proc "call" at index 1; with more than two
left-hand arguments it fails with a too-many-arguments error naming proc
"call" with expected 2. -/
theorem c7_arity_errors :
    (∀ (fuel : Nat) (il : Option Expression) (c : Compiler),
      term_emit (fuel + 3) (.locate [] il) c =
        .error (.err .unsupportedImplicitLocate)) ∧
    (∀ (fuel : Nat) (args : List Expression) (il : Option Expression)
      (c c' : Compiler),
      (args.length = 2 ∨ 4 ≤ args.length) →
      (emitters fuel).argsNormal .proc args c = .ok ((), c') →
      term_emit (fuel + 1) (.locate args il) c =
        .error (.err .invalidLocateArgs)) ∧
    (∀ (fuel : Nat) (rhs : List Expression) (c : Compiler),
      term_emit (fuel + 1) (.dynamicCall [] rhs) c =
        .error (.err (.missingArgument "call" 1))) ∧
    (∀ (fuel : Nat) (a b d : Expression) (rest : List Expression)
      (rhs : List Expression) (c : Compiler),
      term_emit (fuel + 1) (.dynamicCall (a :: b :: d :: rest) rhs) c =
        .error (.err (.tooManyArguments "call" 2))) := by
  refine ⟨?_, ?_, ?_, ?_⟩
  · intro fuel il c
    rfl
  · intro fuel args il c c' hlen hargs
    show term_emit_step (emitters fuel) (.locate args il) c = _
    unfold term_emit_step
    simp only [EmitM.bind_def, EmitM.bind, hargs]
    rcases hlen with hl | hl
    · rw [hl]
      rfl
    · obtain ⟨k, hk⟩ : ∃ k, args.length = k + 4 :=
        ⟨args.length - 4, by omega⟩
      rw [hk]
      rfl
  · intro fuel rhs c
    rfl
  · intro fuel a b d rest rhs c
    show term_emit_step (emitters fuel) (.dynamicCall (a :: b :: d :: rest) rhs) c =
      .error (.err (.tooManyArguments "call" 2))
    unfold term_emit_step
    have hne : (a :: b :: d :: rest).isEmpty = false := rfl
    have hgt : (a :: b :: d :: rest).length > 2 := by
      simp only [List.length_cons]
      omega
    simp [hne, hgt, throwE]

/-- Witness for C7 at concrete inputs: `locate()`, `locate(1,2,3,4)`,
`call()()` and `call(1,2,3)()` each produce the claimed typed error. -/
theorem c7_witness :
    term_emit 10 (.locate [] none) (freshCompiler []) =
      .error (.err .unsupportedImplicitLocate) ∧
    term_emit 10
      (.locate [.base [] (.int 1) [], .base [] (.int 2) [],
        .base [] (.int 3) [], .base [] (.int 4) []] none)
      (freshCompiler []) = .error (.err .invalidLocateArgs) ∧
    term_emit 10 (.dynamicCall [] []) (freshCompiler []) =
      .error (.err (.missingArgument "call" 1)) ∧
    term_emit 10
      (.dynamicCall [.base [] (.int 1) [], .base [] (.int 2) [],
        .base [] (.int 3) []] []) (freshCompiler []) =
      .error (.err (.tooManyArguments "call" 2)) :=
  ⟨c7_arity_errors.1 7 none (freshCompiler []),
   c7_arity_errors.2.1 9
     [.base [] (.int 1) [], .base [] (.int 2) [],
      .base [] (.int 3) [], .base [] (.int 4) []] none
     (freshCompiler [])
     ⟨[],
      [.instruction (.dbgFile "<dmasm expression>"),
       .instruction (.pushInt 1), .instruction (.pushInt 2),
       .instruction (.pushInt 3), .instruction (.pushInt 4)],
      4, []⟩
     (Or.inr (by decide)) (by decide),
   c7_arity_errors.2.2.1 9 [] (freshCompiler []),
   c7_arity_errors.2.2.2 9 (.base [] (.int 1) []) (.base [] (.int 2) [])
     (.base [] (.int 3) []) [] [] (freshCompiler [])⟩

/-! ## Claim C8: compilation is deterministic -/

/-- Claim C8: compilation is a pure function of the parsed expression and
the parameter list — two runs from fresh compiler instances (the initial
state `compile_expr` builds, label counter included) produce the same
result, stream or error.  Purity is structural in this embedding: the
theorem records that no other input influences the outcome. -/
theorem c8_deterministic :
    ∀ (fuel : Nat) (e : Expression) (params : List String)
      (r₁ r₂ : Except EmitErr (List Node)),
      compile_expr fuel e params = r₁ → compile_expr fuel e params = r₂ →
      r₁ = r₂ := by
  intro fuel e params r₁ r₂ h1 h2
  rw [← h1, ← h2]

/-- Witness for C8 at a concrete input. -/
theorem c8_witness :
    compile_expr 10 (.base [] (.int 1) []) [] =
      compile_expr 10 (.base [] (.int 1) []) [] :=
  c8_deterministic 10 (.base [] (.int 1) []) [] _ _ rfl rfl

/-! ## Claim C3: committing buffered fields while the kind is a safe field -/

/-- Claim C3: committing a nonempty field buffer while the current kind is
`safeField` emits exactly: read the chain's holder, branch-if-null to a
fresh label (the current counter value) while storing the tested value into
the scratch slot, otherwise read the guarded field, place the shared
convergence label, then store into the scratch slot; the returned kind is a
plain field chain reopened at the scratch slot with the remaining buffered
hops composed against it. -/
theorem c3_commit_safe_field :
    ∀ (cb : ChainBuilder) (fld f : String) (rest : List String)
      (c : Compiler),
      commit_field_buffer (.safeField cb fld) (f :: rest) c =
        .ok (.field
          ((initLast f rest).1.foldl ChainBuilder.append
            (ChainBuilder.begin .cache))
          (initLast f rest).2,
          ⟨c.params,
           c.nodes ++
             [.instruction (.getVar cb.get),
              .instruction (.setCacheJmpIfNull c.labelCount),
              .instruction (.getVar (.field fld)),
              .label c.labelCount,
              .instruction (.setVar .cache)],
           c.labelCount + 1,
           c.shortCircuitLabels⟩) := by
  intro cb fld f rest c
  obtain ⟨pp, ns, lc, scl⟩ := c
  show (commit_field_buffer (.safeField cb fld) (f :: rest)) ⟨pp, ns, lc, scl⟩ = _
  rw [commit_field_buffer]
  cases hIL : initLast f rest with
  | mk lead last =>
    simp [commit_rest, hIL, EmitM.bind, EmitM.pureE, alloc_label, emit_ins,
      emit_label, List.append_assoc]

/-! ## Applied forms of the state primitives, for symbolic evaluation -/

@[simp] theorem emit_ins_apply (i : Instruction) (c : Compiler) :
    emit_ins i c =
      .ok ((), ⟨c.params, c.nodes ++ [.instruction i], c.labelCount,
        c.shortCircuitLabels⟩) := by
  obtain ⟨_, _, _, _⟩ := c
  rfl

@[simp] theorem emit_label_apply (l : Nat) (c : Compiler) :
    emit_label l c =
      .ok ((), ⟨c.params, c.nodes ++ [.label l], c.labelCount,
        c.shortCircuitLabels⟩) := by
  obtain ⟨_, _, _, _⟩ := c
  rfl

@[simp] theorem alloc_label_apply (c : Compiler) :
    alloc_label c =
      .ok (c.labelCount, ⟨c.params, c.nodes, c.labelCount + 1,
        c.shortCircuitLabels⟩) := by
  obtain ⟨_, _, _, _⟩ := c
  rfl

@[simp] theorem get_params_apply (c : Compiler) :
    get_params c = .ok (c.params, c) := by
  obtain ⟨_, _, _, _⟩ := c
  rfl

@[simp] theorem push_scope_apply (l : Nat) (c : Compiler) :
    push_scope l c =
      .ok ((), ⟨c.params, c.nodes, c.labelCount,
        (l, false) :: c.shortCircuitLabels⟩) := by
  obtain ⟨_, _, _, _⟩ := c
  rfl

theorem pop_scope_cons (p : List String) (ns : List Node) (lc : Nat)
    (q : Nat × Bool) (rest : List (Nat × Bool)) :
    pop_scope ⟨p, ns, lc, q :: rest⟩ = .ok (q, ⟨p, ns, lc, rest⟩) := rfl

theorem short_circuit_cons (p : List String) (ns : List Node) (lc : Nat)
    (l : Nat) (b : Bool) (rest : List (Nat × Bool)) :
    short_circuit ⟨p, ns, lc, (l, b) :: rest⟩ =
      .ok (l, ⟨p, ns, lc, (l, true) :: rest⟩) := rfl

theorem emitters_zero_pickWeights (args : List (Option Expression × Expression))
    (c : Compiler) : (emitters 0).pickWeights args c = .error .stuck := rfl

/-! ## Claim C6: compilation of `pick` -/

/-- `pick_weights_step` produces one branch entry per argument, pairing each
branch body, in order, with a fresh label. -/
theorem pick_weights_len :
    ∀ (args : List (Option Expression × Expression)) (fuel : Nat)
      (c : Compiler) (bs : List (Nat × Expression)) (c' : Compiler),
      (emitters fuel).pickWeights args c = .ok (bs, c') →
      bs.length = args.length ∧ bs.map Prod.snd = args.map Prod.snd := by
  intro args
  induction args with
  | nil =>
    intro fuel c bs c' h
    cases fuel with
    | zero => cases h
    | succ f =>
      simp only [emitters, pick_weights_step, EmitM.pure_def,
        EmitM.pureE] at h
      cases h
      simp
  | cons hd rest ih =>
    intro fuel c bs c' h
    cases fuel with
    | zero => cases h
    | succ f =>
      obtain ⟨w, rhs⟩ := hd
      simp only [emitters, pick_weights_step, EmitM.bind_def] at h
      cases w with
      | none =>
        simp only [EmitM.bind_ok, EmitM.pure_def, EmitM.pureE,
          Except.ok.injEq, Prod.mk.injEq, emit_ins_apply,
          alloc_label_apply] at h
        obtain ⟨_, c₁, ⟨-, -⟩, _, c₂, ⟨-, -⟩, bs', c₃, hrest, hbs, -⟩ := h
        subst hbs
        obtain ⟨ih1, ih2⟩ := ih f c₂ bs' c₃ hrest
        simp [ih1, ih2]
      | some l =>
        simp only [EmitM.bind_ok, EmitM.pure_def, EmitM.pureE,
          Except.ok.injEq, Prod.mk.injEq, emit_ins_apply,
          alloc_label_apply] at h
        obtain ⟨k, c₁, -, _, c₂, -, _, c₃, ⟨-, -⟩, _, c₄, ⟨-, -⟩,
          bs', c₅, hrest, hbs, -⟩ := h
        subst hbs
        obtain ⟨ih1, ih2⟩ := ih f c₄ bs' c₅ hrest
        simp [ih1, ih2]

/-- Claim C6: `pick` with exactly one unweighted argument compiles that
argument to the stack followed by a single pick instruction; one weighted
argument is rejected with the unexpected-probability error; with two or more
branches, the end label is reserved first, the weight loop then pairs every
branch body with a fresh label (one weight push each), a single
weighted-branch-table instruction follows whose case list is exactly the
branch labels — its case count equal to the branch count — then the branch
bodies, and the shared end label is emitted last. -/
theorem c6_pick :
    (∀ (fuel : Nat) (e : Expression) (c : Compiler) (k : EvalKind)
      (c₁ : Compiler) (k₂ : EvalKind) (c₂ : Compiler),
      (emitters fuel).expr e c = .ok (k, c₁) →
      emit_move_to_stack k c₁ = .ok (k₂, c₂) →
      term_emit (fuel + 1) (.pick [(none, e)]) c =
        .ok (.stack, ⟨c₂.params, c₂.nodes ++ [.instruction .pick],
          c₂.labelCount, c₂.shortCircuitLabels⟩)) ∧
    (∀ (fuel : Nat) (w e : Expression) (c : Compiler),
      term_emit (fuel + 1) (.pick [(some w, e)]) c =
        .error (.err .unexpectedProbability)) ∧
    (∀ (fuel : Nat) (args : List (Option Expression × Expression))
      (c : Compiler) (bs : List (Nat × Expression)) (c₁ c₂ : Compiler),
      2 ≤ args.length →
      (emitters fuel).pickWeights args
          ⟨c.params, c.nodes, c.labelCount + 1, c.shortCircuitLabels⟩ =
        .ok (bs, c₁) →
      (emitters fuel).pickBodies bs c.labelCount
          ⟨c₁.params,
           c₁.nodes ++ [.instruction (.pickProb (bs.map Prod.fst))],
           c₁.labelCount, c₁.shortCircuitLabels⟩ = .ok ((), c₂) →
      term_emit (fuel + 1) (.pick args) c =
        .ok (.stack, ⟨c₂.params, c₂.nodes ++ [.label c.labelCount],
          c₂.labelCount, c₂.shortCircuitLabels⟩) ∧
      bs.length = args.length ∧
      (bs.map Prod.fst).length = args.length ∧
      bs.map Prod.snd = args.map Prod.snd) := by
  refine ⟨?_, ?_, ?_⟩
  · intro fuel e c k c₁ k₂ c₂ he hm
    show term_emit_step (emitters fuel) (.pick [(none, e)]) c = _
    unfold term_emit_step
    simp [EmitM.bind, EmitM.pureE, he, hm]
  · intro fuel w e c
    rfl
  · intro fuel args c bs c₁ c₂ hlen hw hb
    match args, hlen with
    | a1 :: a2 :: rest, _ =>
      have hlens := pick_weights_len (a1 :: a2 :: rest) fuel _ bs c₁ hw
      refine ⟨?_, hlens.1, by simp [hlens.1], hlens.2⟩
      show term_emit_step (emitters fuel) (.pick (a1 :: a2 :: rest)) c = _
      unfold term_emit_step
      simp [EmitM.bind, EmitM.pureE, hw, hb]

/-- Witness for C6 at concrete inputs: `pick(1)` compiles the argument and a
single pick instruction; `pick(x, y, z)` reserves end label 0, pushes a
constant 100 weight and a fresh label (1, 2, 3) per branch, emits one
weighted-branch-table instruction with case list `[1, 2, 3]` — case count 3,
the branch count — then each branch body followed by a jump to the end
label, which is emitted last. -/
theorem c6_witness :
    term_emit 10 (.pick [(none, .base [] (.int 1) [])]) (freshCompiler []) =
      .ok (.stack,
        ⟨[],
         [.instruction (.dbgFile "<dmasm expression>"),
          .instruction (.pushInt 1), .instruction .pick],
         1, []⟩) ∧
    (term_emit 10
        (.pick [(none, .base [] (.ident "x") []),
          (none, .base [] (.ident "y") []),
          (none, .base [] (.ident "z") [])]) (freshCompiler []) =
      .ok (.stack,
        ⟨[],
         [.instruction (.dbgFile "<dmasm expression>"),
          .instruction (.pushInt 100),
          .instruction (.pushInt 100),
          .instruction (.pushInt 100),
          .instruction (.pickProb [1, 2, 3]),
          .label 1,
          .instruction (.getVar (.global "x")),
          .instruction (.jmp 0),
          .label 2,
          .instruction (.getVar (.global "y")),
          .instruction (.jmp 0),
          .label 3,
          .instruction (.getVar (.global "z")),
          .instruction (.jmp 0),
          .label 0],
         7, []⟩) ∧
      ([(1, Expression.base [] (.ident "x") []),
        (2, Expression.base [] (.ident "y") []),
        (3, Expression.base [] (.ident "z") [])].map Prod.fst).length = 3) :=
  ⟨c6_pick.1 9 (.base [] (.int 1) []) (freshCompiler []) .stack
      ⟨[], [.instruction (.dbgFile "<dmasm expression>"),
        .instruction (.pushInt 1)], 1, []⟩ .stack
      ⟨[], [.instruction (.dbgFile "<dmasm expression>"),
        .instruction (.pushInt 1)], 1, []⟩
      (by decide) (by decide),
   by
    have h := c6_pick.2.2 9
      [(none, .base [] (.ident "x") []),
       (none, .base [] (.ident "y") []),
       (none, .base [] (.ident "z") [])]
      (freshCompiler [])
      [(1, .base [] (.ident "x") []),
       (2, .base [] (.ident "y") []),
       (3, .base [] (.ident "z") [])]
      ⟨[], [.instruction (.dbgFile "<dmasm expression>"),
        .instruction (.pushInt 100),
        .instruction (.pushInt 100),
        .instruction (.pushInt 100)], 4, []⟩
      ⟨[], [.instruction (.dbgFile "<dmasm expression>"),
        .instruction (.pushInt 100),
        .instruction (.pushInt 100),
        .instruction (.pushInt 100),
        .instruction (.pickProb [1, 2, 3]),
        .label 1,
        .instruction (.getVar (.global "x")),
        .instruction (.jmp 0),
        .label 2,
        .instruction (.getVar (.global "y")),
        .instruction (.jmp 0),
        .label 3,
        .instruction (.getVar (.global "z")),
        .instruction (.jmp 0)], 7, []⟩
      (by decide) rfl rfl
    exact ⟨h.1, h.2.2.1⟩⟩

/-! ## Claim C4: ordinary method calls bracket argument evaluation -/

/-- Claim C4: an ordinary (`.`/`:`, non-global, non-safe) method call in a
follow chain emits exactly: the committed receiver materialized to the
stack, a move into the scratch slot and a push of the scratch value to the
save area, then the argument expressions compiled left-to-right onto the
stack, then a restore of the save area into the scratch slot followed by a
call by dynamic name with the original argument count — so an argument
sub-expression that itself overwrites the scratch slot cannot corrupt the
outer call's receiver. -/
theorem c4_ordinary_call :
    ∀ (fuel : Nat) (ik : IndexKind) (rest : List Follow) (kind : EvalKind)
      (buf : List String) (ident : String) (args : List Expression)
      (c : Compiler) (r : EvalKind × Compiler),
      (ik = .dot ∨ ik = .colon) →
      args.any is_assign_expr = false →
      ¬ (kind = .global ∧ buf = []) →
      (emitters (fuel + 1)).followLoop (.call ik ident args :: rest) kind
        buf c = .ok r →
      ∃ (k₁ : EvalKind) (c₁ : Compiler) (k₂ : EvalKind) (c₂ c₃ : Compiler),
        commit_field_buffer kind buf c = .ok (k₁, c₁) ∧
        emit_move_to_stack k₁ c₁ = .ok (k₂, c₂) ∧
        (emitters fuel).each args
          ⟨c₂.params,
           c₂.nodes ++
             [.instruction (.setVar .cache), .instruction .pushCache],
           c₂.labelCount, c₂.shortCircuitLabels⟩ = .ok ((), c₃) ∧
        (emitters fuel).followLoop rest .stack []
          ⟨c₃.params,
           c₃.nodes ++
             [.instruction .popCache,
              .instruction (.call (.dynamicProc ident) args.length)],
           c₃.labelCount, c₃.shortCircuitLabels⟩ = .ok r := by
  intro fuel ik rest kind buf ident args c r hik hassign hng h
  rcases hik with rfl | rfl <;>
  · rw [show (emitters (fuel + 1)).followLoop =
        follow_loop_step (emitters fuel) from rfl, follow_loop_step] at h
    simp only [hassign, Bool.false_eq_true, if_false, ite_false,
      EmitM.bind_def, EmitM.bind_ok, emit_ins_apply, Except.ok.injEq,
      Prod.mk.injEq, true_and, exists_eq_left, List.append_assoc,
      List.singleton_append] at h
    · obtain ⟨k₁, c₁, hcommit, k₂, c₂, hmove, -, _, rfl, -, _, rfl,
        u, c₃, heach, -, _, rfl, -, _, rfl, hrest⟩ := h
      refine ⟨k₁, c₁, k₂, c₂, c₃, hcommit, hmove, ?_, ?_⟩
      · simpa using heach
      · simpa using hrest
    · exact fun h1 h2 => hng ⟨h1, h2⟩

/-- Witness for C4 at the concrete input `a.f(a.g())`: the outer call's
step decomposes into receiver materialization, the scratch-slot move and
save-area push, the compilation of the inner `a.g()` argument (which itself
overwrites the scratch slot), and the save-area restore followed by the
dynamic call of `f` with 1 argument — the full stream shows the inner
call bracketed by the outer push/pop pair. -/
theorem c4_witness :
    (∃ (k₁ : EvalKind) (c₁ : Compiler) (k₂ : EvalKind) (c₂ c₃ : Compiler),
      commit_field_buffer (.var (.global "a")) []
          ⟨[], [.instruction (.dbgFile "<dmasm expression>")], 1,
            [(0, false)]⟩ = .ok (k₁, c₁) ∧
      emit_move_to_stack k₁ c₁ = .ok (k₂, c₂) ∧
      (emitters 9).each [.base [] (.ident "a") [.call .dot "g" []]]
        ⟨c₂.params,
         c₂.nodes ++
           [.instruction (.setVar .cache), .instruction .pushCache],
         c₂.labelCount, c₂.shortCircuitLabels⟩ = .ok ((), c₃) ∧
      (emitters 9).followLoop [] .stack []
        ⟨c₃.params,
         c₃.nodes ++
           [.instruction .popCache,
            .instruction (.call (.dynamicProc "f") 1)],
         c₃.labelCount, c₃.shortCircuitLabels⟩ =
        .ok (.stack,
          ⟨[],
           [.instruction (.dbgFile "<dmasm expression>"),
            .instruction (.getVar (.global "a")),
            .instruction (.setVar .cache),
            .instruction .pushCache,
            .instruction (.getVar (.global "a")),
            .instruction (.setVar .cache),
            .instruction .pushCache,
            .instruction .popCache,
            .instruction (.call (.dynamicProc "g") 0),
            .instruction .popCache,
            .instruction (.call (.dynamicProc "f") 1)],
           2, [(0, false)]⟩)) ∧
    compile_expr 12 (.base [] (.ident "a")
        [.call .dot "f" [.base [] (.ident "a") [.call .dot "g" []]]]) [] =
      .ok [.instruction (.dbgFile "<dmasm expression>"),
        .instruction (.getVar (.global "a")),
        .instruction (.setVar .cache),
        .instruction .pushCache,
        .instruction (.getVar (.global "a")),
        .instruction (.setVar .cache),
        .instruction .pushCache,
        .instruction .popCache,
        .instruction (.call (.dynamicProc "g") 0),
        .instruction .popCache,
        .instruction (.call (.dynamicProc "f") 1),
        .instruction (.newList 1),
        .instruction .ret] :=
  ⟨c4_ordinary_call 9 .dot [] (.var (.global "a")) [] "f"
      [.base [] (.ident "a") [.call .dot "g" []]]
      ⟨[], [.instruction (.dbgFile "<dmasm expression>")], 1, [(0, false)]⟩
      (.stack,
        ⟨[],
         [.instruction (.dbgFile "<dmasm expression>"),
          .instruction (.getVar (.global "a")),
          .instruction (.setVar .cache),
          .instruction .pushCache,
          .instruction (.getVar (.global "a")),
          .instruction (.setVar .cache),
          .instruction .pushCache,
          .instruction .popCache,
          .instruction (.call (.dynamicProc "g") 0),
          .instruction .popCache,
          .instruction (.call (.dynamicProc "f") 1)],
         2, [(0, false)]⟩)
      (Or.inl rfl) (by decide) (by decide) rfl,
   by decide⟩

/-! ## The label-free invariant for the amended claim C2 -/

/-- One emission step that adds no label node and leaves the declared
parameters and the short-circuit stack (flags included) untouched. -/
def LabelFree (s s' : Compiler) : Prop :=
  s'.params = s.params ∧
  s'.shortCircuitLabels = s.shortCircuitLabels ∧
  ∃ Δ, s'.nodes = s.nodes ++ Δ ∧ ∀ l, Node.label l ∉ Δ

theorem LabelFree.refl (s : Compiler) : LabelFree s s :=
  ⟨rfl, rfl, [], by simp, by simp⟩

theorem LabelFree.trans {s₁ s₂ s₃ : Compiler} (h₁ : LabelFree s₁ s₂)
    (h₂ : LabelFree s₂ s₃) : LabelFree s₁ s₃ := by
  obtain ⟨hp₁, hs₁, Δ₁, hn₁, hl₁⟩ := h₁
  obtain ⟨hp₂, hs₂, Δ₂, hn₂, hl₂⟩ := h₂
  refine ⟨hp₂.trans hp₁, hs₂.trans hs₁, Δ₁ ++ Δ₂, ?_, ?_⟩
  · rw [hn₂, hn₁, List.append_assoc]
  · intro l hl
    rcases List.mem_append.mp hl with h | h
    · exact hl₁ l h
    · exact hl₂ l h

/-- Appending one instruction node is label-free (for any label-counter
value). -/
theorem LabelFree.snoc_ins (c : Compiler) (i : Instruction) (lc : Nat) :
    LabelFree c ⟨c.params, c.nodes ++ [.instruction i], lc,
      c.shortCircuitLabels⟩ :=
  ⟨rfl, rfl, [.instruction i], rfl, by simp⟩

/-- Appending two instruction nodes is label-free. -/
theorem LabelFree.snoc_ins2 (c : Compiler) (i₁ i₂ : Instruction) (lc : Nat) :
    LabelFree c ⟨c.params, c.nodes ++ [.instruction i₁, .instruction i₂], lc,
      c.shortCircuitLabels⟩ :=
  ⟨rfl, rfl, [.instruction i₁, .instruction i₂], rfl, by simp⟩

/-- Changing only the label counter is label-free. -/
theorem LabelFree.relabel (c : Compiler) (lc : Nat) :
    LabelFree c ⟨c.params, c.nodes, lc, c.shortCircuitLabels⟩ :=
  ⟨rfl, rfl, [], by simp, by simp⟩

/-- The evaluation kinds whose later materialization cannot touch the
short-circuit machinery: everything except a safe field. -/
def kindOk : EvalKind → Prop
  | .safeField _ _ => False
  | _ => True

theorem kindOk_field (cb : ChainBuilder) (f : String) :
    kindOk (.field cb f) := trivial

/-- `emit_move_to_stack` of a non-safe kind is label-free and yields a
non-safe kind. -/
theorem lf_move_stack :
    ∀ (kind : EvalKind) (s : Compiler) (k' : EvalKind) (s' : Compiler),
      kindOk kind → emit_move_to_stack kind s = .ok (k', s') →
      LabelFree s s' ∧ kindOk k' := by
  intro kind s k' s' hk h
  cases kind <;>
    simp only [emit_move_to_stack, EmitM.bind_def, EmitM.bind, EmitM.pure_def,
      EmitM.pureE, emit_ins_apply, throwE, Except.ok.injEq,
      Prod.mk.injEq] at h
  case stack =>
    obtain ⟨rfl, rfl⟩ := h
    exact ⟨LabelFree.refl s, trivial⟩
  case listRef =>
    obtain ⟨rfl, rfl⟩ := h
    exact ⟨LabelFree.snoc_ins s _ _, trivial⟩
  case var v =>
    obtain ⟨rfl, rfl⟩ := h
    exact ⟨LabelFree.snoc_ins s _ _, trivial⟩
  case field cb f =>
    obtain ⟨rfl, rfl⟩ := h
    exact ⟨LabelFree.snoc_ins s _ _, trivial⟩
  case safeField cb f => exact absurd hk id
  case range => cases h
  case global => cases h

/-- `emit_move_to_chain_builder` of a non-safe kind is label-free. -/
theorem lf_move_cb :
    ∀ (kind : EvalKind) (s : Compiler) (b : ChainBuilder) (s' : Compiler),
      kindOk kind → emit_move_to_chain_builder kind s = .ok (b, s') →
      LabelFree s s' := by
  intro kind s b s' hk h
  cases kind <;>
    simp only [emit_move_to_chain_builder, EmitM.bind_def, EmitM.bind,
      EmitM.pure_def, EmitM.pureE, emit_ins_apply, throwE, Except.ok.injEq,
      Prod.mk.injEq, List.append_assoc, List.singleton_append] at h
  case stack =>
    obtain ⟨rfl, rfl⟩ := h
    exact LabelFree.snoc_ins s _ _
  case listRef =>
    obtain ⟨rfl, rfl⟩ := h
    exact LabelFree.snoc_ins2 s _ _ _
  case var v =>
    obtain ⟨rfl, rfl⟩ := h
    exact LabelFree.refl s
  case field cb f =>
    obtain ⟨rfl, rfl⟩ := h
    exact LabelFree.refl s
  case safeField cb f => exact absurd hk id
  case range => cases h
  case global => cases h

/-- `commit_field_buffer` from a non-safe kind is label-free and yields a
non-safe kind. -/
theorem lf_commit :
    ∀ (buf : List String) (kind : EvalKind) (s : Compiler) (k' : EvalKind)
      (s' : Compiler),
      kindOk kind → commit_field_buffer kind buf s = .ok (k', s') →
      LabelFree s s' ∧ kindOk k' := by
  intro buf
  induction buf with
  | nil =>
    intro kind s k' s' hk h
    rw [commit_field_buffer] at h
    simp only [EmitM.pure_def, EmitM.pureE, Except.ok.injEq,
      Prod.mk.injEq] at h
    obtain ⟨rfl, rfl⟩ := h
    exact ⟨LabelFree.refl s, hk⟩
  | cons f rest ih =>
    intro kind s k' s' hk h
    cases kind
    case global =>
      rw [commit_field_buffer] at h
      exact ih (.var (.global f)) s k' s' trivial h
    case safeField cb fld => exact absurd hk id
    case range =>
      rw [commit_field_buffer] at h
      cases h
    case stack =>
      rw [commit_field_buffer] at h
      simp only [EmitM.bind_def, EmitM.bind, emit_ins_apply, commit_rest,
        EmitM.pure_def, EmitM.pureE, Except.ok.injEq, Prod.mk.injEq] at h
      obtain ⟨rfl, rfl⟩ := h
      exact ⟨LabelFree.snoc_ins s _ _, kindOk_field _ _⟩
    case listRef =>
      rw [commit_field_buffer] at h
      simp only [EmitM.bind_def, EmitM.bind, emit_ins_apply, commit_rest,
        EmitM.pure_def, EmitM.pureE, Except.ok.injEq, Prod.mk.injEq,
        List.append_assoc, List.singleton_append] at h
      obtain ⟨rfl, rfl⟩ := h
      exact ⟨LabelFree.snoc_ins2 s _ _ _, kindOk_field _ _⟩
    case var v =>
      rw [commit_field_buffer] at h
      simp only [commit_rest, EmitM.pure_def, EmitM.pureE, Except.ok.injEq,
        Prod.mk.injEq] at h
      obtain ⟨rfl, rfl⟩ := h
      exact ⟨LabelFree.refl s, kindOk_field _ _⟩
    case field cb fld =>
      rw [commit_field_buffer] at h
      simp only [commit_rest, EmitM.pure_def, EmitM.pureE, Except.ok.injEq,
        Prod.mk.injEq] at h
      obtain ⟨rfl, rfl⟩ := h
      exact ⟨LabelFree.refl s, kindOk_field _ _⟩

/-- `unary_emit` from a non-safe kind is label-free and yields a non-safe
kind. -/
theorem lf_unary :
    ∀ (ops : List UnaryOp) (kind : EvalKind) (s : Compiler) (k' : EvalKind)
      (s' : Compiler),
      kindOk kind → unary_emit ops kind s = .ok (k', s') →
      LabelFree s s' ∧ kindOk k' := by
  intro ops
  induction ops with
  | nil =>
    intro kind s k' s' hk h
    rw [unary_emit] at h
    simp only [EmitM.pure_def, EmitM.pureE, Except.ok.injEq,
      Prod.mk.injEq] at h
    obtain ⟨rfl, rfl⟩ := h
    exact ⟨LabelFree.refl s, hk⟩
  | cons op rest ih =>
    obtain ⟨code⟩ := op
    intro kind s k' s' hk h
    rw [unary_emit] at h
    simp only [EmitM.bind_def, EmitM.bind_ok] at h
    obtain ⟨k₁, c₁, hmove, _, c₂, hins, hrest⟩ := h
    obtain ⟨lf₁, _⟩ := lf_move_stack kind s k₁ c₁ hk hmove
    rw [emit_ins_apply] at hins
    simp only [Except.ok.injEq, Prod.mk.injEq] at hins
    obtain ⟨-, rfl⟩ := hins
    obtain ⟨lf₃, hko⟩ := ih .stack _ k' s' trivial hrest
    exact ⟨(lf₁.trans (LabelFree.snoc_ins _ _ _)).trans lf₃, hko⟩

/-- The label-free property for each emitter of a bundle, under the
strict safe-navigation/short-circuit-free predicate. -/
def LFexpr (E : Emitters) : Prop :=
  ∀ e s k s', exprScFree true e = true → E.expr e s = .ok (k, s') →
    LabelFree s s' ∧ kindOk k

/-- `LFexpr` for the inner-expression emitter. -/
def LFinner (E : Emitters) : Prop :=
  ∀ e s k s', exprScFree true e = true → E.inner e s = .ok (k, s') →
    LabelFree s s' ∧ kindOk k

/-- `LFexpr` for the term emitter. -/
def LFterm (E : Emitters) : Prop :=
  ∀ t s k s', termScFree true t = true → E.term t s = .ok (k, s') →
    LabelFree s s' ∧ kindOk k

/-- `LFexpr` for the follow-chain loop. -/
def LFfollow (E : Emitters) : Prop :=
  ∀ fl kind buf s k' s', followsScFree true fl = true → kindOk kind →
    E.followLoop fl kind buf s = .ok (k', s') →
    LabelFree s s' ∧ kindOk k'

/-- `LFexpr` for the argument loop. -/
def LFeach (E : Emitters) : Prop :=
  ∀ args s u s', exprsScFree true args = true → E.each args s = .ok (u, s') →
    LabelFree s s'

/-- `LFexpr` for the argument classifier. -/
def LFargsE (E : Emitters) : Prop :=
  ∀ ctx args s res s', exprsScFree true args = true →
    E.argsE ctx args s = .ok (res, s') → LabelFree s s'

/-- `LFexpr` for the positional argument loop. -/
def LFargsN (E : Emitters) : Prop :=
  ∀ ctx args s u s', exprsScFree true args = true →
    E.argsNormal ctx args s = .ok (u, s') → LabelFree s s'

/-- `LFexpr` for the `new` argument emitter. -/
def LFnew (E : Emitters) : Prop :=
  ∀ args s k s',
    (match args with
     | none => true
     | some l => exprsScFree true l) = true →
    E.newE args s = .ok (k, s') → LabelFree s s' ∧ kindOk k

/-- `LFexpr` for the binary-operator emitter (non-short-circuit
operators). -/
def LFbinary (E : Emitters) : Prop :=
  ∀ op l r s k s',
    (match op with
     | BinaryOp.and => false
     | BinaryOp.or => false
     | _ => true) = true →
    exprScFree true l = true → exprScFree true r = true →
    E.binary op l r s = .ok (k, s') → LabelFree s s' ∧ kindOk k

/-- `LFexpr` for the assignment emitter. -/
def LFassign (E : Emitters) : Prop :=
  ∀ op l r s k s', exprScFree true l = true → exprScFree true r = true →
    E.assign op l r s = .ok (k, s') → LabelFree s s' ∧ kindOk k

/-- All emitters of a bundle are label-free on strict
safe-navigation/short-circuit-free input. -/
def LFall (E : Emitters) : Prop :=
  LFexpr E ∧ LFinner E ∧ LFterm E ∧ LFfollow E ∧ LFeach E ∧ LFargsE E ∧
    LFargsN E ∧ LFnew E ∧ LFbinary E ∧ LFassign E

theorem lf_step_each (P : Emitters) (hP : LFall P) :
    ∀ args s u s', exprsScFree true args = true →
      emit_each_step P args s = .ok (u, s') → LabelFree s s' := by
  intro args s u s' hpred h
  cases args with
  | nil =>
    rw [emit_each_step] at h
    simp only [EmitM.pure_def, EmitM.pureE, Except.ok.injEq,
      Prod.mk.injEq] at h
    obtain ⟨-, rfl⟩ := h
    exact LabelFree.refl s
  | cons e rest =>
    rw [exprsScFree, Bool.and_eq_true] at hpred
    rw [emit_each_step] at h
    simp only [EmitM.bind_def, EmitM.bind_ok] at h
    obtain ⟨k₁, c₁, he, _, c₂, hmove, hrest⟩ := h
    obtain ⟨lf₁, hk₁⟩ := hP.1 e s k₁ c₁ hpred.1 he
    obtain ⟨lf₂, -⟩ := lf_move_stack k₁ c₁ _ c₂ hk₁ hmove
    exact (lf₁.trans lf₂).trans (hP.2.2.2.2.1 rest c₂ u s' hpred.2 hrest)

theorem lf_step_argsE (P : Emitters) (hP : LFall P) :
    ∀ ctx args s res s', exprsScFree true args = true →
      args_emit_step P ctx args s = .ok (res, s') → LabelFree s s' := by
  intro ctx args s res s' hpred h
  rw [args_emit_step] at h
  simp only [EmitM.bind_def, EmitM.bind_ok, EmitM.pure_def, EmitM.pureE,
    Except.ok.injEq, Prod.mk.injEq] at h
  obtain ⟨u, c₁, he, -, rfl⟩ := h
  exact hP.2.2.2.2.1 args s u c₁ hpred he

theorem lf_step_argsN (P : Emitters) (hP : LFall P) :
    ∀ ctx args s u s', exprsScFree true args = true →
      args_emit_normal_step P ctx args s = .ok (u, s') → LabelFree s s' := by
  intro ctx args s u s' hpred h
  rw [args_emit_normal_step] at h
  exact hP.2.2.2.2.1 args s u s' hpred h

theorem lf_step_new (P : Emitters) (hP : LFall P) :
    ∀ args s k s',
      (match args with
       | none => true
       | some l => exprsScFree true l) = true →
      emit_new_step P args s = .ok (k, s') → LabelFree s s' ∧ kindOk k := by
  intro args s k s' hpred h
  rw [emit_new_step] at h
  have hpred' : exprsScFree true (args.getD []) = true := by
    cases args with
    | none => rfl
    | some l => exact hpred
  simp only [EmitM.bind_def, EmitM.bind_ok] at h
  obtain ⟨res, c₁, hargs, h⟩ := h
  have lf₁ := hP.2.2.2.2.2.1 .proc _ s res c₁ hpred' hargs
  cases res <;>
    simp only [EmitM.bind_def, EmitM.bind, EmitM.pure_def, EmitM.pureE,
      emit_ins_apply, Except.ok.injEq, Prod.mk.injEq,
      List.append_assoc, List.singleton_append] at h
  case normal =>
    obtain ⟨rfl, rfl⟩ := h
    exact ⟨lf₁.trans (LabelFree.snoc_ins _ _ _), trivial⟩
  case assoc =>
    obtain ⟨rfl, rfl⟩ := h
    exact ⟨lf₁.trans (LabelFree.snoc_ins2 _ _ _ _), trivial⟩
  case argList =>
    obtain ⟨rfl, rfl⟩ := h
    exact ⟨lf₁.trans (LabelFree.snoc_ins _ _ _), trivial⟩

theorem lf_step_binary (P : Emitters) (hP : LFall P) :
    ∀ op l r s k s',
      (match op with
       | BinaryOp.and => false
       | BinaryOp.or => false
       | _ => true) = true →
      exprScFree true l = true → exprScFree true r = true →
      binary_ops_step P op l r s = .ok (k, s') →
      LabelFree s s' ∧ kindOk k := by
  intro op l r s k s' hop hl hr h
  cases op
  case and => cases hop
  case or => cases hop
  case «to» =>
    rw [binary_ops_step] at h
    simp only [EmitM.bind_def, EmitM.bind_ok, EmitM.pure_def, EmitM.pureE,
      Except.ok.injEq, Prod.mk.injEq] at h
    obtain ⟨kl, c₁, hle, _, c₂, hlm, kr, c₃, hre, _, c₄, hrm, rfl, rfl⟩ := h
    obtain ⟨lf₁, hk₁⟩ := hP.1 l s kl c₁ hl hle
    obtain ⟨lf₂, -⟩ := lf_move_stack kl c₁ _ c₂ hk₁ hlm
    obtain ⟨lf₃, hk₃⟩ := hP.1 r c₂ kr c₃ hr hre
    obtain ⟨lf₄, -⟩ := lf_move_stack kr c₃ _ c₄ hk₃ hrm
    exact ⟨((lf₁.trans lf₂).trans lf₃).trans lf₄, trivial⟩
  case other code =>
    rw [binary_ops_step] at h
    simp only [EmitM.bind_def, EmitM.bind_ok, EmitM.pure_def, EmitM.pureE,
      emit_ins_apply, Except.ok.injEq, Prod.mk.injEq] at h
    obtain ⟨kl, c₁, hle, _, c₂, hlm, kr, c₃, hre, _, c₄, hrm, -, _,
      ⟨-, rfl⟩, rfl, rfl⟩ := h
    obtain ⟨lf₁, hk₁⟩ := hP.1 l s kl c₁ hl hle
    obtain ⟨lf₂, -⟩ := lf_move_stack kl c₁ _ c₂ hk₁ hlm
    obtain ⟨lf₃, hk₃⟩ := hP.1 r c₂ kr c₃ hr hre
    obtain ⟨lf₄, -⟩ := lf_move_stack kr c₃ _ c₄ hk₃ hrm
    exact ⟨(((lf₁.trans lf₂).trans lf₃).trans lf₄).trans
      (LabelFree.snoc_ins _ _ _), trivial⟩

theorem lf_step_assign (P : Emitters) (hP : LFall P) :
    ∀ op l r s k s', exprScFree true l = true → exprScFree true r = true →
      assignment_step P op l r s = .ok (k, s') →
      LabelFree s s' ∧ kindOk k := by
  intro op l r s k s' hl hr h
  rw [assignment_step] at h
  simp only [EmitM.bind_def, EmitM.bind_ok] at h
  obtain ⟨kl, c₁, hle, h⟩ := h
  obtain ⟨lf₁, hk₁⟩ := hP.1 l s kl c₁ hl hle
  cases kl
  case stack => exact absurd h (by simp [throwE])
  case range => exact absurd h (by simp [throwE])
  case global => exact absurd h (by simp [throwE])
  case safeField cb f => exact absurd hk₁ id
  case var v =>
    by_cases hw : is_writable v = true
    · simp only [hw, if_true, ite_true, EmitM.bind_def, EmitM.bind_ok] at h
      obtain ⟨kr, c₂, hre, _, c₃, hrm, h⟩ := h
      obtain ⟨lf₂, hk₂⟩ := hP.1 r c₁ kr c₂ hr hre
      obtain ⟨lf₃, -⟩ := lf_move_stack kr c₂ _ c₃ hk₂ hrm
      cases op <;>
        simp only [EmitM.bind_def, EmitM.bind, EmitM.pure_def, EmitM.pureE,
          emit_ins_apply, Except.ok.injEq, Prod.mk.injEq] at h <;>
        obtain ⟨rfl, rfl⟩ := h <;>
        exact ⟨((lf₁.trans lf₂).trans lf₃).trans (LabelFree.snoc_ins _ _ _),
          trivial⟩
    · simp only [hw, if_false, ite_false, Bool.false_eq_true] at h
      exact absurd h (by simp [throwE])
  case field cb f =>
    simp only [EmitM.bind_def, EmitM.bind_ok] at h
    obtain ⟨kr, c₂, hre, _, c₃, hrm, h⟩ := h
    obtain ⟨lf₂, hk₂⟩ := hP.1 r c₁ kr c₂ hr hre
    obtain ⟨lf₃, -⟩ := lf_move_stack kr c₂ _ c₃ hk₂ hrm
    cases op <;>
      simp only [EmitM.bind_def, EmitM.bind, EmitM.pure_def, EmitM.pureE,
        emit_ins_apply, Except.ok.injEq, Prod.mk.injEq] at h <;>
      obtain ⟨rfl, rfl⟩ := h <;>
      exact ⟨((lf₁.trans lf₂).trans lf₃).trans (LabelFree.snoc_ins _ _ _),
        trivial⟩
  case listRef =>
    simp only [EmitM.bind_def, EmitM.bind_ok] at h
    obtain ⟨kr, c₂, hre, _, c₃, hrm, h⟩ := h
    obtain ⟨lf₂, hk₂⟩ := hP.1 r c₁ kr c₂ hr hre
    obtain ⟨lf₃, -⟩ := lf_move_stack kr c₂ _ c₃ hk₂ hrm
    cases op <;>
      simp only [EmitM.bind_def, EmitM.bind, EmitM.pure_def, EmitM.pureE,
        emit_ins_apply, Except.ok.injEq, Prod.mk.injEq] at h <;>
      obtain ⟨rfl, rfl⟩ := h <;>
      exact ⟨((lf₁.trans lf₂).trans lf₃).trans (LabelFree.snoc_ins _ _ _),
        trivial⟩

theorem lf_step_expr (P : Emitters) (hP : LFall P) :
    ∀ e s k s', exprScFree true e = true →
      emit_expr_step P e s = .ok (k, s') → LabelFree s s' ∧ kindOk k := by
  intro e s k s' hpred h
  obtain ⟨sp, sn, slc, sscl⟩ := s
  rw [emit_expr_step] at h
  simp only [EmitM.bind_def, EmitM.bind_ok, alloc_label_apply,
    push_scope_apply, Except.ok.injEq, Prod.mk.injEq, true_and] at h
  obtain ⟨_, _, ⟨rfl, rfl⟩, -, _, rfl, ki, c₂, hinner, q, c₃, hpop,
    hite⟩ := h
  obtain ⟨lfi, hki⟩ := hP.2.1 e _ ki c₂ hpred hinner
  obtain ⟨hpi, hsi, Δ, hni, hli⟩ := lfi
  obtain ⟨p₂, ns₂, lc₂, scl₂⟩ := c₂
  dsimp only at hpi hsi hni
  subst hpi hsi hni
  rw [pop_scope_cons] at hpop
  simp only [Except.ok.injEq, Prod.mk.injEq] at hpop
  obtain ⟨rfl, rfl⟩ := hpop
  simp only [Bool.false_eq_true, if_false, ite_false, EmitM.pure_def,
    EmitM.pureE, Except.ok.injEq, Prod.mk.injEq] at hite
  obtain ⟨rfl, rfl⟩ := hite
  exact ⟨⟨rfl, rfl, Δ, rfl, hli⟩, hki⟩

theorem lf_step_inner (P : Emitters) (hP : LFall P) :
    ∀ e s k s', exprScFree true e = true →
      emit_inner_expr_step P e s = .ok (k, s') →
      LabelFree s s' ∧ kindOk k := by
  intro e s k s' hpred h
  cases e with
  | ternaryOp cond ifE elseE => cases hpred
  | binaryOp op l r =>
    cases op
    case and => simp [exprScFree] at hpred
    case or => simp [exprScFree] at hpred
    case «to» =>
      rw [exprScFree, Bool.and_eq_true, Bool.and_eq_true] at hpred
      exacts [hP.2.2.2.2.2.2.2.2.1 .to l r s k s' rfl hpred.1.2 hpred.2 h,
        by decide, by decide]
    case other code =>
      rw [exprScFree, Bool.and_eq_true, Bool.and_eq_true] at hpred
      rotate_right 2
      · intro hc
        cases hc
      · intro hc
        cases hc
      · exact hP.2.2.2.2.2.2.2.2.1 (.other code) l r s k s' rfl hpred.1.2
          hpred.2 h
  | assignOp op l r =>
    rw [exprScFree, Bool.and_eq_true] at hpred
    exact hP.2.2.2.2.2.2.2.2.2 op l r s k s' hpred.1 hpred.2 h
  | base unary term follow =>
    rw [exprScFree, Bool.and_eq_true] at hpred
    rw [emit_inner_expr_step] at h
    simp only [EmitM.bind_def, EmitM.bind_ok] at h
    obtain ⟨kt, c₁, hterm, kf, c₂, hfollow, hguard⟩ := h
    obtain ⟨lf₁, hk₁⟩ := hP.2.2.1 term s kt c₁ hpred.1 hterm
    obtain ⟨lf₂, hk₂⟩ :=
      hP.2.2.2.1 follow kt [] c₁ kf c₂ hpred.2 hk₁ hfollow
    obtain ⟨lf₃, hk₃⟩ := lf_unary unary kf c₂ k s' hk₂ hguard
    exact ⟨(lf₁.trans lf₂).trans lf₃, hk₃⟩

theorem lf_step_follow (P : Emitters) (hP : LFall P) :
    ∀ fl kind buf s k' s', followsScFree true fl = true → kindOk kind →
      follow_loop_step P fl kind buf s = .ok (k', s') →
      LabelFree s s' ∧ kindOk k' := by
  intro fl kind buf s k' s' hpred hkind h
  cases fl with
  | nil =>
    rw [follow_loop_step] at h
    exact lf_commit buf kind s k' s' hkind h
  | cons f rest =>
    rw [followsScFree, Bool.and_eq_true] at hpred
    obtain ⟨hf, hrest⟩ := hpred
    cases f with
    | field ik ident =>
      rw [followScFree] at hf
      cases ik
      case safeDot => cases hf
      case safeColon => cases hf
      case dot =>
        rw [follow_loop_step] at h
        exact hP.2.2.2.1 rest kind (buf ++ [ident]) s k' s' hrest hkind h
      case colon =>
        rw [follow_loop_step] at h
        exact hP.2.2.2.1 rest kind (buf ++ [ident]) s k' s' hrest hkind h
    | index e =>
      rw [followScFree] at hf
      rw [follow_loop_step] at h
      simp only [EmitM.bind_def, EmitM.bind_ok] at h
      obtain ⟨k₁, c₁, hcommit, _, c₂, hm₁, ke, c₃, he, _, c₄, hm₂,
        hloop⟩ := h
      obtain ⟨lf₁, hk₁⟩ := lf_commit buf kind s k₁ c₁ hkind hcommit
      obtain ⟨lf₂, -⟩ := lf_move_stack k₁ c₁ _ c₂ hk₁ hm₁
      obtain ⟨lf₃, hk₃⟩ := hP.1 e c₂ ke c₃ hf he
      obtain ⟨lf₄, -⟩ := lf_move_stack ke c₃ _ c₄ hk₃ hm₂
      obtain ⟨lf₅, hk₅⟩ :=
        hP.2.2.2.1 rest .listRef [] c₄ k' s' hrest trivial hloop
      exact ⟨(((lf₁.trans lf₂).trans lf₃).trans lf₄).trans lf₅, hk₅⟩
    | call ik ident args =>
      rw [followScFree, Bool.and_eq_true] at hf
      obtain ⟨hsafe, hargs⟩ := hf
      rw [follow_loop_step.eq_def] at h
      dsimp only at h
      cases hb : args.any is_assign_expr
      case true =>
        rw [hb, if_pos rfl] at h
        simp [throwE] at h
      case false =>
        rw [hb, if_neg (by simp)] at h
        cases ik
        case safeDot => exact absurd hsafe (by simp [IndexKind.isSafe])
        case safeColon => exact absurd hsafe (by simp [IndexKind.isSafe])
        case dot =>
          dsimp only at h
          split at h
          · simp only [EmitM.bind_def, EmitM.bind_ok, emit_ins_apply,
              Except.ok.injEq, Prod.mk.injEq, true_and, exists_eq_left,
              List.append_assoc, List.singleton_append] at h
            obtain ⟨u, c₁, heach, -, _, rfl, hloop⟩ := h
            have lf₁ := hP.2.2.2.2.1 args s u c₁ hargs heach
            obtain ⟨lf₂, hk₂⟩ := hP.2.2.2.1 rest .stack [] _ k' s' hrest
              trivial hloop
            exact ⟨(lf₁.trans (LabelFree.snoc_ins _ _ _)).trans lf₂, hk₂⟩
          · simp only [EmitM.bind_def, EmitM.bind_ok, emit_ins_apply,
              Except.ok.injEq, Prod.mk.injEq, true_and, exists_eq_left,
              List.append_assoc, List.singleton_append] at h
            obtain ⟨k₁, c₁, hcommit, k₂, c₂, hmove, -, _, rfl, -, _, rfl,
              u, c₃, heach, -, _, rfl, -, _, rfl, hloop⟩ := h
            dsimp only at heach hloop
            simp only [List.append_assoc, List.singleton_append]
              at heach hloop
            obtain ⟨lf₁, hk₁⟩ := lf_commit buf kind s k₁ c₁ hkind hcommit
            obtain ⟨lf₂, -⟩ := lf_move_stack k₁ c₁ k₂ c₂ hk₁ hmove
            have lfA := LabelFree.snoc_ins2 c₂ (.setVar .cache) .pushCache
              c₂.labelCount
            have lf₃ := hP.2.2.2.2.1 args _ u c₃ hargs heach
            have lfB := LabelFree.snoc_ins2 c₃ .popCache
              (.call (.dynamicProc ident) args.length) c₃.labelCount
            obtain ⟨lf₄, hk₄⟩ := hP.2.2.2.1 rest .stack [] _ k' s' hrest
              trivial hloop
            exact ⟨((((lf₁.trans lf₂).trans lfA).trans lf₃).trans lfB).trans
              lf₄, hk₄⟩
        case colon =>
          dsimp only at h
          split at h
          · simp only [EmitM.bind_def, EmitM.bind_ok, emit_ins_apply,
              Except.ok.injEq, Prod.mk.injEq, true_and, exists_eq_left,
              List.append_assoc, List.singleton_append] at h
            obtain ⟨u, c₁, heach, -, _, rfl, hloop⟩ := h
            have lf₁ := hP.2.2.2.2.1 args s u c₁ hargs heach
            obtain ⟨lf₂, hk₂⟩ := hP.2.2.2.1 rest .stack [] _ k' s' hrest
              trivial hloop
            exact ⟨(lf₁.trans (LabelFree.snoc_ins _ _ _)).trans lf₂, hk₂⟩
          · simp only [EmitM.bind_def, EmitM.bind_ok, emit_ins_apply,
              Except.ok.injEq, Prod.mk.injEq, true_and, exists_eq_left,
              List.append_assoc, List.singleton_append] at h
            obtain ⟨k₁, c₁, hcommit, k₂, c₂, hmove, -, _, rfl, -, _, rfl,
              u, c₃, heach, -, _, rfl, -, _, rfl, hloop⟩ := h
            dsimp only at heach hloop
            simp only [List.append_assoc, List.singleton_append]
              at heach hloop
            obtain ⟨lf₁, hk₁⟩ := lf_commit buf kind s k₁ c₁ hkind hcommit
            obtain ⟨lf₂, -⟩ := lf_move_stack k₁ c₁ k₂ c₂ hk₁ hmove
            have lfA := LabelFree.snoc_ins2 c₂ (.setVar .cache) .pushCache
              c₂.labelCount
            have lf₃ := hP.2.2.2.2.1 args _ u c₃ hargs heach
            have lfB := LabelFree.snoc_ins2 c₃ .popCache
              (.call (.dynamicProc ident) args.length) c₃.labelCount
            obtain ⟨lf₄, hk₄⟩ := hP.2.2.2.1 rest .stack [] _ k' s' hrest
              trivial hloop
            exact ⟨((((lf₁.trans lf₂).trans lfA).trans lf₃).trans lfB).trans
              lf₄, hk₄⟩

/-- Identifier resolution never produces a safe field. -/
theorem kindOk_find_var (params : List String) (ident : String) :
    kindOk (emit_find_var params ident) := by
  unfold emit_find_var
  split
  · trivial
  · split <;> trivial

/-- Mapping a `new` mini-expression's plain fields to follows preserves the
predicate. -/
theorem followsScFree_map_fields :
    ∀ fields : List (IndexKind × String),
      (fields.all fun kf => !kf.1.isSafe) = true →
      followsScFree true (fields.map fun kf => Follow.field kf.1 kf.2) =
        true := by
  intro fields h
  induction fields with
  | nil => rfl
  | cons kf rest ih =>
    rw [List.all_cons, Bool.and_eq_true] at h
    rw [List.map_cons, followsScFree, followScFree, h.1, ih h.2]
    rfl

/-- Unfolding of the predicate on a `new` term. -/
theorem termScFree_new (strict : Bool) (ty : NewType)
    (args : Option (List Expression)) :
    termScFree strict (.new ty args) =
      ((match ty with
        | .miniExpr _ fields => fields.all fun kf => !kf.1.isSafe
        | _ => true) &&
       (match args with
        | none => true
        | some l => exprsScFree strict l)) := by
  cases ty <;> cases args <;> simp [termScFree]

/-- Unfolding of the predicate on a `locate` term. -/
theorem termScFree_locate (strict : Bool) (args : List Expression)
    (il : Option Expression) :
    termScFree strict (.locate args il) =
      (exprsScFree strict args &&
       (match il with
        | none => true
        | some e => exprScFree strict e)) := by
  cases il <;> simp [termScFree]

theorem lf_step_term (P : Emitters) (hP : LFall P) :
    ∀ t s k s', termScFree true t = true →
      term_emit_step P t s = .ok (k, s') → LabelFree s s' ∧ kindOk k := by
  intro t s k s' hpred h
  cases t with
  | expr e =>
    rw [term_emit_step] at h
    exact hP.1 e s k s' hpred h
  | null =>
    simp only [term_emit_step, EmitM.bind_def, EmitM.bind, EmitM.pure_def,
      EmitM.pureE, emit_ins_apply, Except.ok.injEq, Prod.mk.injEq] at h
    obtain ⟨rfl, rfl⟩ := h
    exact ⟨LabelFree.snoc_ins s _ _, trivial⟩
  | int i =>
    simp only [term_emit_step, EmitM.bind_def, EmitM.bind, EmitM.pure_def,
      EmitM.pureE, emit_ins_apply, Except.ok.injEq, Prod.mk.injEq] at h
    obtain ⟨rfl, rfl⟩ := h
    exact ⟨LabelFree.snoc_ins s _ _, trivial⟩
  | float bits =>
    simp only [term_emit_step, EmitM.bind_def, EmitM.bind, EmitM.pure_def,
      EmitM.pureE, emit_ins_apply, Except.ok.injEq, Prod.mk.injEq] at h
    obtain ⟨rfl, rfl⟩ := h
    exact ⟨LabelFree.snoc_ins s _ _, trivial⟩
  | string str =>
    simp only [term_emit_step, EmitM.bind_def, EmitM.bind, EmitM.pure_def,
      EmitM.pureE, emit_ins_apply, Except.ok.injEq, Prod.mk.injEq] at h
    obtain ⟨rfl, rfl⟩ := h
    exact ⟨LabelFree.snoc_ins s _ _, trivial⟩
  | resource r =>
    simp only [term_emit_step, EmitM.bind_def, EmitM.bind, EmitM.pure_def,
      EmitM.pureE, emit_ins_apply, Except.ok.injEq, Prod.mk.injEq] at h
    obtain ⟨rfl, rfl⟩ := h
    exact ⟨LabelFree.snoc_ins s _ _, trivial⟩
  | asBits bits =>
    simp only [term_emit_step, EmitM.bind_def, EmitM.bind, EmitM.pure_def,
      EmitM.pureE, emit_ins_apply, Except.ok.injEq, Prod.mk.injEq] at h
    obtain ⟨rfl, rfl⟩ := h
    exact ⟨LabelFree.snoc_ins s _ _, trivial⟩
  | ident str =>
    simp only [term_emit_step, EmitM.bind_def, EmitM.bind, EmitM.pure_def,
      EmitM.pureE, get_params_apply, Except.ok.injEq, Prod.mk.injEq] at h
    obtain ⟨rfl, rfl⟩ := h
    exact ⟨LabelFree.refl s, kindOk_find_var _ _⟩
  | prefab p =>
    rw [term_emit_step] at h
    by_cases hv : p.vars ≠ []
    · rw [if_pos hv] at h
      simp [throwE] at h
    · rw [if_neg hv] at h
      simp only [EmitM.bind_def, EmitM.bind, EmitM.pure_def, EmitM.pureE,
        emit_ins_apply, Except.ok.injEq, Prod.mk.injEq] at h
      obtain ⟨rfl, rfl⟩ := h
      exact ⟨LabelFree.snoc_ins s _ _, trivial⟩
  | call ident args =>
    rw [termScFree] at hpred
    rw [term_emit_step] at h
    simp only [EmitM.bind_def, EmitM.bind_ok] at h
    obtain ⟨res, c₁, hargs, h⟩ := h
    have lf₁ := hP.2.2.2.2.2.1 .proc args s res c₁ hpred hargs
    cases res <;>
      simp only [EmitM.bind_def, EmitM.bind, EmitM.pure_def, EmitM.pureE,
        emit_ins_apply, Except.ok.injEq, Prod.mk.injEq, List.append_assoc,
        List.singleton_append] at h <;>
      obtain ⟨rfl, rfl⟩ := h
    · exact ⟨lf₁.trans (LabelFree.snoc_ins _ _ _), trivial⟩
    · exact ⟨lf₁.trans (LabelFree.snoc_ins2 _ _ _ _), trivial⟩
    · exact ⟨lf₁.trans (LabelFree.snoc_ins _ _ _), trivial⟩
  | dynamicCall lhs rhs =>
    rw [termScFree, Bool.and_eq_true] at hpred
    rw [term_emit_step] at h
    cases he : lhs.isEmpty
    case true =>
      rw [he, if_pos rfl] at h
      simp [throwE] at h
    case false =>
      rw [he, if_neg (by simp)] at h
      by_cases h2 : lhs.length > 2
      · rw [if_pos h2] at h
        simp [throwE] at h
      · rw [if_neg h2] at h
        simp only [EmitM.bind_def, EmitM.bind_ok] at h
        obtain ⟨u, c₁, heach, res, c₂, hargs, h⟩ := h
        have lf₁ := hP.2.2.2.2.1 lhs s u c₁ hpred.1 heach
        have lf₂ := hP.2.2.2.2.2.1 .list rhs c₁ res c₂ hpred.2 hargs
        cases res with
        | normal =>
          rcases hL : lhs.length with _ | (_ | n) <;>
            rw [hL] at h <;>
            simp only [EmitM.bind_def, EmitM.bind, EmitM.pure_def,
              EmitM.pureE, emit_ins_apply, Except.ok.injEq,
              Prod.mk.injEq] at h <;>
            obtain ⟨rfl, rfl⟩ := h <;>
            exact ⟨(lf₁.trans lf₂).trans (LabelFree.snoc_ins _ _ _), trivial⟩
        | assoc =>
          simp only [EmitM.bind_def, EmitM.bind_ok, emit_ins_apply,
            Except.ok.injEq, Prod.mk.injEq, true_and, exists_eq_left] at h
          obtain ⟨-, _, rfl, h⟩ := h
          rcases hL : lhs.length with _ | (_ | n) <;>
            rw [hL] at h <;>
            simp only [EmitM.bind_def, EmitM.bind, EmitM.pure_def,
              EmitM.pureE, emit_ins_apply, Except.ok.injEq, Prod.mk.injEq,
              List.append_assoc, List.singleton_append] at h <;>
            obtain ⟨rfl, rfl⟩ := h <;>
            exact ⟨(lf₁.trans lf₂).trans (LabelFree.snoc_ins2 _ _ _ _),
              trivial⟩
        | argList =>
          rcases hL : lhs.length with _ | (_ | n) <;>
            rw [hL] at h <;>
            simp only [EmitM.bind_def, EmitM.bind, EmitM.pure_def,
              EmitM.pureE, emit_ins_apply, Except.ok.injEq,
              Prod.mk.injEq] at h <;>
            obtain ⟨rfl, rfl⟩ := h <;>
            exact ⟨(lf₁.trans lf₂).trans (LabelFree.snoc_ins _ _ _), trivial⟩
  | selfCall =>
    rw [term_emit_step] at h
    simp [throwE] at h
  | parentCall =>
    rw [term_emit_step] at h
    simp [throwE] at h
  | interpString =>
    rw [term_emit_step] at h
    simp [throwE] at h
  | input =>
    rw [term_emit_step] at h
    simp [throwE] at h
  | new ty args =>
    rw [termScFree_new, Bool.and_eq_true] at hpred
    rw [term_emit_step.eq_def] at h
    dsimp only at h
    cases ty with
    | prefab p =>
      dsimp only at h
      by_cases hv : p.vars ≠ []
      · rw [if_pos hv] at h
        simp [throwE] at h
      · rw [if_neg hv] at h
        simp only [EmitM.bind_def, EmitM.bind_ok, emit_ins_apply,
          Except.ok.injEq, Prod.mk.injEq, true_and, exists_eq_left] at h
        obtain ⟨-, _, rfl, h⟩ := h
        obtain ⟨lf₂, hk₂⟩ := hP.2.2.2.2.2.2.2.1 args _ k s' hpred.2 h
        exact ⟨(LabelFree.snoc_ins s _ _).trans lf₂, hk₂⟩
    | miniExpr ident fields =>
      dsimp only at h
      simp only [EmitM.bind_def, EmitM.bind_ok, get_params_apply,
        Except.ok.injEq, Prod.mk.injEq] at h
      obtain ⟨ps, c₀, ⟨hps, hc₀⟩, kf, c₁, hfollow, _, c₂, hmove, h⟩ := h
      subst hps
      subst hc₀
      obtain ⟨lf₁, hk₁⟩ := hP.2.2.2.1 _ _ [] s kf c₁
        (followsScFree_map_fields fields hpred.1)
        (kindOk_find_var s.params ident) hfollow
      obtain ⟨lf₂, -⟩ := lf_move_stack kf c₁ _ c₂ hk₁ hmove
      obtain ⟨lf₃, hk₃⟩ := hP.2.2.2.2.2.2.2.1 args c₂ k s' hpred.2 h
      exact ⟨(lf₁.trans lf₂).trans lf₃, hk₃⟩
    | implicit =>
      simp [throwE] at h
  | locate args inList =>
    rw [termScFree_locate, Bool.and_eq_true] at hpred
    rw [term_emit_step.eq_def] at h
    dsimp only at h
    simp only [EmitM.bind_def, EmitM.bind_ok] at h
    obtain ⟨u, c₁, hargs, h⟩ := h
    have lf₁ := hP.2.2.2.2.2.2.1 .proc args s u c₁ hpred.1 hargs
    generalize hL : args.length = L at h
    rcases L with _ | (_ | _ | (_ | n))
    · simp [throwE] at h
    · cases inList with
      | none =>
        simp only [EmitM.bind_def, EmitM.bind, EmitM.pure_def, EmitM.pureE,
          emit_ins_apply, Except.ok.injEq, Prod.mk.injEq] at h
        obtain ⟨rfl, rfl⟩ := h
        exact ⟨lf₁.trans (LabelFree.snoc_ins _ _ _), trivial⟩
      | some e =>
        simp only [EmitM.bind_def, EmitM.bind_ok] at h
        obtain ⟨ke, c₂, he, _, c₃, hmove, h⟩ := h
        obtain ⟨lf₂, hk₂⟩ := hP.1 e c₁ ke c₂ hpred.2 he
        obtain ⟨lf₃, -⟩ := lf_move_stack ke c₂ _ c₃ hk₂ hmove
        simp only [EmitM.bind_def, EmitM.bind, EmitM.pure_def, EmitM.pureE,
          emit_ins_apply, Except.ok.injEq, Prod.mk.injEq] at h
        obtain ⟨-, c', ⟨-, hc⟩, hkk, hs⟩ := h
        subst hkk
        refine ⟨?_, trivial⟩
        rw [← hs, ← hc]
        exact ((lf₁.trans lf₂).trans lf₃).trans (LabelFree.snoc_ins _ _ _)
    · simp [throwE] at h
    · simp only [EmitM.bind_def, EmitM.bind, EmitM.pure_def, EmitM.pureE,
        emit_ins_apply, Except.ok.injEq, Prod.mk.injEq] at h
      obtain ⟨rfl, rfl⟩ := h
      exact ⟨lf₁.trans (LabelFree.snoc_ins _ _ _), trivial⟩
    · simp [throwE] at h
  | pick args =>
    rw [termScFree, Bool.and_eq_true] at hpred
    rw [term_emit_step.eq_def] at h
    dsimp only at h
    match args, hpred, h with
    | [], hpred, h => simp [throwE] at h
    | [(some w, rhs)], hpred, h => simp [throwE] at h
    | [(none, rhs)], hpred, h =>
      have hpe : exprScFree true rhs = true := by
        have := hpred.2
        rw [pickArgsScFree, Bool.and_eq_true, Bool.and_eq_true] at this
        exact this.1.2
      dsimp only at h
      simp only [EmitM.bind_def, EmitM.bind_ok] at h
      obtain ⟨ke, c₁, he, _, c₂, hmove, h⟩ := h
      obtain ⟨lf₁, hk₁⟩ := hP.1 rhs s ke c₁ hpe he
      obtain ⟨lf₂, -⟩ := lf_move_stack ke c₁ _ c₂ hk₁ hmove
      simp only [EmitM.bind_def, EmitM.bind, EmitM.pure_def, EmitM.pureE,
        emit_ins_apply, Except.ok.injEq, Prod.mk.injEq] at h
      obtain ⟨-, c', ⟨-, hc⟩, hk, hs⟩ := h
      subst hk
      refine ⟨?_, trivial⟩
      rw [← hs, ← hc]
      exact (lf₁.trans lf₂).trans (LabelFree.snoc_ins _ _ _)
    | a1 :: a2 :: rest, hpred, h =>
      exact absurd hpred.1 (by simp)
  | list args =>
    rw [termScFree] at hpred
    rw [term_emit_step] at h
    simp only [EmitM.bind_def, EmitM.bind_ok] at h
    obtain ⟨res, c₁, hargs, h⟩ := h
    have lf₁ := hP.2.2.2.2.2.1 .list args s res c₁ hpred hargs
    cases res
    case normal =>
      simp only [EmitM.bind_def, EmitM.bind, EmitM.pure_def, EmitM.pureE,
        emit_ins_apply, Except.ok.injEq, Prod.mk.injEq] at h
      obtain ⟨rfl, rfl⟩ := h
      exact ⟨lf₁.trans (LabelFree.snoc_ins _ _ _), trivial⟩
    case assoc =>
      simp only [EmitM.bind_def, EmitM.bind, EmitM.pure_def, EmitM.pureE,
        emit_ins_apply, Except.ok.injEq, Prod.mk.injEq] at h
      obtain ⟨rfl, rfl⟩ := h
      exact ⟨lf₁.trans (LabelFree.snoc_ins _ _ _), trivial⟩
    case argList =>
      simp [throwE] at h

/-- Every fuel level of the emitter bundle is label-free on strict
safe-navigation/short-circuit-free input: at fuel zero every emitter is
stuck, and each successor level is assembled from the step functions. -/
theorem lf_emitters : ∀ fuel, LFall (emitters fuel) := by
  intro fuel
  induction fuel with
  | zero =>
    refine ⟨?_, ?_, ?_, ?_, ?_, ?_, ?_, ?_, ?_, ?_⟩
    · intro e s k s' _ h
      simp [emitters, stuckEmitters, stuckE] at h
    · intro e s k s' _ h
      simp [emitters, stuckEmitters, stuckE] at h
    · intro t s k s' _ h
      simp [emitters, stuckEmitters, stuckE] at h
    · intro fl kind buf s k' s' _ _ h
      simp [emitters, stuckEmitters, stuckE] at h
    · intro args s u s' _ h
      simp [emitters, stuckEmitters, stuckE] at h
    · intro ctx args s res s' _ h
      simp [emitters, stuckEmitters, stuckE] at h
    · intro ctx args s u s' _ h
      simp [emitters, stuckEmitters, stuckE] at h
    · intro args s k s' _ h
      simp [emitters, stuckEmitters, stuckE] at h
    · intro op l r s k s' _ _ _ h
      simp [emitters, stuckEmitters, stuckE] at h
    · intro op l r s k s' _ _ h
      simp [emitters, stuckEmitters, stuckE] at h
  | succ n ih =>
    exact ⟨lf_step_expr (emitters n) ih, lf_step_inner (emitters n) ih,
      lf_step_term (emitters n) ih, lf_step_follow (emitters n) ih,
      lf_step_each (emitters n) ih, lf_step_argsE (emitters n) ih,
      lf_step_argsN (emitters n) ih, lf_step_new (emitters n) ih,
      lf_step_binary (emitters n) ih, lf_step_assign (emitters n) ih⟩

/-- The parameter-echo loop only appends `GetVar` instructions. -/
theorem lf_fetch_args :
    ∀ k i s u s', fetch_args i k s = .ok (u, s') → LabelFree s s' := by
  intro k
  induction k with
  | zero =>
    intro i s u s' h
    simp only [fetch_args, EmitM.pure_def, EmitM.pureE, Except.ok.injEq,
      Prod.mk.injEq] at h
    obtain ⟨-, rfl⟩ := h
    exact LabelFree.refl s
  | succ m ih =>
    intro i s u s' h
    rw [fetch_args] at h
    simp only [EmitM.bind_def, EmitM.bind_ok, emit_ins_apply,
      Except.ok.injEq, Prod.mk.injEq, true_and, exists_eq_left] at h
    obtain ⟨-, -, rfl, h⟩ := h
    exact (LabelFree.snoc_ins s _ _).trans (ih _ _ _ _ h)

/-- A node list without label nodes contributes no emitted labels. -/
theorem emittedLabels_eq_nil (Δ : List Node) (h : ∀ l, Node.label l ∉ Δ) :
    emittedLabels Δ = [] := by
  induction Δ with
  | nil => rfl
  | cons n rest ih =>
    cases n with
    | instruction i =>
      rw [emittedLabels] at ih ⊢
      simp only [List.filterMap_cons]
      exact ih fun l hl => h l (List.mem_cons_of_mem _ hl)
    | label l => exact absurd (List.mem_cons_self _ _) (h l)

/-- `emittedLabels` distributes over stream concatenation. -/
theorem emittedLabels_append (a b : List Node) :
    emittedLabels (a ++ b) = emittedLabels a ++ emittedLabels b := by
  simp [emittedLabels, List.filterMap_append]

/-- Claim C2 (amended): an expression with no safe-navigation access, no
short-circuiting `&&`/`||` or ternary operator, and no `pick` term with two
or more branches compiles — at every fuel and over every parameter list —
to a stream containing zero label nodes. -/
theorem c2_amended (fuel : Nat) (e : Expression) (params : List String)
    (ns : List Node) (hpred : exprScFree true e = true)
    (h : compile_expr fuel e params = .ok ns) :
    emittedLabels ns = [] := by
  rw [compile_expr] at h
  split at h
  case h_2 => cases h
  case h_1 u c heq =>
    simp only [Except.ok.injEq] at h
    subst h
    simp only [emit_expr, EmitM.bind_def, EmitM.bind_ok] at heq
    obtain ⟨kind, c₁, h₁, mv, c₂, h₂, u₁, c₃, h₃, u₂, c₄, h₄, h₅⟩ := heq
    obtain ⟨lf₁, hk₁⟩ := (lf_emitters fuel).1 e _ kind c₁ hpred h₁
    obtain ⟨lf₂, -⟩ := lf_move_stack kind c₁ _ c₂ hk₁ h₂
    have lf₃ := lf_fetch_args params.length 0 c₂ _ c₃ h₃
    simp only [emit_ins_apply, Except.ok.injEq, Prod.mk.injEq] at h₄ h₅
    obtain ⟨-, rfl⟩ := h₄
    obtain ⟨-, rfl⟩ := h₅
    have lfB := ((lf₁.trans lf₂).trans lf₃).trans
      ((LabelFree.snoc_ins c₃ (.newList (params.length + 1))
          c₃.labelCount).trans
        (LabelFree.snoc_ins ⟨c₃.params,
          c₃.nodes ++ [.instruction (.newList (params.length + 1))],
          c₃.labelCount, c₃.shortCircuitLabels⟩ .ret c₃.labelCount))
    obtain ⟨-, -, Δ, hn, hlab⟩ := lfB
    rw [hn, emittedLabels_append, emittedLabels_eq_nil Δ hlab]
    simp [freshCompiler, emittedLabels]

/-- Witness for the amended Claim C2: the short-circuit-free input `1`
satisfies the predicate, compiles successfully, and its stream has no
label nodes. -/
theorem c2_amended_witness :
    exprScFree true (Expression.base [] (Term.int 1) []) = true ∧
    compile_expr 6 (Expression.base [] (Term.int 1) []) [] =
      Except.ok [Node.instruction (Instruction.dbgFile "<dmasm expression>"),
        Node.instruction (Instruction.pushInt 1),
        Node.instruction (Instruction.newList 1),
        Node.instruction Instruction.ret] ∧
    emittedLabels
      [Node.instruction (Instruction.dbgFile "<dmasm expression>"),
        Node.instruction (Instruction.pushInt 1),
        Node.instruction (Instruction.newList 1),
        Node.instruction Instruction.ret] = [] :=
  ⟨by simp [exprScFree, termScFree, followsScFree], by decide,
    c2_amended 6 (Expression.base [] (Term.int 1) []) [] _
      (by simp [exprScFree, termScFree, followsScFree]) (by decide)⟩

/-! ## Claim C5: every referenced label is emitted exactly once

The invariant tracks, for one emitter run, that freshly emitted label nodes
come from the run's own counter range (hence are pairwise distinct and
distinct from every pending stack label), and that every label referenced by
a fresh instruction is either emitted within the run or is a pending
short-circuit stack label already marked used — the latter are emitted by
the `emit_expr` frame that allocated them. -/

/-- The labels of a short-circuit stack. -/
def sclLabels (scl : List (Nat × Bool)) : List Nat := scl.map Prod.fst

/-- The pending stack labels marked used: their emission is owed by the
`emit_expr` frame that allocated them. -/
def usedScl (scl : List (Nat × Bool)) : List Nat :=
  scl.filterMap fun p => if p.2 then some p.1 else none

/-- Frame-wise evolution of the short-circuit stack across one balanced
emitter run: same labels in the same order, and a used mark is never
cleared. -/
def SclMono (a b : List (Nat × Bool)) : Prop :=
  List.Forall₂ (fun p q => p.1 = q.1 ∧ (p.2 = true → q.2 = true)) a b

/-- Every pending stack label is below the allocation counter. -/
def SclBelow (s : Compiler) : Prop :=
  ∀ l ∈ sclLabels s.shortCircuitLabels, l < s.labelCount

/-- The label bookkeeping invariant of one emitter run from `s` to `s'`. -/
def C5Inv (s s' : Compiler) : Prop :=
  s.labelCount ≤ s'.labelCount ∧
  SclMono s.shortCircuitLabels s'.shortCircuitLabels ∧
  ∃ Δ, s'.nodes = s.nodes ++ Δ ∧
    (∀ l ∈ emittedLabels Δ, s.labelCount ≤ l ∧ l < s'.labelCount) ∧
    (emittedLabels Δ).Nodup ∧
    (∀ l ∈ sclLabels s.shortCircuitLabels, l ∉ emittedLabels Δ) ∧
    (∀ l ∈ referencedLabels Δ,
      l ∈ emittedLabels Δ ∨ l ∈ usedScl s'.shortCircuitLabels)

theorem SclMono.mrefl (a : List (Nat × Bool)) : SclMono a a := by
  induction a with
  | nil => exact List.Forall₂.nil
  | cons p rest ih => exact List.Forall₂.cons ⟨rfl, id⟩ ih

theorem SclMono.mtrans {a b c : List (Nat × Bool)} (h₁ : SclMono a b)
    (h₂ : SclMono b c) : SclMono a c := by
  induction h₁ generalizing c with
  | nil => cases h₂; exact List.Forall₂.nil
  | cons hpq _ ih =>
    cases h₂ with
    | cons hqr hrest =>
      exact List.Forall₂.cons ⟨hpq.1.trans hqr.1, fun hu => hqr.2 (hpq.2 hu)⟩
        (ih hrest)

/-- A balanced run keeps the stack's labels. -/
theorem SclMono.labels_eq {a b : List (Nat × Bool)} (h : SclMono a b) :
    sclLabels b = sclLabels a := by
  induction h with
  | nil => rfl
  | cons hpq _ ih => simp [sclLabels] at ih ⊢; exact ⟨hpq.1.symm, ih⟩

/-- One stack frame's contribution to the used labels. -/
theorem usedScl_cons (p : Nat × Bool) (rest : List (Nat × Bool)) :
    usedScl (p :: rest) =
      if p.2 then p.1 :: usedScl rest else usedScl rest := by
  rcases p with ⟨x, b⟩
  cases b <;> simp [usedScl]

/-- Used marks survive a balanced run. -/
theorem usedScl_subset {a b : List (Nat × Bool)} (h : SclMono a b) :
    ∀ l ∈ usedScl a, l ∈ usedScl b := by
  induction h with
  | nil => exact fun l hl => hl
  | cons hpq hrest ih =>
    rename_i p q a' b'
    intro l hl
    rw [usedScl_cons] at hl ⊢
    by_cases hu : p.2 = true
    · rw [if_pos hu] at hl
      rw [if_pos (hpq.2 hu)]
      rcases List.mem_cons.mp hl with hh | hh
      · exact List.mem_cons.mpr (Or.inl (hh.trans hpq.1))
      · exact List.mem_cons_of_mem _ (ih l hh)
    · rw [if_neg hu] at hl
      by_cases hq : q.2 = true
      · rw [if_pos hq]
        exact List.mem_cons_of_mem _ (ih l hl)
      · rw [if_neg hq]
        exact ih l hl

theorem C5Inv.crefl (s : Compiler) : C5Inv s s :=
  ⟨Nat.le_refl _, SclMono.mrefl _, [], by simp, by simp [emittedLabels],
    by simp [emittedLabels], by intro l hl; simp [emittedLabels],
    by intro l hl; simp [referencedLabels] at hl⟩

/-- `referencedLabels` distributes over stream concatenation. -/
theorem referencedLabels_append (a b : List Node) :
    referencedLabels (a ++ b) = referencedLabels a ++ referencedLabels b := by
  simp [referencedLabels]

/-- The label invariant survives a balanced run: the stack labels are
unchanged and the counter only grows. -/
theorem SclBelow.preserve {s s' : Compiler} (hb : SclBelow s)
    (h : C5Inv s s') : SclBelow s' := by
  intro l hl
  rw [h.2.1.labels_eq] at hl
  exact Nat.lt_of_lt_of_le (hb l hl) h.1

theorem C5Inv.ctrans {s₁ s₂ s₃ : Compiler} (h₁ : C5Inv s₁ s₂)
    (h₂ : C5Inv s₂ s₃) : C5Inv s₁ s₃ := by
  obtain ⟨hlc₁, hm₁, Δ₁, hn₁, hr₁, hd₁, hs₁, hf₁⟩ := h₁
  obtain ⟨hlc₂, hm₂, Δ₂, hn₂, hr₂, hd₂, hs₂, hf₂⟩ := h₂
  refine ⟨Nat.le_trans hlc₁ hlc₂, hm₁.mtrans hm₂, Δ₁ ++ Δ₂, ?_, ?_, ?_, ?_, ?_⟩
  · rw [hn₂, hn₁, List.append_assoc]
  · intro l hl
    rw [emittedLabels_append] at hl
    rcases List.mem_append.mp hl with h | h
    · exact ⟨(hr₁ l h).1, Nat.lt_of_lt_of_le (hr₁ l h).2 hlc₂⟩
    · exact ⟨Nat.le_trans hlc₁ (hr₂ l h).1, (hr₂ l h).2⟩
  · rw [emittedLabels_append]
    refine hd₁.append hd₂ ?_
    intro l ha hb
    exact absurd (Nat.lt_of_lt_of_le (hr₁ l ha).2 (hr₂ l hb).1)
      (Nat.lt_irrefl l)
  · intro l hl
    rw [emittedLabels_append]
    intro hmem
    rcases List.mem_append.mp hmem with h | h
    · exact hs₁ l hl h
    · exact hs₂ l (by rw [hm₁.labels_eq]; exact hl) h
  · intro l hl
    rw [referencedLabels_append] at hl
    rw [emittedLabels_append]
    rcases List.mem_append.mp hl with h | h
    · rcases hf₁ l h with h' | h'
      · exact Or.inl (List.mem_append_left _ h')
      · exact Or.inr (usedScl_subset hm₂ l h')
    · rcases hf₂ l h with h' | h'
      · exact Or.inl (List.mem_append_right _ h')
      · exact Or.inr h'

/-- Appending one instruction whose jump targets are all pending used stack
labels (in particular any instruction with no jump targets) preserves the
label invariant. -/
theorem c5_snoc (c : Compiler) (i : Instruction)
    (h : ∀ j ∈ i.jumps, j ∈ usedScl c.shortCircuitLabels) :
    C5Inv c ⟨c.params, c.nodes ++ [.instruction i], c.labelCount,
      c.shortCircuitLabels⟩ := by
  refine ⟨Nat.le_refl _, SclMono.mrefl _, [.instruction i], rfl, ?_, ?_, ?_, ?_⟩
  · intro l hl
    simp [emittedLabels] at hl
  · simp [emittedLabels]
  · intro l hl
    simp [emittedLabels]
  · intro l hl
    simp only [referencedLabels, List.flatMap_cons, List.flatMap_nil,
      List.append_nil] at hl
    exact Or.inr (h l hl)

/-- `short_circuit` marks the innermost frame used and emits nothing. -/
theorem c5_short_circuit :
    ∀ (s : Compiler) (l : Nat) (s' : Compiler),
      short_circuit s = .ok (l, s') →
      C5Inv s s' ∧ l ∈ usedScl s'.shortCircuitLabels ∧
      s'.labelCount = s.labelCount ∧ s'.nodes = s.nodes := by
  intro s l s' h
  obtain ⟨p, ns, lc, scl⟩ := s
  cases scl with
  | nil => cases h
  | cons q rest =>
    obtain ⟨x, b⟩ := q
    rw [short_circuit_cons] at h
    simp only [Except.ok.injEq, Prod.mk.injEq] at h
    obtain ⟨rfl, rfl⟩ := h
    refine ⟨⟨Nat.le_refl _, ?_, [], by simp, ?_, by simp [emittedLabels],
      ?_, ?_⟩, ?_, rfl, rfl⟩
    · exact List.Forall₂.cons ⟨rfl, fun _ => rfl⟩ (SclMono.mrefl rest)
    · simp [emittedLabels]
    · intro j hj
      simp [emittedLabels]
    · intro j hj
      simp [referencedLabels] at hj
    · rw [usedScl_cons]
      simp

/-- `emit_move_to_stack` preserves the label invariant for every kind: the
safe-field arm's branch references the innermost stack label, marking it
used. -/
theorem c5_move_stack :
    ∀ (kind : EvalKind) (s : Compiler) (k' : EvalKind) (s' : Compiler),
      emit_move_to_stack kind s = .ok (k', s') → C5Inv s s' := by
  intro kind s k' s' h
  cases kind
  case safeField cb f =>
    simp only [emit_move_to_stack, EmitM.bind_def, EmitM.bind_ok,
      EmitM.pure_def, EmitM.pureE, emit_ins_apply, Except.ok.injEq,
      Prod.mk.injEq] at h
    obtain ⟨l, s₁, hsc, h⟩ := h
    obtain ⟨inv₁, hused, -, -⟩ := c5_short_circuit s l s₁ hsc
    obtain ⟨-, c₂, ⟨-, hc₂⟩, -, c₃, ⟨-, hc₃⟩, -, c₄, ⟨-, hc₄⟩, hk, hs⟩ := h
    subst hc₂
    subst hc₃
    subst hc₄
    subst hk
    subst hs
    refine ((inv₁.ctrans (c5_snoc s₁ _ (by simp [Instruction.jumps]))).ctrans
      (c5_snoc _ _ ?_)).ctrans (c5_snoc _ _ (by simp [Instruction.jumps]))
    intro j hj
    simp only [Instruction.jumps, List.mem_singleton] at hj
    subst hj
    exact hused
  all_goals
    simp only [emit_move_to_stack, EmitM.bind_def, EmitM.bind_ok, EmitM.bind,
      EmitM.pure_def, EmitM.pureE, emit_ins_apply, throwE, Except.ok.injEq,
      Prod.mk.injEq] at h
  case stack =>
    obtain ⟨rfl, rfl⟩ := h
    exact C5Inv.crefl s
  case listRef =>
    obtain ⟨rfl, rfl⟩ := h
    exact c5_snoc s _ (by simp [Instruction.jumps])
  case var v =>
    obtain ⟨rfl, rfl⟩ := h
    exact c5_snoc s _ (by simp [Instruction.jumps])
  case field cb f =>
    obtain ⟨rfl, rfl⟩ := h
    exact c5_snoc s _ (by simp [Instruction.jumps])
  case range => cases h
  case global => cases h

/-- Two-instruction variant of `c5_snoc`. -/
theorem c5_snoc2 (c : Compiler) (i₁ i₂ : Instruction)
    (h : ∀ j ∈ i₁.jumps ++ i₂.jumps, j ∈ usedScl c.shortCircuitLabels) :
    C5Inv c ⟨c.params, c.nodes ++ [.instruction i₁, .instruction i₂],
      c.labelCount, c.shortCircuitLabels⟩ := by
  refine ⟨Nat.le_refl _, SclMono.mrefl _,
    [.instruction i₁, .instruction i₂], rfl, ?_, ?_, ?_, ?_⟩
  · intro l hl
    simp [emittedLabels] at hl
  · simp [emittedLabels]
  · intro l hl
    simp [emittedLabels]
  · intro l hl
    simp only [referencedLabels, List.flatMap_cons, List.flatMap_nil,
      List.append_nil] at hl
    exact Or.inr (h l hl)

/-- `emit_move_to_chain_builder` preserves the label invariant for every
kind. -/
theorem c5_move_cb :
    ∀ (kind : EvalKind) (s : Compiler) (b : ChainBuilder) (s' : Compiler),
      emit_move_to_chain_builder kind s = .ok (b, s') → C5Inv s s' := by
  intro kind s b s' h
  cases kind
  case safeField cb f =>
    simp only [emit_move_to_chain_builder, EmitM.bind_def, EmitM.bind_ok,
      EmitM.pure_def, EmitM.pureE, emit_ins_apply, Except.ok.injEq,
      Prod.mk.injEq] at h
    obtain ⟨l, s₁, hsc, h⟩ := h
    obtain ⟨inv₁, hused, -, -⟩ := c5_short_circuit s l s₁ hsc
    obtain ⟨-, c₂, ⟨-, hc₂⟩, -, c₃, ⟨-, hc₃⟩, -, c₄, ⟨-, hc₄⟩, -, c₅,
      ⟨-, hc₅⟩, -, hs⟩ := h
    subst hc₂
    subst hc₃
    subst hc₄
    subst hc₅
    subst hs
    refine (((inv₁.ctrans (c5_snoc s₁ _ (by simp [Instruction.jumps]))).ctrans
      (c5_snoc _ _ ?_)).ctrans
        (c5_snoc _ _ (by simp [Instruction.jumps]))).ctrans
      (c5_snoc _ _ (by simp [Instruction.jumps]))
    intro j hj
    simp only [Instruction.jumps, List.mem_singleton] at hj
    subst hj
    exact hused
  all_goals
    simp only [emit_move_to_chain_builder, EmitM.bind_def, EmitM.bind_ok,
      EmitM.bind, EmitM.pure_def, EmitM.pureE, emit_ins_apply, throwE,
      Except.ok.injEq, Prod.mk.injEq, List.append_assoc,
      List.singleton_append] at h
  case stack =>
    obtain ⟨rfl, rfl⟩ := h
    exact c5_snoc s _ (by simp [Instruction.jumps])
  case listRef =>
    obtain ⟨rfl, rfl⟩ := h
    exact c5_snoc2 s _ _ (by simp [Instruction.jumps])
  case var v =>
    obtain ⟨rfl, rfl⟩ := h
    exact C5Inv.crefl s
  case field cb f =>
    obtain ⟨rfl, rfl⟩ := h
    exact C5Inv.crefl s
  case range => cases h
  case global => cases h

/-- `commit_field_buffer` preserves the label invariant: the safe-field arm
allocates a fresh guard label, references it once and emits it once, all
within the run. -/
theorem c5_commit :
    ∀ (buf : List String) (kind : EvalKind) (s : Compiler) (k' : EvalKind)
      (s' : Compiler), SclBelow s →
      commit_field_buffer kind buf s = .ok (k', s') → C5Inv s s' := by
  intro buf
  induction buf with
  | nil =>
    intro kind s k' s' hb h
    rw [commit_field_buffer] at h
    simp only [EmitM.pure_def, EmitM.pureE, Except.ok.injEq,
      Prod.mk.injEq] at h
    obtain ⟨rfl, rfl⟩ := h
    exact C5Inv.crefl s
  | cons f rest ih =>
    intro kind s k' s' hb h
    cases kind
    case global =>
      rw [commit_field_buffer] at h
      exact ih (.var (.global f)) s k' s' hb h
    case range =>
      rw [commit_field_buffer] at h
      cases h
    case stack =>
      rw [commit_field_buffer] at h
      simp only [EmitM.bind_def, EmitM.bind, emit_ins_apply, commit_rest,
        EmitM.pure_def, EmitM.pureE, Except.ok.injEq, Prod.mk.injEq] at h
      obtain ⟨rfl, rfl⟩ := h
      exact c5_snoc s _ (by simp [Instruction.jumps])
    case listRef =>
      rw [commit_field_buffer] at h
      simp only [EmitM.bind_def, EmitM.bind, emit_ins_apply, commit_rest,
        EmitM.pure_def, EmitM.pureE, Except.ok.injEq, Prod.mk.injEq,
        List.append_assoc, List.singleton_append] at h
      obtain ⟨rfl, rfl⟩ := h
      exact c5_snoc2 s _ _ (by simp [Instruction.jumps])
    case var v =>
      rw [commit_field_buffer] at h
      simp only [commit_rest, EmitM.pure_def, EmitM.pureE, Except.ok.injEq,
        Prod.mk.injEq] at h
      obtain ⟨rfl, rfl⟩ := h
      exact C5Inv.crefl s
    case field cb fld =>
      rw [commit_field_buffer] at h
      simp only [commit_rest, EmitM.pure_def, EmitM.pureE, Except.ok.injEq,
        Prod.mk.injEq] at h
      obtain ⟨rfl, rfl⟩ := h
      exact C5Inv.crefl s
    case safeField cb fld =>
      rw [commit_field_buffer] at h
      simp only [EmitM.bind_def, EmitM.bind, EmitM.pure_def, EmitM.pureE,
        alloc_label_apply, emit_ins_apply, emit_label_apply, commit_rest,
        Except.ok.injEq, Prod.mk.injEq] at h
      obtain ⟨rfl, rfl⟩ := h
      refine ⟨Nat.le_succ _, SclMono.mrefl _,
        [.instruction (.getVar cb.get),
         .instruction (.setCacheJmpIfNull s.labelCount),
         .instruction (.getVar (.field fld)),
         .label s.labelCount,
         .instruction (.setVar .cache)], ?_, ?_, ?_, ?_, ?_⟩
      · simp
      · intro l hl
        simp [emittedLabels] at hl
        subst hl
        exact ⟨Nat.le_refl _, Nat.lt_succ_self _⟩
      · simp [emittedLabels]
      · intro l hl
        simp only [emittedLabels, List.filterMap_cons, List.filterMap_nil]
        intro hmem
        simp at hmem
        rw [hmem] at hl
        exact Nat.lt_irrefl _ (hb _ hl)
      · intro l hl
        simp [referencedLabels, Instruction.jumps] at hl
        subst hl
        simp [emittedLabels]

/-- `unary_emit` preserves the label invariant. -/
theorem c5_unary :
    ∀ (ops : List UnaryOp) (kind : EvalKind) (s : Compiler) (k' : EvalKind)
      (s' : Compiler), unary_emit ops kind s = .ok (k', s') → C5Inv s s' := by
  intro ops
  induction ops with
  | nil =>
    intro kind s k' s' h
    rw [unary_emit] at h
    simp only [EmitM.pure_def, EmitM.pureE, Except.ok.injEq,
      Prod.mk.injEq] at h
    obtain ⟨rfl, rfl⟩ := h
    exact C5Inv.crefl s
  | cons op rest ih =>
    obtain ⟨code⟩ := op
    intro kind s k' s' h
    rw [unary_emit] at h
    simp only [EmitM.bind_def, EmitM.bind_ok] at h
    obtain ⟨k₁, c₁, hmove, _, c₂, hins, hrest⟩ := h
    have inv₁ := c5_move_stack kind s k₁ c₁ hmove
    rw [emit_ins_apply] at hins
    simp only [Except.ok.injEq, Prod.mk.injEq] at hins
    obtain ⟨-, rfl⟩ := hins
    exact (inv₁.ctrans (c5_snoc c₁ _ (by simp [Instruction.jumps]))).ctrans
      (ih .stack _ k' s' hrest)

/-- The label invariant of a `pick` weight loop run: on top of `C5Inv`, the
returned branch labels are fresh, pairwise distinct and not emitted by the
run itself. -/
def C5PW (s s' : Compiler) (bs : List (Nat × Expression)) : Prop :=
  s.labelCount ≤ s'.labelCount ∧
  SclMono s.shortCircuitLabels s'.shortCircuitLabels ∧
  (bs.map Prod.fst).Nodup ∧
  (∀ l ∈ bs.map Prod.fst, s.labelCount ≤ l ∧ l < s'.labelCount) ∧
  ∃ Δ, s'.nodes = s.nodes ++ Δ ∧
    (∀ l ∈ emittedLabels Δ, s.labelCount ≤ l ∧ l < s'.labelCount) ∧
    (emittedLabels Δ).Nodup ∧
    (∀ l ∈ bs.map Prod.fst, l ∉ emittedLabels Δ) ∧
    (∀ l ∈ sclLabels s.shortCircuitLabels, l ∉ emittedLabels Δ) ∧
    (∀ l ∈ referencedLabels Δ,
      l ∈ emittedLabels Δ ∨ l ∈ usedScl s'.shortCircuitLabels)

/-- The label invariant of a `pick` body loop run: the run emits exactly the
given branch labels plus fresh ones, and may additionally reference the
shared end label. -/
def C5PB (s s' : Compiler) (bs : List (Nat × Expression)) (lEnd : Nat) :
    Prop :=
  s.labelCount ≤ s'.labelCount ∧
  SclMono s.shortCircuitLabels s'.shortCircuitLabels ∧
  ∃ Δ, s'.nodes = s.nodes ++ Δ ∧
    (∀ l ∈ emittedLabels Δ,
      l ∈ bs.map Prod.fst ∨ (s.labelCount ≤ l ∧ l < s'.labelCount)) ∧
    (emittedLabels Δ).Nodup ∧
    (∀ l ∈ bs.map Prod.fst, l ∈ emittedLabels Δ) ∧
    (∀ l ∈ sclLabels s.shortCircuitLabels, l ∉ emittedLabels Δ) ∧
    (∀ l ∈ referencedLabels Δ,
      l ∈ emittedLabels Δ ∨ l ∈ usedScl s'.shortCircuitLabels ∨ l = lEnd)

/-- The label invariant for every emitter of a bundle. -/
structure C5all (E : Emitters) : Prop where
  expr : ∀ e s k s', SclBelow s → E.expr e s = .ok (k, s') → C5Inv s s'
  inner : ∀ e s k s', SclBelow s → E.inner e s = .ok (k, s') → C5Inv s s'
  term : ∀ t s k s', SclBelow s → E.term t s = .ok (k, s') → C5Inv s s'
  follow : ∀ fl kind buf s k' s', SclBelow s →
    E.followLoop fl kind buf s = .ok (k', s') → C5Inv s s'
  each : ∀ args s u s', SclBelow s → E.each args s = .ok (u, s') →
    C5Inv s s'
  argsE : ∀ ctx args s res s', SclBelow s →
    E.argsE ctx args s = .ok (res, s') → C5Inv s s'
  argsN : ∀ ctx args s u s', SclBelow s →
    E.argsNormal ctx args s = .ok (u, s') → C5Inv s s'
  newE : ∀ args s k s', SclBelow s → E.newE args s = .ok (k, s') →
    C5Inv s s'
  binary : ∀ op l r s k s', SclBelow s → E.binary op l r s = .ok (k, s') →
    C5Inv s s'
  ternary : ∀ c i e s k s', SclBelow s →
    E.ternary c i e s = .ok (k, s') → C5Inv s s'
  assign : ∀ op l r s k s', SclBelow s → E.assign op l r s = .ok (k, s') →
    C5Inv s s'
  pickW : ∀ args s bs s', SclBelow s →
    E.pickWeights args s = .ok (bs, s') → C5PW s s' bs
  pickB : ∀ bs lEnd s u s', SclBelow s → (bs.map Prod.fst).Nodup →
    (∀ l ∈ bs.map Prod.fst, l < s.labelCount) →
    (∀ l ∈ bs.map Prod.fst, l ∉ sclLabels s.shortCircuitLabels) →
    E.pickBodies bs lEnd s = .ok (u, s') → C5PB s s' bs lEnd

theorem c5_step_each (P : Emitters) (hP : C5all P) :
    ∀ args s u s', SclBelow s → emit_each_step P args s = .ok (u, s') →
      C5Inv s s' := by
  intro args s u s' hb h
  cases args with
  | nil =>
    rw [emit_each_step] at h
    simp only [EmitM.pure_def, EmitM.pureE, Except.ok.injEq,
      Prod.mk.injEq] at h
    obtain ⟨-, rfl⟩ := h
    exact C5Inv.crefl s
  | cons e rest =>
    rw [emit_each_step] at h
    simp only [EmitM.bind_def, EmitM.bind_ok] at h
    obtain ⟨k₁, c₁, he, _, c₂, hmove, hrest⟩ := h
    have inv₁ := hP.expr e s k₁ c₁ hb he
    have inv₂ := c5_move_stack k₁ c₁ _ c₂ hmove
    exact (inv₁.ctrans inv₂).ctrans
      (hP.each rest c₂ u s' ((hb.preserve inv₁).preserve inv₂) hrest)

theorem c5_step_argsE (P : Emitters) (hP : C5all P) :
    ∀ ctx args s res s', SclBelow s →
      args_emit_step P ctx args s = .ok (res, s') → C5Inv s s' := by
  intro ctx args s res s' hb h
  rw [args_emit_step] at h
  simp only [EmitM.bind_def, EmitM.bind_ok, EmitM.pure_def, EmitM.pureE,
    Except.ok.injEq, Prod.mk.injEq] at h
  obtain ⟨u, c₁, he, -, rfl⟩ := h
  exact hP.each args s u c₁ hb he

theorem c5_step_argsN (P : Emitters) (hP : C5all P) :
    ∀ ctx args s u s', SclBelow s →
      args_emit_normal_step P ctx args s = .ok (u, s') → C5Inv s s' := by
  intro ctx args s u s' hb h
  rw [args_emit_normal_step] at h
  exact hP.each args s u s' hb h

theorem c5_step_new (P : Emitters) (hP : C5all P) :
    ∀ args s k s', SclBelow s → emit_new_step P args s = .ok (k, s') →
      C5Inv s s' := by
  intro args s k s' hb h
  rw [emit_new_step] at h
  simp only [EmitM.bind_def, EmitM.bind_ok] at h
  obtain ⟨res, c₁, hargs, h⟩ := h
  have inv₁ := hP.argsE .proc _ s res c₁ hb hargs
  cases res <;>
    simp only [EmitM.bind_def, EmitM.bind, EmitM.pure_def, EmitM.pureE,
      emit_ins_apply, Except.ok.injEq, Prod.mk.injEq,
      List.append_assoc, List.singleton_append] at h
  case normal =>
    obtain ⟨rfl, rfl⟩ := h
    exact inv₁.ctrans (c5_snoc _ _ (by simp [Instruction.jumps]))
  case assoc =>
    obtain ⟨rfl, rfl⟩ := h
    exact inv₁.ctrans (c5_snoc2 _ _ _ (by simp [Instruction.jumps]))
  case argList =>
    obtain ⟨rfl, rfl⟩ := h
    exact inv₁.ctrans (c5_snoc _ _ (by simp [Instruction.jumps]))

theorem c5_step_assign (P : Emitters) (hP : C5all P) :
    ∀ op l r s k s', SclBelow s → assignment_step P op l r s = .ok (k, s') →
      C5Inv s s' := by
  intro op l r s k s' hb h
  rw [assignment_step] at h
  simp only [EmitM.bind_def, EmitM.bind_ok] at h
  obtain ⟨kl, c₁, hle, h⟩ := h
  have inv₁ := hP.expr l s kl c₁ hb hle
  have hb₁ := hb.preserve inv₁
  cases kl
  case stack => exact absurd h (by simp [throwE])
  case range => exact absurd h (by simp [throwE])
  case global => exact absurd h (by simp [throwE])
  case safeField cb f =>
    simp only [EmitM.bind_def, EmitM.bind_ok] at h
    obtain ⟨lab, c₂, hsc, h⟩ := h
    obtain ⟨invsc, hused, -, -⟩ := c5_short_circuit c₁ lab c₂ hsc
    simp only [EmitM.bind_def, EmitM.bind_ok, emit_ins_apply,
      Except.ok.injEq, Prod.mk.injEq] at h
    obtain ⟨-, c₃, ⟨-, hc₃⟩, -, c₄, ⟨-, hc₄⟩, kr, c₅, hre, _, c₆, hrm,
      h⟩ := h
    subst hc₃
    subst hc₄
    have invA : C5Inv c₂ _ :=
      c5_snoc c₂ (.getVar cb.get) (by simp [Instruction.jumps])
    have invB := c5_snoc ⟨c₂.params,
      c₂.nodes ++ [.instruction (.getVar cb.get)], c₂.labelCount,
      c₂.shortCircuitLabels⟩ (.setCacheJmpIfNull lab) (by
        intro j hj
        simp only [Instruction.jumps, List.mem_singleton] at hj
        subst hj
        exact hused)
    have inv₂ := hP.expr r _ kr c₅
      ((((hb₁.preserve invsc).preserve invA).preserve invB)) hre
    have inv₃ := c5_move_stack kr c₅ _ c₆ hrm
    cases op <;>
      simp only [EmitM.bind_def, EmitM.bind, EmitM.pure_def, EmitM.pureE,
        emit_ins_apply, Except.ok.injEq, Prod.mk.injEq] at h <;>
      obtain ⟨rfl, rfl⟩ := h <;>
      exact (((((inv₁.ctrans invsc).ctrans invA).ctrans invB).ctrans
        inv₂).ctrans inv₃).ctrans
        (c5_snoc _ _ (by simp [Instruction.jumps]))
  case var v =>
    by_cases hw : is_writable v = true
    · simp only [hw, if_true, ite_true, EmitM.bind_def, EmitM.bind_ok] at h
      obtain ⟨kr, c₂, hre, _, c₃, hrm, h⟩ := h
      have inv₂ := hP.expr r c₁ kr c₂ hb₁ hre
      have inv₃ := c5_move_stack kr c₂ _ c₃ hrm
      cases op <;>
        simp only [EmitM.bind_def, EmitM.bind, EmitM.pure_def, EmitM.pureE,
          emit_ins_apply, Except.ok.injEq, Prod.mk.injEq] at h <;>
        obtain ⟨rfl, rfl⟩ := h <;>
        exact ((inv₁.ctrans inv₂).ctrans inv₃).ctrans
          (c5_snoc _ _ (by simp [Instruction.jumps]))
    · simp only [hw, if_false, ite_false, Bool.false_eq_true] at h
      exact absurd h (by simp [throwE])
  case field cb f =>
    simp only [EmitM.bind_def, EmitM.bind_ok] at h
    obtain ⟨kr, c₂, hre, _, c₃, hrm, h⟩ := h
    have inv₂ := hP.expr r c₁ kr c₂ hb₁ hre
    have inv₃ := c5_move_stack kr c₂ _ c₃ hrm
    cases op <;>
      simp only [EmitM.bind_def, EmitM.bind, EmitM.pure_def, EmitM.pureE,
        emit_ins_apply, Except.ok.injEq, Prod.mk.injEq] at h <;>
      obtain ⟨rfl, rfl⟩ := h <;>
      exact ((inv₁.ctrans inv₂).ctrans inv₃).ctrans
        (c5_snoc _ _ (by simp [Instruction.jumps]))
  case listRef =>
    simp only [EmitM.bind_def, EmitM.bind_ok] at h
    obtain ⟨kr, c₂, hre, _, c₃, hrm, h⟩ := h
    have inv₂ := hP.expr r c₁ kr c₂ hb₁ hre
    have inv₃ := c5_move_stack kr c₂ _ c₃ hrm
    cases op <;>
      simp only [EmitM.bind_def, EmitM.bind, EmitM.pure_def, EmitM.pureE,
        emit_ins_apply, Except.ok.injEq, Prod.mk.injEq] at h <;>
      obtain ⟨rfl, rfl⟩ := h <;>
      exact ((inv₁.ctrans inv₂).ctrans inv₃).ctrans
        (c5_snoc _ _ (by simp [Instruction.jumps]))

theorem c5_step_binary (P : Emitters) (hP : C5all P) :
    ∀ op l r s k s', SclBelow s → binary_ops_step P op l r s = .ok (k, s') →
      C5Inv s s' := by
  intro op l r s k s' hb h
  cases op
  case «to» =>
    rw [binary_ops_step] at h
    simp only [EmitM.bind_def, EmitM.bind_ok, EmitM.pure_def, EmitM.pureE,
      Except.ok.injEq, Prod.mk.injEq] at h
    obtain ⟨kl, c₁, hle, _, c₂, hlm, kr, c₃, hre, _, c₄, hrm, rfl, rfl⟩ := h
    have inv₁ := hP.expr l s kl c₁ hb hle
    have inv₂ := c5_move_stack kl c₁ _ c₂ hlm
    have inv₃ := hP.expr r c₂ kr c₃
      ((hb.preserve inv₁).preserve inv₂) hre
    have inv₄ := c5_move_stack kr c₃ _ c₄ hrm
    exact ((inv₁.ctrans inv₂).ctrans inv₃).ctrans inv₄
  case other code =>
    rw [binary_ops_step] at h
    simp only [EmitM.bind_def, EmitM.bind_ok, EmitM.pure_def, EmitM.pureE,
      emit_ins_apply, Except.ok.injEq, Prod.mk.injEq] at h
    obtain ⟨kl, c₁, hle, _, c₂, hlm, kr, c₃, hre, _, c₄, hrm, -, _,
      ⟨-, rfl⟩, rfl, rfl⟩ := h
    have inv₁ := hP.expr l s kl c₁ hb hle
    have inv₂ := c5_move_stack kl c₁ _ c₂ hlm
    have inv₃ := hP.expr r c₂ kr c₃
      ((hb.preserve inv₁).preserve inv₂) hre
    have inv₄ := c5_move_stack kr c₃ _ c₄ hrm
    exact (((inv₁.ctrans inv₂).ctrans inv₃).ctrans inv₄).ctrans
      (c5_snoc _ _ (by simp [Instruction.jumps]))
  case and =>
    rw [binary_ops_step] at h
    simp only [EmitM.bind_def, EmitM.bind_ok, EmitM.pure_def, EmitM.pureE,
      emit_ins_apply, Except.ok.injEq, Prod.mk.injEq] at h
    obtain ⟨kl, c₁, hle, _, c₂, hlm, lab, c₃, hsc, h⟩ := h
    have inv₁ := hP.expr l s kl c₁ hb hle
    have inv₂ := c5_move_stack kl c₁ _ c₂ hlm
    obtain ⟨inv₃, hused, -, -⟩ := c5_short_circuit c₂ lab c₃ hsc
    obtain ⟨_, c₄, ⟨-, hc₄⟩, kr, c₅, hre, _, c₆, hrm, hk, hs⟩ := h
    subst hc₄
    subst hk
    subst hs
    have inv₄ : C5Inv c₃ _ := c5_snoc c₃ (.jmpAnd lab) (by
      intro j hj
      simp only [Instruction.jumps, List.mem_singleton] at hj
      subst hj
      exact hused)
    have inv₅ := hP.expr r _ kr c₅
      ((((hb.preserve inv₁).preserve inv₂).preserve inv₃).preserve inv₄) hre
    have inv₆ := c5_move_stack kr c₅ _ c₆ hrm
    exact ((((inv₁.ctrans inv₂).ctrans inv₃).ctrans inv₄).ctrans inv₅).ctrans inv₆
  case or =>
    rw [binary_ops_step] at h
    simp only [EmitM.bind_def, EmitM.bind_ok, EmitM.pure_def, EmitM.pureE,
      emit_ins_apply, Except.ok.injEq, Prod.mk.injEq] at h
    obtain ⟨kl, c₁, hle, _, c₂, hlm, lab, c₃, hsc, h⟩ := h
    have inv₁ := hP.expr l s kl c₁ hb hle
    have inv₂ := c5_move_stack kl c₁ _ c₂ hlm
    obtain ⟨inv₃, hused, -, -⟩ := c5_short_circuit c₂ lab c₃ hsc
    obtain ⟨_, c₄, ⟨-, hc₄⟩, kr, c₅, hre, _, c₆, hrm, hk, hs⟩ := h
    subst hc₄
    subst hk
    subst hs
    have inv₄ : C5Inv c₃ _ := c5_snoc c₃ (.jmpOr lab) (by
      intro j hj
      simp only [Instruction.jumps, List.mem_singleton] at hj
      subst hj
      exact hused)
    have inv₅ := hP.expr r _ kr c₅
      ((((hb.preserve inv₁).preserve inv₂).preserve inv₃).preserve inv₄) hre
    have inv₆ := c5_move_stack kr c₅ _ c₆ hrm
    exact ((((inv₁.ctrans inv₂).ctrans inv₃).ctrans inv₄).ctrans inv₅).ctrans inv₆

@[simp] theorem emittedLabels_cons_ins (i : Instruction) (Δ : List Node) :
    emittedLabels (.instruction i :: Δ) = emittedLabels Δ := by
  simp [emittedLabels]

@[simp] theorem emittedLabels_cons_label (l : Nat) (Δ : List Node) :
    emittedLabels (.label l :: Δ) = l :: emittedLabels Δ := by
  simp [emittedLabels]

@[simp] theorem emittedLabels_nil : emittedLabels [] = [] := rfl

@[simp] theorem referencedLabels_cons_ins (i : Instruction) (Δ : List Node) :
    referencedLabels (.instruction i :: Δ) =
      i.jumps ++ referencedLabels Δ := by
  simp [referencedLabels]

@[simp] theorem referencedLabels_cons_label (l : Nat) (Δ : List Node) :
    referencedLabels (.label l :: Δ) = referencedLabels Δ := by
  simp [referencedLabels]

@[simp] theorem referencedLabels_nil : referencedLabels [] = [] := rfl

/-- Concatenating streams whose fresh labels come from disjoint counter
ranges keeps them duplicate-free. -/
theorem nodup_append_ranges {A B : List Nat} (m : Nat)
    (hA : ∀ l ∈ A, l < m) (hB : ∀ l ∈ B, m ≤ l)
    (hAn : A.Nodup) (hBn : B.Nodup) : (A ++ B).Nodup :=
  hAn.append hBn fun l ha hb =>
    absurd (hA l ha) (Nat.not_lt.mpr (hB l hb))

theorem c5_step_ternary (P : Emitters) (hP : C5all P) :
    ∀ cond ifE elseE s k s', SclBelow s →
      ternary_step P cond ifE elseE s = .ok (k, s') → C5Inv s s' := by
  intro cond ifE elseE s k s' hb h
  rw [ternary_step] at h
  simp only [EmitM.bind_def, EmitM.bind_ok, alloc_label_apply,
    emit_ins_apply, emit_label_apply, EmitM.pure_def, EmitM.pureE,
    Except.ok.injEq, Prod.mk.injEq] at h
  obtain ⟨kc, c₁, hcond, _, c₂, hmove, lE, c₃, ⟨hlE, hc₃⟩, lX, c₄,
    ⟨hlX, hc₄⟩, _, c₅, ⟨-, hc₅⟩, ki, c₆, hif, _, c₇, hmv₂, _, c₈, ⟨-, hc₈⟩,
    _, c₉, ⟨-, hc₉⟩, ke, c₁₀, helse, _, c₁₁, hmv₃, _, c₁₂, ⟨-, hc₁₂⟩,
    hk, hs⟩ := h
  subst hlE
  subst hk
  subst hs
  have hlX' : lX = c₂.labelCount + 1 := by rw [← hlX, ← hc₃]
  have h5lc : c₅.labelCount = c₂.labelCount + 2 := by
    rw [← hc₅, ← hc₄, ← hc₃]
  have h5scl : c₅.shortCircuitLabels = c₂.shortCircuitLabels := by
    rw [← hc₅, ← hc₄, ← hc₃]
  have h5n : c₅.nodes =
      c₂.nodes ++ [.instruction (.jmpIfFalse c₂.labelCount)] := by
    rw [← hc₅, ← hc₄, ← hc₃]
  have h9lc : c₉.labelCount = c₇.labelCount := by rw [← hc₉, ← hc₈]
  have h9scl : c₉.shortCircuitLabels = c₇.shortCircuitLabels := by
    rw [← hc₉, ← hc₈]
  have h9n : c₉.nodes = c₇.nodes ++
      [.instruction (.jmp lX), .label c₂.labelCount] := by
    rw [← hc₉, ← hc₈]
    simp
  have h12lc : c₁₂.labelCount = c₁₁.labelCount := by rw [← hc₁₂]
  have h12scl : c₁₂.shortCircuitLabels = c₁₁.shortCircuitLabels := by
    rw [← hc₁₂]
  have h12n : c₁₂.nodes = c₁₁.nodes ++ [.label lX] := by rw [← hc₁₂]
  have invC : C5Inv s c₂ :=
    (hP.expr cond s kc c₁ hb hcond).ctrans (c5_move_stack kc c₁ _ c₂ hmove)
  have hb₂ : SclBelow c₂ := hb.preserve invC
  have hb₅ : SclBelow c₅ := by
    intro x hx
    rw [show sclLabels c₅.shortCircuitLabels =
      sclLabels c₂.shortCircuitLabels from by rw [h5scl]] at hx
    rw [h5lc]
    exact Nat.lt_of_lt_of_le (hb₂ x hx) (by omega)
  have invIf : C5Inv c₅ c₇ :=
    (hP.expr ifE c₅ ki c₆ hb₅ hif).ctrans (c5_move_stack ki c₆ _ c₇ hmv₂)
  have hb₉ : SclBelow c₉ := by
    intro x hx
    rw [show sclLabels c₉.shortCircuitLabels =
      sclLabels c₇.shortCircuitLabels from by rw [h9scl]] at hx
    rw [invIf.2.1.labels_eq] at hx
    rw [h9lc]
    exact Nat.lt_of_lt_of_le (hb₅ x hx) invIf.1
  have invEl : C5Inv c₉ c₁₁ :=
    (hP.expr elseE c₉ ke c₁₀ hb₉ helse).ctrans
      (c5_move_stack ke c₁₀ _ c₁₁ hmv₃)
  refine invC.ctrans ?_
  obtain ⟨hlcI, hmI, ΔI, hnI, hrI, hdI, hsI, hfI⟩ := invIf
  obtain ⟨hlcE, hmE, ΔE, hnE, hrE, hdE, hsE, hfE⟩ := invEl
  rw [h5lc] at hlcI
  rw [h9lc] at hlcE
  rw [h5scl] at hmI
  rw [h9scl] at hmE
  rw [h5n] at hnI
  rw [h9n] at hnE
  have hrI' : ∀ l ∈ emittedLabels ΔI,
      c₂.labelCount + 2 ≤ l ∧ l < c₇.labelCount := by
    intro l hl
    have := hrI l hl
    rw [h5lc] at this
    exact this
  have hrE' : ∀ l ∈ emittedLabels ΔE,
      c₇.labelCount ≤ l ∧ l < c₁₁.labelCount := by
    intro l hl
    have := hrE l hl
    rw [h9lc] at this
    exact this
  have hsI' : ∀ x ∈ sclLabels c₂.shortCircuitLabels,
      x ∉ emittedLabels ΔI := by
    intro x hx
    refine hsI x ?_
    rw [show sclLabels c₅.shortCircuitLabels =
      sclLabels c₂.shortCircuitLabels from by rw [h5scl]]
    exact hx
  have hsE' : ∀ x ∈ sclLabels c₂.shortCircuitLabels,
      x ∉ emittedLabels ΔE := by
    intro x hx
    refine hsE x ?_
    rw [show sclLabels c₉.shortCircuitLabels =
      sclLabels c₇.shortCircuitLabels from by rw [h9scl]]
    rw [hmI.labels_eq]
    exact hx
  have hEq : emittedLabels
      (.instruction (.jmpIfFalse c₂.labelCount) :: ΔI ++
        .instruction (.jmp lX) :: .label c₂.labelCount :: ΔE ++
          [.label lX]) =
      emittedLabels ΔI ++
        c₂.labelCount :: (emittedLabels ΔE ++ [lX]) := by
    simp [emittedLabels_append]
  have hRq : referencedLabels
      (.instruction (.jmpIfFalse c₂.labelCount) :: ΔI ++
        .instruction (.jmp lX) :: .label c₂.labelCount :: ΔE ++
          [.label lX]) =
      c₂.labelCount :: (referencedLabels ΔI ++
        lX :: referencedLabels ΔE) := by
    simp [Instruction.jumps, referencedLabels_append]
  refine ⟨by omega, ?_, .instruction (.jmpIfFalse c₂.labelCount) :: ΔI ++
    .instruction (.jmp lX) :: .label c₂.labelCount :: ΔE ++ [.label lX],
    ?_, ?_, ?_, ?_, ?_⟩
  · rw [h12scl]
    exact hmI.mtrans hmE
  · rw [h12n, hnE, hnI]
    simp
  · intro l hl
    rw [hEq] at hl
    rw [h12lc]
    rcases List.mem_append.mp hl with hI | hrest
    · have := hrI' l hI
      constructor <;> omega
    · rcases List.mem_cons.mp hrest with rfl | hrest
      · constructor <;> omega
      · rcases List.mem_append.mp hrest with hE | hlast
        · have := hrE' l hE
          constructor <;> omega
        · have := List.mem_singleton.mp hlast
          subst this
          constructor <;> omega
  · rw [hEq]
    rw [List.nodup_append]
    refine ⟨hdI, ?_, ?_⟩
    · rw [List.nodup_cons]
      constructor
      · intro hmem
        rcases List.mem_append.mp hmem with hE | hlast
        · have := (hrE' _ hE).1
          omega
        · have := List.mem_singleton.mp hlast
          omega
      · rw [List.nodup_append]
        refine ⟨hdE, List.nodup_singleton _, ?_⟩
        intro x hE hlast
        have := (hrE' x hE).1
        have := List.mem_singleton.mp hlast
        omega
    · intro x hI hrest
      have hxr := hrI' x hI
      rcases List.mem_cons.mp hrest with rfl | hrest
      · omega
      · rcases List.mem_append.mp hrest with hE | hlast
        · have := (hrE' x hE).1
          omega
        · have := List.mem_singleton.mp hlast
          omega
  · intro x hx
    have hxL : x < c₂.labelCount := hb₂ x hx
    rw [hEq]
    intro hmem
    rcases List.mem_append.mp hmem with hI | hrest
    · exact hsI' x hx hI
    · rcases List.mem_cons.mp hrest with rfl | hrest
      · omega
      · rcases List.mem_append.mp hrest with hE | hlast
        · exact hsE' x hx hE
        · have := List.mem_singleton.mp hlast
          omega
  · intro l hl
    rw [hRq] at hl
    rw [hEq]
    rcases List.mem_cons.mp hl with rfl | hl
    · exact Or.inl (List.mem_append_right _ (List.mem_cons_self _ _))
    · rcases List.mem_append.mp hl with hI | hrest
      · rcases hfI l hI with hin | hused
        · exact Or.inl (List.mem_append_left _ hin)
        · refine Or.inr ?_
          rw [h12scl]
          exact usedScl_subset hmE l hused
      · rcases List.mem_cons.mp hrest with rfl | hE
        · refine Or.inl (List.mem_append_right _ (List.mem_cons_of_mem _
            (List.mem_append_right _ (List.mem_singleton.mpr rfl))))
        · rcases hfE l hE with hin | hused
          · exact Or.inl (List.mem_append_right _ (List.mem_cons_of_mem _
              (List.mem_append_left _ hin)))
          · refine Or.inr ?_
            rw [h12scl]
            exact hused

theorem c5_step_expr (P : Emitters) (hP : C5all P) :
    ∀ e s k s', SclBelow s → emit_expr_step P e s = .ok (k, s') →
      C5Inv s s' := by
  intro e s k s' hb h
  rw [emit_expr_step] at h
  simp only [EmitM.bind_def, EmitM.bind_ok, alloc_label_apply,
    push_scope_apply, Except.ok.injEq, Prod.mk.injEq] at h
  obtain ⟨l, c₁, ⟨hl, hc₁⟩, _, c₂, ⟨-, hc₂⟩, kind, c₃, hin, q, c₄, hpop,
    h⟩ := h
  subst hl
  have h2lc : c₂.labelCount = s.labelCount + 1 := by rw [← hc₂, ← hc₁]
  have h2scl : c₂.shortCircuitLabels =
      (s.labelCount, false) :: s.shortCircuitLabels := by rw [← hc₂, ← hc₁]
  have h2n : c₂.nodes = s.nodes := by rw [← hc₂, ← hc₁]
  have hb₂ : SclBelow c₂ := by
    intro x hx
    rw [show sclLabels c₂.shortCircuitLabels =
      s.labelCount :: sclLabels s.shortCircuitLabels from by
        rw [h2scl]; rfl] at hx
    rw [h2lc]
    rcases List.mem_cons.mp hx with rfl | hx
    · omega
    · exact Nat.lt_of_lt_of_le (hb x hx) (by omega)
  have invIn := hP.inner e c₂ kind c₃ hb₂ hin
  obtain ⟨hlcIn, hmIn, ΔIn, hnIn, hrIn, hdIn, hsIn, hfIn⟩ := invIn
  rw [h2lc] at hlcIn
  rw [h2scl] at hmIn
  rw [h2n] at hnIn
  obtain ⟨p₃, n₃, lc₃, scl₃⟩ := c₃
  cases hmIn with
  | cons hpq htail =>
    rename_i q₂ tail
    obtain ⟨l₂, b⟩ := q₂
    have hll : s.labelCount = l₂ := hpq.1
    subst hll
    rw [pop_scope_cons] at hpop
    simp only [Except.ok.injEq, Prod.mk.injEq] at hpop
    obtain ⟨rfl, rfl⟩ := hpop
    have hsclEq : sclLabels tail = sclLabels s.shortCircuitLabels :=
      SclMono.labels_eq htail
    have hlcIn' : s.labelCount + 1 ≤ lc₃ := hlcIn
    have hrIn' : ∀ x ∈ emittedLabels ΔIn,
        s.labelCount + 1 ≤ x ∧ x < lc₃ := by
      intro x hx
      have := hrIn x hx
      rw [h2lc] at this
      exact this
    cases b
    case false =>
      dsimp only at h
      simp only [Bool.false_eq_true, if_false, EmitM.pure_def, EmitM.pureE,
        Except.ok.injEq, Prod.mk.injEq] at h
      obtain ⟨rfl, rfl⟩ := h
      refine ⟨by show s.labelCount ≤ lc₃; omega, htail, ΔIn, hnIn, ?_,
        hdIn, ?_, ?_⟩
      · intro x hx
        have := hrIn' x hx
        exact ⟨by omega, this.2⟩
      · intro x hx
        refine hsIn x ?_
        rw [show sclLabels c₂.shortCircuitLabels =
          s.labelCount :: sclLabels s.shortCircuitLabels from by
            rw [h2scl]; rfl]
        exact List.mem_cons_of_mem _ hx
      · intro x hx
        rcases hfIn x hx with hin | hused
        · exact Or.inl hin
        · rw [usedScl_cons] at hused
          simp only [Bool.false_eq_true, if_false] at hused
          exact Or.inr hused
    case true =>
      dsimp only at h
      replace h := h.symm
      simp only [if_pos rfl] at h
      rw [if_true] at h
      replace h := h.symm
      simp only [EmitM.bind_def, EmitM.bind_ok, emit_label_apply,
        EmitM.pure_def, EmitM.pureE, Except.ok.injEq, Prod.mk.injEq] at h
      obtain ⟨mv, c₅, hmv, _, c₆, ⟨-, hc₆⟩, hk, hs⟩ := h
      subst hk
      subst hc₆
      subst hs
      obtain ⟨hlcMv, hmMv, ΔMv, hnMv, hrMv, hdMv, hsMv, hfMv⟩ :=
        c5_move_stack kind ⟨p₃, n₃, lc₃, tail⟩ mv c₅ hmv
      have hlcMv' : lc₃ ≤ c₅.labelCount := hlcMv
      have hmMv' : SclMono tail c₅.shortCircuitLabels := hmMv
      have hnMv' : c₅.nodes = n₃ ++ ΔMv := hnMv
      have hrMv' : ∀ x ∈ emittedLabels ΔMv,
          lc₃ ≤ x ∧ x < c₅.labelCount := hrMv
      have hsMv' : ∀ x ∈ sclLabels tail, x ∉ emittedLabels ΔMv := hsMv
      have hnIn' : n₃ = s.nodes ++ ΔIn := hnIn
      have hfIn' : ∀ x ∈ referencedLabels ΔIn,
          x ∈ emittedLabels ΔIn ∨
            x ∈ usedScl ((s.labelCount, true) :: tail) := hfIn
      have hEq : emittedLabels (ΔIn ++ ΔMv ++ [Node.label s.labelCount]) =
          emittedLabels ΔIn ++ (emittedLabels ΔMv ++ [s.labelCount]) := by
        simp [emittedLabels_append]
      refine ⟨?_, ?_, ΔIn ++ ΔMv ++ [.label s.labelCount], ?_, ?_, ?_, ?_,
        ?_⟩
      · show s.labelCount ≤ c₅.labelCount
        omega
      · show SclMono s.shortCircuitLabels c₅.shortCircuitLabels
        exact SclMono.mtrans htail hmMv'
      · show c₅.nodes ++ [Node.label s.labelCount] = s.nodes ++ _
        rw [hnMv', hnIn']
        simp
      · intro x hx
        rw [hEq] at hx
        show s.labelCount ≤ x ∧ x < c₅.labelCount
        rcases List.mem_append.mp hx with hI | hrest
        · have := hrIn' x hI
          omega
        · rcases List.mem_append.mp hrest with hM | hlast
          · have := hrMv' x hM
            omega
          · have := List.mem_singleton.mp hlast
            omega
      · rw [hEq]
        rw [List.nodup_append]
        refine ⟨hdIn, ?_, ?_⟩
        · rw [List.nodup_append]
          refine ⟨hdMv, List.nodup_singleton _, ?_⟩
          intro x hM hlast
          have h1 := (hrMv' x hM).1
          have h2 := List.mem_singleton.mp hlast
          omega
        · intro x hI hrest
          have hxr := hrIn' x hI
          rcases List.mem_append.mp hrest with hM | hlast
          · have := (hrMv' x hM).1
            omega
          · have := List.mem_singleton.mp hlast
            omega
      · intro x hx
        have hxlt : x < s.labelCount := hb x hx
        rw [hEq]
        intro hmem
        rcases List.mem_append.mp hmem with hI | hrest
        · refine hsIn x ?_ hI
          rw [show sclLabels c₂.shortCircuitLabels =
            s.labelCount :: sclLabels s.shortCircuitLabels from by
              rw [h2scl]; rfl]
          exact List.mem_cons_of_mem _ hx
        · rcases List.mem_append.mp hrest with hM | hlast
          · refine hsMv' x ?_ hM
            rw [hsclEq]
            exact hx
          · have := List.mem_singleton.mp hlast
            omega
      · intro x hx
        rw [referencedLabels_append, referencedLabels_append] at hx
        rw [hEq]
        show _ ∨ x ∈ usedScl c₅.shortCircuitLabels
        rcases List.mem_append.mp hx with hx | hlast
        · rcases List.mem_append.mp hx with hI | hM
          · rcases hfIn' x hI with hin | hused
            · exact Or.inl (List.mem_append_left _ hin)
            · rw [usedScl_cons] at hused
              simp only [if_pos rfl] at hused
              rcases List.mem_cons.mp hused with rfl | hused
              · exact Or.inl (List.mem_append_right _
                  (List.mem_append_right _ (List.mem_singleton.mpr rfl)))
              · exact Or.inr (usedScl_subset hmMv' x hused)
          · rcases hfMv x hM with hin | hused
            · exact Or.inl (List.mem_append_right _
                (List.mem_append_left _ hin))
            · exact Or.inr hused
        · simp at hlast

theorem c5_step_inner (P : Emitters) (hP : C5all P) :
    ∀ e s k s', SclBelow s → emit_inner_expr_step P e s = .ok (k, s') →
      C5Inv s s' := by
  intro e s k s' hb h
  cases e with
  | ternaryOp cond ifE elseE =>
    rw [emit_inner_expr_step] at h
    exact hP.ternary cond ifE elseE s k s' hb h
  | binaryOp op l r =>
    rw [emit_inner_expr_step] at h
    exact hP.binary op l r s k s' hb h
  | assignOp op l r =>
    rw [emit_inner_expr_step] at h
    exact hP.assign op l r s k s' hb h
  | base unary term follow =>
    rw [emit_inner_expr_step] at h
    simp only [EmitM.bind_def, EmitM.bind_ok] at h
    obtain ⟨kt, c₁, hterm, kf, c₂, hfollow, hguard⟩ := h
    have inv₁ := hP.term term s kt c₁ hb hterm
    have inv₂ := hP.follow follow kt [] c₁ kf c₂ (hb.preserve inv₁) hfollow
    have inv₃ := c5_unary unary kf c₂ k s' hguard
    exact (inv₁.ctrans inv₂).ctrans inv₃

theorem c5_step_follow (P : Emitters) (hP : C5all P) :
    ∀ fl kind buf s k' s', SclBelow s →
      follow_loop_step P fl kind buf s = .ok (k', s') → C5Inv s s' := by
  intro fl kind buf s k' s' hb h
  cases fl with
  | nil =>
    rw [follow_loop_step] at h
    exact c5_commit buf kind s k' s' hb h
  | cons f rest =>
    cases f with
    | field ik ident =>
      cases ik
      case dot =>
        rw [follow_loop_step] at h
        exact hP.follow rest kind (buf ++ [ident]) s k' s' hb h
      case colon =>
        rw [follow_loop_step] at h
        exact hP.follow rest kind (buf ++ [ident]) s k' s' hb h
      case safeDot =>
        rw [follow_loop_step] at h
        simp only [EmitM.bind_def, EmitM.bind_ok] at h
        obtain ⟨k₁, c₁, hcommit, bd, c₂, hmcb, hloop⟩ := h
        have inv₁ := c5_commit buf kind s k₁ c₁ hb hcommit
        have inv₂ := c5_move_cb k₁ c₁ bd c₂ hmcb
        exact (inv₁.ctrans inv₂).ctrans (hP.follow rest _ [] c₂ k' s'
          ((hb.preserve inv₁).preserve inv₂) hloop)
      case safeColon =>
        rw [follow_loop_step] at h
        simp only [EmitM.bind_def, EmitM.bind_ok] at h
        obtain ⟨k₁, c₁, hcommit, bd, c₂, hmcb, hloop⟩ := h
        have inv₁ := c5_commit buf kind s k₁ c₁ hb hcommit
        have inv₂ := c5_move_cb k₁ c₁ bd c₂ hmcb
        exact (inv₁.ctrans inv₂).ctrans (hP.follow rest _ [] c₂ k' s'
          ((hb.preserve inv₁).preserve inv₂) hloop)
    | index e =>
      rw [follow_loop_step] at h
      simp only [EmitM.bind_def, EmitM.bind_ok] at h
      obtain ⟨k₁, c₁, hcommit, _, c₂, hm₁, ke, c₃, he, _, c₄, hm₂,
        hloop⟩ := h
      have inv₁ := c5_commit buf kind s k₁ c₁ hb hcommit
      have inv₂ := c5_move_stack k₁ c₁ _ c₂ hm₁
      have inv₃ := hP.expr e c₂ ke c₃
        ((hb.preserve inv₁).preserve inv₂) he
      have inv₄ := c5_move_stack ke c₃ _ c₄ hm₂
      exact (((inv₁.ctrans inv₂).ctrans inv₃).ctrans inv₄).ctrans
        (hP.follow rest .listRef [] c₄ k' s'
          ((((hb.preserve inv₁).preserve inv₂).preserve inv₃).preserve
            inv₄) hloop)
    | call ik ident args =>
      rw [follow_loop_step.eq_def] at h
      dsimp only at h
      cases hany : args.any is_assign_expr
      case true =>
        rw [hany, if_pos rfl] at h
        simp [throwE] at h
      case false =>
        rw [hany, if_neg (by simp)] at h
        cases ik
        case dot =>
          dsimp only at h
          split at h
          · simp only [EmitM.bind_def, EmitM.bind_ok, emit_ins_apply,
              Except.ok.injEq, Prod.mk.injEq, true_and, exists_eq_left,
              List.append_assoc, List.singleton_append] at h
            obtain ⟨u, c₁, heach, -, _, rfl, hloop⟩ := h
            have inv₁ := hP.each args s u c₁ hb heach
            have inv₂ : C5Inv c₁ _ :=
              c5_snoc c₁ (.callGlob args.length ("/proc/" ++ ident))
                (by simp [Instruction.jumps])
            exact (inv₁.ctrans inv₂).ctrans (hP.follow rest .stack [] _ k' s'
              (((hb.preserve inv₁).preserve inv₂)) hloop)
          · simp only [EmitM.bind_def, EmitM.bind_ok, emit_ins_apply,
              Except.ok.injEq, Prod.mk.injEq, true_and, exists_eq_left,
              List.append_assoc, List.singleton_append] at h
            obtain ⟨k₁, c₁, hcommit, k₂, c₂, hmove, -, _, rfl, -, _, rfl,
              u, c₃, heach, -, _, rfl, -, _, rfl, hloop⟩ := h
            dsimp only at heach hloop
            simp only [List.append_assoc, List.singleton_append]
              at heach hloop
            have inv₁ := c5_commit buf kind s k₁ c₁ hb hcommit
            have inv₂ := c5_move_stack k₁ c₁ k₂ c₂ hmove
            have invA : C5Inv c₂ _ :=
              c5_snoc2 c₂ (.setVar .cache) .pushCache
                (by simp [Instruction.jumps])
            have inv₃ := hP.each args _ u c₃
              (((hb.preserve inv₁).preserve inv₂).preserve invA) heach
            have invB : C5Inv c₃ _ :=
              c5_snoc2 c₃ .popCache (.call (.dynamicProc ident) args.length)
                (by simp [Instruction.jumps])
            exact ((((inv₁.ctrans inv₂).ctrans invA).ctrans inv₃).ctrans
              invB).ctrans (hP.follow rest .stack [] _ k' s'
                (((((hb.preserve inv₁).preserve inv₂).preserve
                  invA).preserve inv₃).preserve invB) hloop)
        case colon =>
          dsimp only at h
          split at h
          · simp only [EmitM.bind_def, EmitM.bind_ok, emit_ins_apply,
              Except.ok.injEq, Prod.mk.injEq, true_and, exists_eq_left,
              List.append_assoc, List.singleton_append] at h
            obtain ⟨u, c₁, heach, -, _, rfl, hloop⟩ := h
            have inv₁ := hP.each args s u c₁ hb heach
            have inv₂ : C5Inv c₁ _ :=
              c5_snoc c₁ (.callGlob args.length ("/proc/" ++ ident))
                (by simp [Instruction.jumps])
            exact (inv₁.ctrans inv₂).ctrans (hP.follow rest .stack [] _ k' s'
              (((hb.preserve inv₁).preserve inv₂)) hloop)
          · simp only [EmitM.bind_def, EmitM.bind_ok, emit_ins_apply,
              Except.ok.injEq, Prod.mk.injEq, true_and, exists_eq_left,
              List.append_assoc, List.singleton_append] at h
            obtain ⟨k₁, c₁, hcommit, k₂, c₂, hmove, -, _, rfl, -, _, rfl,
              u, c₃, heach, -, _, rfl, -, _, rfl, hloop⟩ := h
            dsimp only at heach hloop
            simp only [List.append_assoc, List.singleton_append]
              at heach hloop
            have inv₁ := c5_commit buf kind s k₁ c₁ hb hcommit
            have inv₂ := c5_move_stack k₁ c₁ k₂ c₂ hmove
            have invA : C5Inv c₂ _ :=
              c5_snoc2 c₂ (.setVar .cache) .pushCache
                (by simp [Instruction.jumps])
            have inv₃ := hP.each args _ u c₃
              (((hb.preserve inv₁).preserve inv₂).preserve invA) heach
            have invB : C5Inv c₃ _ :=
              c5_snoc2 c₃ .popCache (.call (.dynamicProc ident) args.length)
                (by simp [Instruction.jumps])
            exact ((((inv₁.ctrans inv₂).ctrans invA).ctrans inv₃).ctrans
              invB).ctrans (hP.follow rest .stack [] _ k' s'
                (((((hb.preserve inv₁).preserve inv₂).preserve
                  invA).preserve inv₃).preserve invB) hloop)
        case safeDot =>
          dsimp only at h
          simp only [EmitM.bind_def, EmitM.bind_ok, alloc_label_apply,
            emit_ins_apply, emit_label_apply, Except.ok.injEq,
            Prod.mk.injEq] at h
          obtain ⟨k₁, c₁, hcommit, _, c₂, hmove, lab, c₃, ⟨hlab, hc₃⟩, _,
            c₄, ⟨-, hc₄⟩, _, c₅, ⟨-, hc₅⟩, _, c₆, heach, _, c₇, ⟨-, hc₇⟩,
            _, c₈, ⟨-, hc₈⟩, _, c₉, ⟨-, hc₉⟩, hloop⟩ := h
          subst hlab
          have inv₁ := c5_commit buf kind s k₁ c₁ hb hcommit
          have inv₂ := c5_move_stack k₁ c₁ _ c₂ hmove
          have hb₂ : SclBelow c₂ := (hb.preserve inv₁).preserve inv₂
          have h5lc : c₅.labelCount = c₂.labelCount + 1 := by
            rw [← hc₅, ← hc₄, ← hc₃]
          have h5scl : c₅.shortCircuitLabels = c₂.shortCircuitLabels := by
            rw [← hc₅, ← hc₄, ← hc₃]
          have h5n : c₅.nodes = c₂.nodes ++
              [.instruction (.setCacheJmpIfNull c₂.labelCount),
               .instruction .pushCache] := by
            rw [← hc₅, ← hc₄, ← hc₃]
            simp
          have h9lc : c₉.labelCount = c₆.labelCount := by
            rw [← hc₉, ← hc₈, ← hc₇]
          have h9scl : c₉.shortCircuitLabels = c₆.shortCircuitLabels := by
            rw [← hc₉, ← hc₈, ← hc₇]
          have h9n : c₉.nodes = c₆.nodes ++
              [.instruction .popCache,
               .instruction (.call (.dynamicProc ident) args.length),
               .label c₂.labelCount] := by
            rw [← hc₉, ← hc₈, ← hc₇]
            simp
          have hb₅ : SclBelow c₅ := by
            intro x hx
            rw [show sclLabels c₅.shortCircuitLabels =
              sclLabels c₂.shortCircuitLabels from by rw [h5scl]] at hx
            rw [h5lc]
            exact Nat.lt_of_lt_of_le (hb₂ x hx) (by omega)
          obtain ⟨hlcE, hmE, ΔE, hnE, hrE, hdE, hsE, hfE⟩ :=
            hP.each args c₅ _ c₆ hb₅ heach
          rw [h5lc] at hlcE
          rw [h5scl] at hmE
          rw [h5n] at hnE
          have hrE' : ∀ x ∈ emittedLabels ΔE,
              c₂.labelCount + 1 ≤ x ∧ x < c₆.labelCount := by
            intro x hx
            have := hrE x hx
            rw [h5lc] at this
            exact this
          have hsE' : ∀ x ∈ sclLabels c₂.shortCircuitLabels,
              x ∉ emittedLabels ΔE := by
            intro x hx
            refine hsE x ?_
            rw [show sclLabels c₅.shortCircuitLabels =
              sclLabels c₂.shortCircuitLabels from by rw [h5scl]]
            exact hx
          have hmid : C5Inv c₂ c₉ := by
            have hEq : emittedLabels
                ([Node.instruction (Instruction.setCacheJmpIfNull
                    c₂.labelCount), Node.instruction .pushCache] ++ ΔE ++
                  [Node.instruction .popCache,
                   Node.instruction (.call (.dynamicProc ident)
                     args.length), Node.label c₂.labelCount]) =
                emittedLabels ΔE ++ [c₂.labelCount] := by
              simp [emittedLabels_append]
            refine ⟨?_, ?_,
              [Node.instruction (Instruction.setCacheJmpIfNull
                  c₂.labelCount), Node.instruction .pushCache] ++ ΔE ++
                [Node.instruction .popCache,
                 Node.instruction (.call (.dynamicProc ident)
                   args.length), Node.label c₂.labelCount],
              ?_, ?_, ?_, ?_, ?_⟩
            · rw [h9lc]
              omega
            · rw [h9scl]
              exact hmE
            · rw [h9n, hnE]
              simp
            · intro x hx
              rw [hEq] at hx
              rw [h9lc]
              rcases List.mem_append.mp hx with hE | hlast
              · have := hrE' x hE
                constructor <;> omega
              · have := List.mem_singleton.mp hlast
                subst this
                constructor <;> omega
            · rw [hEq]
              rw [List.nodup_append]
              refine ⟨hdE, List.nodup_singleton _, ?_⟩
              intro x hE hlast
              have h1 := (hrE' x hE).1
              have h2 := List.mem_singleton.mp hlast
              omega
            · intro x hx
              have hxlt : x < c₂.labelCount := hb₂ x hx
              rw [hEq]
              intro hmem
              rcases List.mem_append.mp hmem with hE | hlast
              · exact hsE' x hx hE
              · have := List.mem_singleton.mp hlast
                omega
            · intro x hx
              rw [hEq]
              simp only [referencedLabels_append, referencedLabels_cons_ins,
                referencedLabels_cons_label, referencedLabels_nil,
                Instruction.jumps, List.append_nil, List.nil_append,
                List.mem_append, List.mem_cons, List.mem_singleton] at hx
              rcases hx with (rfl | hfalse) | hE
              · exact Or.inl (List.mem_append_right _
                  (List.mem_singleton.mpr rfl))
              · cases hfalse
              · rcases hfE x hE with hin | hused
                · exact Or.inl (List.mem_append_left _ hin)
                · refine Or.inr ?_
                  rw [h9scl]
                  exact hused
          exact ((inv₁.ctrans inv₂).ctrans hmid).ctrans
            (hP.follow rest .stack [] c₉ k' s' (hb₂.preserve hmid) hloop)
        case safeColon =>
          dsimp only at h
          simp only [EmitM.bind_def, EmitM.bind_ok, alloc_label_apply,
            emit_ins_apply, emit_label_apply, Except.ok.injEq,
            Prod.mk.injEq] at h
          obtain ⟨k₁, c₁, hcommit, _, c₂, hmove, lab, c₃, ⟨hlab, hc₃⟩, _,
            c₄, ⟨-, hc₄⟩, _, c₅, ⟨-, hc₅⟩, _, c₆, heach, _, c₇, ⟨-, hc₇⟩,
            _, c₈, ⟨-, hc₈⟩, _, c₉, ⟨-, hc₉⟩, hloop⟩ := h
          subst hlab
          have inv₁ := c5_commit buf kind s k₁ c₁ hb hcommit
          have inv₂ := c5_move_stack k₁ c₁ _ c₂ hmove
          have hb₂ : SclBelow c₂ := (hb.preserve inv₁).preserve inv₂
          have h5lc : c₅.labelCount = c₂.labelCount + 1 := by
            rw [← hc₅, ← hc₄, ← hc₃]
          have h5scl : c₅.shortCircuitLabels = c₂.shortCircuitLabels := by
            rw [← hc₅, ← hc₄, ← hc₃]
          have h5n : c₅.nodes = c₂.nodes ++
              [.instruction (.setCacheJmpIfNull c₂.labelCount),
               .instruction .pushCache] := by
            rw [← hc₅, ← hc₄, ← hc₃]
            simp
          have h9lc : c₉.labelCount = c₆.labelCount := by
            rw [← hc₉, ← hc₈, ← hc₇]
          have h9scl : c₉.shortCircuitLabels = c₆.shortCircuitLabels := by
            rw [← hc₉, ← hc₈, ← hc₇]
          have h9n : c₉.nodes = c₆.nodes ++
              [.instruction .popCache,
               .instruction (.call (.dynamicProc ident) args.length),
               .label c₂.labelCount] := by
            rw [← hc₉, ← hc₈, ← hc₇]
            simp
          have hb₅ : SclBelow c₅ := by
            intro x hx
            rw [show sclLabels c₅.shortCircuitLabels =
              sclLabels c₂.shortCircuitLabels from by rw [h5scl]] at hx
            rw [h5lc]
            exact Nat.lt_of_lt_of_le (hb₂ x hx) (by omega)
          obtain ⟨hlcE, hmE, ΔE, hnE, hrE, hdE, hsE, hfE⟩ :=
            hP.each args c₅ _ c₆ hb₅ heach
          rw [h5lc] at hlcE
          rw [h5scl] at hmE
          rw [h5n] at hnE
          have hrE' : ∀ x ∈ emittedLabels ΔE,
              c₂.labelCount + 1 ≤ x ∧ x < c₆.labelCount := by
            intro x hx
            have := hrE x hx
            rw [h5lc] at this
            exact this
          have hsE' : ∀ x ∈ sclLabels c₂.shortCircuitLabels,
              x ∉ emittedLabels ΔE := by
            intro x hx
            refine hsE x ?_
            rw [show sclLabels c₅.shortCircuitLabels =
              sclLabels c₂.shortCircuitLabels from by rw [h5scl]]
            exact hx
          have hmid : C5Inv c₂ c₉ := by
            have hEq : emittedLabels
                ([Node.instruction (Instruction.setCacheJmpIfNull
                    c₂.labelCount), Node.instruction .pushCache] ++ ΔE ++
                  [Node.instruction .popCache,
                   Node.instruction (.call (.dynamicProc ident)
                     args.length), Node.label c₂.labelCount]) =
                emittedLabels ΔE ++ [c₂.labelCount] := by
              simp [emittedLabels_append]
            refine ⟨?_, ?_,
              [Node.instruction (Instruction.setCacheJmpIfNull
                  c₂.labelCount), Node.instruction .pushCache] ++ ΔE ++
                [Node.instruction .popCache,
                 Node.instruction (.call (.dynamicProc ident)
                   args.length), Node.label c₂.labelCount],
              ?_, ?_, ?_, ?_, ?_⟩
            · rw [h9lc]
              omega
            · rw [h9scl]
              exact hmE
            · rw [h9n, hnE]
              simp
            · intro x hx
              rw [hEq] at hx
              rw [h9lc]
              rcases List.mem_append.mp hx with hE | hlast
              · have := hrE' x hE
                constructor <;> omega
              · have := List.mem_singleton.mp hlast
                subst this
                constructor <;> omega
            · rw [hEq]
              rw [List.nodup_append]
              refine ⟨hdE, List.nodup_singleton _, ?_⟩
              intro x hE hlast
              have h1 := (hrE' x hE).1
              have h2 := List.mem_singleton.mp hlast
              omega
            · intro x hx
              have hxlt : x < c₂.labelCount := hb₂ x hx
              rw [hEq]
              intro hmem
              rcases List.mem_append.mp hmem with hE | hlast
              · exact hsE' x hx hE
              · have := List.mem_singleton.mp hlast
                omega
            · intro x hx
              rw [hEq]
              simp only [referencedLabels_append, referencedLabels_cons_ins,
                referencedLabels_cons_label, referencedLabels_nil,
                Instruction.jumps, List.append_nil, List.nil_append,
                List.mem_append, List.mem_cons, List.mem_singleton] at hx
              rcases hx with (rfl | hfalse) | hE
              · exact Or.inl (List.mem_append_right _
                  (List.mem_singleton.mpr rfl))
              · cases hfalse
              · rcases hfE x hE with hin | hused
                · exact Or.inl (List.mem_append_left _ hin)
                · refine Or.inr ?_
                  rw [h9scl]
                  exact hused
          exact ((inv₁.ctrans inv₂).ctrans hmid).ctrans
            (hP.follow rest .stack [] c₉ k' s' (hb₂.preserve hmid) hloop)


theorem c5_step_pickW (P : Emitters) (hP : C5all P) :
    ∀ args s bs s', SclBelow s →
      pick_weights_step P args s = .ok (bs, s') → C5PW s s' bs := by
  intro args s bs s' hb h
  cases args with
  | nil =>
    rw [pick_weights_step] at h
    simp only [EmitM.pure_def, EmitM.pureE, Except.ok.injEq,
      Prod.mk.injEq] at h
    obtain ⟨rfl, rfl⟩ := h
    exact ⟨Nat.le_refl _, SclMono.mrefl _, by simp, by simp, [], by simp,
      by simp, by simp, by simp, by intro l hl; simp,
      by intro l hl; simp at hl⟩
  | cons a rest =>
    obtain ⟨lhs, rhs⟩ := a
    rw [pick_weights_step.eq_def] at h
    dsimp only at h
    cases lhs with
    | some w =>
      simp only [EmitM.bind_def, EmitM.bind_ok, alloc_label_apply,
        emit_ins_apply, EmitM.pure_def, EmitM.pureE, Except.ok.injEq,
        Prod.mk.injEq] at h
      obtain ⟨kw, c₁, hw, _, c₂, hmv, _, c₂x, ⟨-, hid⟩, lab, c₃,
        ⟨hlab, hc₃⟩, branches, c₄, hrest, hcons, hs⟩ := h
      subst hid
      subst hlab
      subst hs
      subst hcons
      have inv₁ : C5Inv s c₂ :=
        (hP.expr w s kw c₁ hb hw).ctrans (c5_move_stack kw c₁ _ c₂ hmv)
      have hm₁ := inv₁.2.1
      have h3lc : c₃.labelCount = c₂.labelCount + 1 := by rw [← hc₃]
      have h3scl : c₃.shortCircuitLabels = c₂.shortCircuitLabels := by
        rw [← hc₃]
      have h3n : c₃.nodes = c₂.nodes := by rw [← hc₃]
      have hb₂ : SclBelow c₂ := hb.preserve inv₁
      have hb₃ : SclBelow c₃ := by
        intro x hx
        rw [show sclLabels c₃.shortCircuitLabels =
          sclLabels c₂.shortCircuitLabels from by rw [h3scl]] at hx
        rw [h3lc]
        exact Nat.lt_of_lt_of_le (hb₂ x hx) (by omega)
      obtain ⟨hlcR, hmR, hndR, hfrR, ΔR, hnR, hrR, hdR, hbsR, hsR, hfR⟩ :=
        hP.pickW rest c₃ branches c₄ hb₃ hrest
      rw [h3lc] at hlcR
      rw [h3scl] at hmR
      rw [h3n] at hnR
      have hfrR' : ∀ l ∈ branches.map Prod.fst,
          c₂.labelCount + 1 ≤ l ∧ l < c₄.labelCount := by
        intro l hl
        have := hfrR l hl
        rw [h3lc] at this
        exact this
      have hrR' : ∀ l ∈ emittedLabels ΔR,
          c₂.labelCount + 1 ≤ l ∧ l < c₄.labelCount := by
        intro l hl
        have := hrR l hl
        rw [h3lc] at this
        exact this
      have hsR' : ∀ x ∈ sclLabels s.shortCircuitLabels,
          x ∉ emittedLabels ΔR := by
        intro x hx
        refine hsR x ?_
        rw [show sclLabels c₃.shortCircuitLabels =
          sclLabels c₂.shortCircuitLabels from by rw [h3scl]]
        rw [hm₁.labels_eq]
        exact hx
      obtain ⟨hlc₁, hm₁', Δ₁, hn₁, hr₁, hd₁, hs₁, hf₁⟩ := inv₁
      refine ⟨by omega, hm₁'.mtrans hmR, ?_, ?_, Δ₁ ++ ΔR, ?_, ?_, ?_, ?_,
        ?_, ?_⟩
      · rw [List.map_cons, List.nodup_cons]
        refine ⟨?_, hndR⟩
        intro hmem
        have := hfrR' _ hmem
        omega
      · intro l hl
        rcases List.mem_cons.mp hl with rfl | hl
        · exact ⟨by omega, by omega⟩
        · have := hfrR' l hl
          exact ⟨by omega, this.2⟩
      · rw [hnR, hn₁, List.append_assoc]
      · intro l hl
        rw [emittedLabels_append] at hl
        rcases List.mem_append.mp hl with h₁ | hR
        · have := hr₁ l h₁
          exact ⟨this.1, by omega⟩
        · have := hrR' l hR
          exact ⟨by omega, this.2⟩
      · rw [emittedLabels_append]
        exact nodup_append_ranges c₂.labelCount
          (fun l hl => (hr₁ l hl).2) (fun l hl => by
            have := (hrR' l hl).1
            omega) hd₁ hdR
      · intro l hl
        rw [emittedLabels_append]
        intro hmem
        rcases List.mem_cons.mp hl with rfl | hl
        · rcases List.mem_append.mp hmem with h₁ | hR
          · have := (hr₁ _ h₁).2
            omega
          · have := (hrR' _ hR).1
            omega
        · have hbound := hfrR' l hl
          rcases List.mem_append.mp hmem with h₁ | hR
          · have := (hr₁ l h₁).2
            omega
          · exact hbsR l hl hR
      · intro x hx
        rw [emittedLabels_append]
        intro hmem
        rcases List.mem_append.mp hmem with h₁ | hR
        · exact hs₁ x hx h₁
        · exact hsR' x hx hR
      · intro l hl
        rw [referencedLabels_append] at hl
        rw [emittedLabels_append]
        rcases List.mem_append.mp hl with h₁ | hR
        · rcases hf₁ l h₁ with hin | hused
          · exact Or.inl (List.mem_append_left _ hin)
          · exact Or.inr (usedScl_subset hmR l hused)
        · rcases hfR l hR with hin | hused
          · exact Or.inl (List.mem_append_right _ hin)
          · exact Or.inr hused
    | none =>
      simp only [EmitM.bind_def, EmitM.bind_ok, alloc_label_apply,
        emit_ins_apply, EmitM.pure_def, EmitM.pureE, Except.ok.injEq,
        Prod.mk.injEq] at h
      obtain ⟨_, c₂, ⟨-, hsn⟩, lab, c₃, ⟨hlab, hc₃⟩, branches, c₄, hrest,
        hcons, hs⟩ := h
      subst hlab
      subst hs
      subst hcons
      have inv₁ : C5Inv s c₂ := by
        rw [← hsn]
        exact c5_snoc s _ (by simp [Instruction.jumps])
      have hm₁ := inv₁.2.1
      have h3lc : c₃.labelCount = c₂.labelCount + 1 := by rw [← hc₃]
      have h3scl : c₃.shortCircuitLabels = c₂.shortCircuitLabels := by
        rw [← hc₃]
      have h3n : c₃.nodes = c₂.nodes := by rw [← hc₃]
      have hb₂ : SclBelow c₂ := hb.preserve inv₁
      have hb₃ : SclBelow c₃ := by
        intro x hx
        rw [show sclLabels c₃.shortCircuitLabels =
          sclLabels c₂.shortCircuitLabels from by rw [h3scl]] at hx
        rw [h3lc]
        exact Nat.lt_of_lt_of_le (hb₂ x hx) (by omega)
      obtain ⟨hlcR, hmR, hndR, hfrR, ΔR, hnR, hrR, hdR, hbsR, hsR, hfR⟩ :=
        hP.pickW rest c₃ branches c₄ hb₃ hrest
      rw [h3lc] at hlcR
      rw [h3scl] at hmR
      rw [h3n] at hnR
      have hfrR' : ∀ l ∈ branches.map Prod.fst,
          c₂.labelCount + 1 ≤ l ∧ l < c₄.labelCount := by
        intro l hl
        have := hfrR l hl
        rw [h3lc] at this
        exact this
      have hrR' : ∀ l ∈ emittedLabels ΔR,
          c₂.labelCount + 1 ≤ l ∧ l < c₄.labelCount := by
        intro l hl
        have := hrR l hl
        rw [h3lc] at this
        exact this
      have hsR' : ∀ x ∈ sclLabels s.shortCircuitLabels,
          x ∉ emittedLabels ΔR := by
        intro x hx
        refine hsR x ?_
        rw [show sclLabels c₃.shortCircuitLabels =
          sclLabels c₂.shortCircuitLabels from by rw [h3scl]]
        rw [hm₁.labels_eq]
        exact hx
      obtain ⟨hlc₁, hm₁', Δ₁, hn₁, hr₁, hd₁, hs₁, hf₁⟩ := inv₁
      refine ⟨by omega, hm₁'.mtrans hmR, ?_, ?_, Δ₁ ++ ΔR, ?_, ?_, ?_, ?_,
        ?_, ?_⟩
      · rw [List.map_cons, List.nodup_cons]
        refine ⟨?_, hndR⟩
        intro hmem
        have := hfrR' _ hmem
        omega
      · intro l hl
        rcases List.mem_cons.mp hl with rfl | hl
        · exact ⟨by omega, by omega⟩
        · have := hfrR' l hl
          exact ⟨by omega, this.2⟩
      · rw [hnR, hn₁, List.append_assoc]
      · intro l hl
        rw [emittedLabels_append] at hl
        rcases List.mem_append.mp hl with h₁ | hR
        · have := hr₁ l h₁
          exact ⟨this.1, by omega⟩
        · have := hrR' l hR
          exact ⟨by omega, this.2⟩
      · rw [emittedLabels_append]
        exact nodup_append_ranges c₂.labelCount
          (fun l hl => (hr₁ l hl).2) (fun l hl => by
            have := (hrR' l hl).1
            omega) hd₁ hdR
      · intro l hl
        rw [emittedLabels_append]
        intro hmem
        rcases List.mem_cons.mp hl with rfl | hl
        · rcases List.mem_append.mp hmem with h₁ | hR
          · have := (hr₁ _ h₁).2
            omega
          · have := (hrR' _ hR).1
            omega
        · have hbound := hfrR' l hl
          rcases List.mem_append.mp hmem with h₁ | hR
          · have := (hr₁ l h₁).2
            omega
          · exact hbsR l hl hR
      · intro x hx
        rw [emittedLabels_append]
        intro hmem
        rcases List.mem_append.mp hmem with h₁ | hR
        · exact hs₁ x hx h₁
        · exact hsR' x hx hR
      · intro l hl
        rw [referencedLabels_append] at hl
        rw [emittedLabels_append]
        rcases List.mem_append.mp hl with h₁ | hR
        · rcases hf₁ l h₁ with hin | hused
          · exact Or.inl (List.mem_append_left _ hin)
          · exact Or.inr (usedScl_subset hmR l hused)
        · rcases hfR l hR with hin | hused
          · exact Or.inl (List.mem_append_right _ hin)
          · exact Or.inr hused

theorem c5_step_pickB (P : Emitters) (hP : C5all P) :
    ∀ bs lEnd s u s', SclBelow s → (bs.map Prod.fst).Nodup →
      (∀ l ∈ bs.map Prod.fst, l < s.labelCount) →
      (∀ l ∈ bs.map Prod.fst, l ∉ sclLabels s.shortCircuitLabels) →
      pick_bodies_step P bs lEnd s = .ok (u, s') → C5PB s s' bs lEnd := by
  intro bs lEnd s u s' hb hnd hlt hnscl h
  cases bs with
  | nil =>
    rw [pick_bodies_step] at h
    simp only [EmitM.pure_def, EmitM.pureE, Except.ok.injEq,
      Prod.mk.injEq] at h
    obtain ⟨-, rfl⟩ := h
    exact ⟨Nat.le_refl _, SclMono.mrefl _, [], by simp, by simp, by simp,
      by simp, by intro l hl; simp, by intro l hl; simp at hl⟩
  | cons a rest =>
    obtain ⟨lab, e⟩ := a
    rw [pick_bodies_step] at h
    simp only [EmitM.bind_def, EmitM.bind_ok, emit_label_apply,
      emit_ins_apply, Except.ok.injEq, Prod.mk.injEq] at h
    obtain ⟨_, c₁, ⟨-, hc₁⟩, ke, c₂, he, _, c₃, hmv, _, c₄, ⟨-, hc₄⟩,
      hrest⟩ := h
    simp only [List.map_cons, List.nodup_cons, List.mem_cons,
      List.forall_mem_cons] at hnd hlt hnscl
    have hltHead : lab < s.labelCount := hlt lab (Or.inl rfl)
    have hltTail : ∀ l ∈ rest.map Prod.fst, l < s.labelCount :=
      fun l hl => hlt l (Or.inr hl)
    have hnsclHead : lab ∉ sclLabels s.shortCircuitLabels :=
      hnscl lab (Or.inl rfl)
    have hnsclTail : ∀ l ∈ rest.map Prod.fst,
        l ∉ sclLabels s.shortCircuitLabels :=
      fun l hl => hnscl l (Or.inr hl)
    have h1lc : c₁.labelCount = s.labelCount := by rw [← hc₁]
    have h1scl : c₁.shortCircuitLabels = s.shortCircuitLabels := by
      rw [← hc₁]
    have h1n : c₁.nodes = s.nodes ++ [Node.label lab] := by rw [← hc₁]
    have hb₁ : SclBelow c₁ := by
      intro x hx
      rw [show sclLabels c₁.shortCircuitLabels =
        sclLabels s.shortCircuitLabels from by rw [h1scl]] at hx
      rw [h1lc]
      exact hb x hx
    have invE : C5Inv c₁ c₃ :=
      (hP.expr e c₁ ke c₂ hb₁ he).ctrans (c5_move_stack ke c₂ _ c₃ hmv)
    have hb₃ : SclBelow c₃ := hb₁.preserve invE
    have h4lc : c₄.labelCount = c₃.labelCount := by rw [← hc₄]
    have h4scl : c₄.shortCircuitLabels = c₃.shortCircuitLabels := by
      rw [← hc₄]
    have h4n : c₄.nodes = c₃.nodes ++ [.instruction (.jmp lEnd)] := by
      rw [← hc₄]
    have hsclEq : sclLabels c₃.shortCircuitLabels =
        sclLabels s.shortCircuitLabels := by
      rw [invE.2.1.labels_eq, h1scl]
    have hb₄ : SclBelow c₄ := by
      intro x hx
      rw [show sclLabels c₄.shortCircuitLabels =
        sclLabels c₃.shortCircuitLabels from by rw [h4scl]] at hx
      rw [h4lc]
      exact hb₃ x hx
    have hlc13 : s.labelCount ≤ c₃.labelCount := by
      have := invE.1
      omega
    obtain ⟨hlc₁', hm₁', ΔE, hnE, hrE, hdE, hsE, hfE⟩ := invE
    rw [h1lc] at hlc₁'
    rw [h1n] at hnE
    have hrE' : ∀ x ∈ emittedLabels ΔE,
        s.labelCount ≤ x ∧ x < c₃.labelCount := by
      intro x hx
      have := hrE x hx
      rw [h1lc] at this
      exact this
    have hsE' : ∀ x ∈ sclLabels s.shortCircuitLabels,
        x ∉ emittedLabels ΔE := by
      intro x hx
      refine hsE x ?_
      rw [show sclLabels c₁.shortCircuitLabels =
        sclLabels s.shortCircuitLabels from by rw [h1scl]]
      exact hx
    obtain ⟨hlcR, hmR, ΔR, hnR, hrR, hdR, hinR, hsR, hfR⟩ :=
      hP.pickB rest lEnd c₄ u s' hb₄ hnd.2
        (by
          intro l hl
          rw [h4lc]
          exact Nat.lt_of_lt_of_le (hltTail l hl) hlc13)
        (by
          intro l hl
          rw [show sclLabels c₄.shortCircuitLabels =
            sclLabels s.shortCircuitLabels from by rw [h4scl, hsclEq]]
          exact hnsclTail l hl)
        hrest
    rw [h4lc] at hlcR
    rw [h4n] at hnR
    have hrR' : ∀ x ∈ emittedLabels ΔR,
        x ∈ rest.map Prod.fst ∨
          (c₃.labelCount ≤ x ∧ x < s'.labelCount) := by
      intro x hx
      rcases hrR x hx with hin | hrange
      · exact Or.inl hin
      · rw [h4lc] at hrange
        exact Or.inr hrange
    have hsR' : ∀ x ∈ sclLabels s.shortCircuitLabels,
        x ∉ emittedLabels ΔR := by
      intro x hx
      refine hsR x ?_
      rw [show sclLabels c₄.shortCircuitLabels =
        sclLabels s.shortCircuitLabels from by rw [h4scl, hsclEq]]
      exact hx
    have hEq : emittedLabels
        (Node.label lab :: ΔE ++
          Node.instruction (Instruction.jmp lEnd) :: ΔR) =
        lab :: (emittedLabels ΔE ++ emittedLabels ΔR) := by
      simp [emittedLabels_append]
    have hRq : referencedLabels
        (Node.label lab :: ΔE ++
          Node.instruction (Instruction.jmp lEnd) :: ΔR) =
        referencedLabels ΔE ++ lEnd :: referencedLabels ΔR := by
      simp [Instruction.jumps, referencedLabels_append]
    refine ⟨by omega, ?_,
      Node.label lab :: ΔE ++
        Node.instruction (Instruction.jmp lEnd) :: ΔR, ?_, ?_, ?_, ?_, ?_,
      ?_⟩
    · have hm1 : SclMono s.shortCircuitLabels c₃.shortCircuitLabels := by
        rw [← h1scl]
        exact hm₁'
      refine hm1.mtrans ?_
      rw [← h4scl]
      exact hmR
    · rw [hnR, hnE]
      simp
    · intro x hx
      rw [hEq] at hx
      rcases List.mem_cons.mp hx with rfl | hx
      · exact Or.inl (List.mem_cons_self _ _)
      · rcases List.mem_append.mp hx with hE | hR
        · have := hrE' x hE
          exact Or.inr ⟨this.1, by omega⟩
        · rcases hrR' x hR with hin | hrange
          · exact Or.inl (List.mem_cons_of_mem _ hin)
          · exact Or.inr ⟨by omega, hrange.2⟩
    · rw [hEq]
      rw [List.nodup_cons]
      constructor
      · intro hmem
        rcases List.mem_append.mp hmem with hE | hR
        · have h1 := (hrE' lab hE).1
          omega
        · rcases hrR' lab hR with hin | hrange
          · exact hnd.1 hin
          · omega
      · refine List.Nodup.append hdE hdR ?_
        intro x hE hR
        have hx1 := hrE' x hE
        rcases hrR' x hR with hin | hrange
        · have := hltTail x hin
          omega
        · omega
    · intro x hx
      rw [hEq]
      rcases List.mem_cons.mp hx with rfl | hx
      · exact List.mem_cons_self _ _
      · exact List.mem_cons_of_mem _
          (List.mem_append_right _ (hinR x hx))
    · intro x hx
      rw [hEq]
      intro hmem
      rcases List.mem_cons.mp hmem with rfl | hmem
      · exact hnsclHead hx
      · rcases List.mem_append.mp hmem with hE | hR
        · exact hsE' x hx hE
        · exact hsR' x hx hR
    · intro x hx
      rw [hRq] at hx
      rw [hEq]
      rcases List.mem_append.mp hx with hE | hrest'
      · rcases hfE x hE with hin | hused
        · exact Or.inl (List.mem_cons_of_mem _ (List.mem_append_left _ hin))
        · refine Or.inr (Or.inl ?_)
          refine usedScl_subset ?_ x hused
          rw [h4scl] at hmR
          exact hmR
      · rcases List.mem_cons.mp hrest' with rfl | hR
        · exact Or.inr (Or.inr rfl)
        · rcases hfR x hR with hin | hor
          · exact Or.inl (List.mem_cons_of_mem _
              (List.mem_append_right _ hin))
          · rcases hor with hused | rfl
            · exact Or.inr (Or.inl hused)
            · exact Or.inr (Or.inr rfl)

theorem c5_step_term (P : Emitters) (hP : C5all P) :
    ∀ t s k s', SclBelow s → term_emit_step P t s = .ok (k, s') →
      C5Inv s s' := by
  intro t s k s' hb h
  cases t with
  | expr e =>
    rw [term_emit_step] at h
    exact hP.expr e s k s' hb h
  | null =>
    simp only [term_emit_step, EmitM.bind_def, EmitM.bind, EmitM.pure_def,
      EmitM.pureE, emit_ins_apply, Except.ok.injEq, Prod.mk.injEq] at h
    obtain ⟨rfl, rfl⟩ := h
    exact c5_snoc s _ (by simp [Instruction.jumps])
  | int i =>
    simp only [term_emit_step, EmitM.bind_def, EmitM.bind, EmitM.pure_def,
      EmitM.pureE, emit_ins_apply, Except.ok.injEq, Prod.mk.injEq] at h
    obtain ⟨rfl, rfl⟩ := h
    exact c5_snoc s _ (by simp [Instruction.jumps])
  | float bits =>
    simp only [term_emit_step, EmitM.bind_def, EmitM.bind, EmitM.pure_def,
      EmitM.pureE, emit_ins_apply, Except.ok.injEq, Prod.mk.injEq] at h
    obtain ⟨rfl, rfl⟩ := h
    exact c5_snoc s _ (by simp [Instruction.jumps])
  | string str =>
    simp only [term_emit_step, EmitM.bind_def, EmitM.bind, EmitM.pure_def,
      EmitM.pureE, emit_ins_apply, Except.ok.injEq, Prod.mk.injEq] at h
    obtain ⟨rfl, rfl⟩ := h
    exact c5_snoc s _ (by simp [Instruction.jumps])
  | resource r =>
    simp only [term_emit_step, EmitM.bind_def, EmitM.bind, EmitM.pure_def,
      EmitM.pureE, emit_ins_apply, Except.ok.injEq, Prod.mk.injEq] at h
    obtain ⟨rfl, rfl⟩ := h
    exact c5_snoc s _ (by simp [Instruction.jumps])
  | asBits bits =>
    simp only [term_emit_step, EmitM.bind_def, EmitM.bind, EmitM.pure_def,
      EmitM.pureE, emit_ins_apply, Except.ok.injEq, Prod.mk.injEq] at h
    obtain ⟨rfl, rfl⟩ := h
    exact c5_snoc s _ (by simp [Instruction.jumps])
  | ident str =>
    simp only [term_emit_step, EmitM.bind_def, EmitM.bind, EmitM.pure_def,
      EmitM.pureE, get_params_apply, Except.ok.injEq, Prod.mk.injEq] at h
    obtain ⟨rfl, rfl⟩ := h
    exact C5Inv.crefl s
  | prefab p =>
    rw [term_emit_step] at h
    by_cases hv : p.vars ≠ []
    · rw [if_pos hv] at h
      simp [throwE] at h
    · rw [if_neg hv] at h
      simp only [EmitM.bind_def, EmitM.bind, EmitM.pure_def, EmitM.pureE,
        emit_ins_apply, Except.ok.injEq, Prod.mk.injEq] at h
      obtain ⟨rfl, rfl⟩ := h
      exact c5_snoc s _ (by simp [Instruction.jumps])
  | call ident args =>
    rw [term_emit_step] at h
    simp only [EmitM.bind_def, EmitM.bind_ok] at h
    obtain ⟨res, c₁, hargs, h⟩ := h
    have inv₁ := hP.argsE .proc args s res c₁ hb hargs
    cases res <;>
      simp only [EmitM.bind_def, EmitM.bind, EmitM.pure_def, EmitM.pureE,
        emit_ins_apply, Except.ok.injEq, Prod.mk.injEq, List.append_assoc,
        List.singleton_append] at h <;>
      obtain ⟨rfl, rfl⟩ := h
    · exact inv₁.ctrans (c5_snoc _ _ (by simp [Instruction.jumps]))
    · exact inv₁.ctrans (c5_snoc2 _ _ _ (by simp [Instruction.jumps]))
    · exact inv₁.ctrans (c5_snoc _ _ (by simp [Instruction.jumps]))
  | dynamicCall lhs rhs =>
    rw [term_emit_step] at h
    cases he : lhs.isEmpty
    case true =>
      rw [he, if_pos rfl] at h
      simp [throwE] at h
    case false =>
      rw [he, if_neg (by simp)] at h
      by_cases h2 : lhs.length > 2
      · rw [if_pos h2] at h
        simp [throwE] at h
      · rw [if_neg h2] at h
        simp only [EmitM.bind_def, EmitM.bind_ok] at h
        obtain ⟨u, c₁, heach, res, c₂, hargs, h⟩ := h
        have inv₁ := hP.each lhs s u c₁ hb heach
        have inv₂ := hP.argsE .list rhs c₁ res c₂ (hb.preserve inv₁) hargs
        cases res with
        | normal =>
          rcases hL : lhs.length with _ | (_ | n) <;>
            rw [hL] at h <;>
            simp only [EmitM.bind_def, EmitM.bind, EmitM.pure_def,
              EmitM.pureE, emit_ins_apply, Except.ok.injEq,
              Prod.mk.injEq] at h <;>
            obtain ⟨rfl, rfl⟩ := h <;>
            exact (inv₁.ctrans inv₂).ctrans
              (c5_snoc _ _ (by simp [Instruction.jumps]))
        | assoc =>
          simp only [EmitM.bind_def, EmitM.bind_ok, emit_ins_apply,
            Except.ok.injEq, Prod.mk.injEq, true_and, exists_eq_left] at h
          obtain ⟨-, _, rfl, h⟩ := h
          rcases hL : lhs.length with _ | (_ | n) <;>
            rw [hL] at h <;>
            simp only [EmitM.bind_def, EmitM.bind, EmitM.pure_def,
              EmitM.pureE, emit_ins_apply, Except.ok.injEq, Prod.mk.injEq,
              List.append_assoc, List.singleton_append] at h <;>
            obtain ⟨rfl, rfl⟩ := h <;>
            exact (inv₁.ctrans inv₂).ctrans
              (c5_snoc2 _ _ _ (by simp [Instruction.jumps]))
        | argList =>
          rcases hL : lhs.length with _ | (_ | n) <;>
            rw [hL] at h <;>
            simp only [EmitM.bind_def, EmitM.bind, EmitM.pure_def,
              EmitM.pureE, emit_ins_apply, Except.ok.injEq,
              Prod.mk.injEq] at h <;>
            obtain ⟨rfl, rfl⟩ := h <;>
            exact (inv₁.ctrans inv₂).ctrans
              (c5_snoc _ _ (by simp [Instruction.jumps]))
  | selfCall =>
    rw [term_emit_step] at h
    simp [throwE] at h
  | parentCall =>
    rw [term_emit_step] at h
    simp [throwE] at h
  | interpString =>
    rw [term_emit_step] at h
    simp [throwE] at h
  | input =>
    rw [term_emit_step] at h
    simp [throwE] at h
  | new ty args =>
    rw [term_emit_step.eq_def] at h
    dsimp only at h
    cases ty with
    | prefab p =>
      dsimp only at h
      by_cases hv : p.vars ≠ []
      · rw [if_pos hv] at h
        simp [throwE] at h
      · rw [if_neg hv] at h
        simp only [EmitM.bind_def, EmitM.bind_ok, emit_ins_apply,
          Except.ok.injEq, Prod.mk.injEq, true_and, exists_eq_left] at h
        obtain ⟨-, _, rfl, h⟩ := h
        refine (c5_snoc s (.pushVal (.path (render_path p.path)))
          (by simp [Instruction.jumps])).ctrans ?_
        refine hP.newE args _ k s' ?_ h
        intro x hx
        exact hb x hx
    | miniExpr ident fields =>
      dsimp only at h
      simp only [EmitM.bind_def, EmitM.bind_ok, get_params_apply,
        Except.ok.injEq, Prod.mk.injEq] at h
      obtain ⟨ps, c₀, ⟨hps, hc₀⟩, kf, c₁, hfollow, _, c₂, hmove, h⟩ := h
      subst hps
      subst hc₀
      have inv₁ := hP.follow _ _ [] s kf c₁ hb hfollow
      have inv₂ := c5_move_stack kf c₁ _ c₂ hmove
      exact (inv₁.ctrans inv₂).ctrans (hP.newE args c₂ k s'
        ((hb.preserve inv₁).preserve inv₂) h)
    | implicit =>
      simp [throwE] at h
  | locate args inList =>
    rw [term_emit_step.eq_def] at h
    dsimp only at h
    simp only [EmitM.bind_def, EmitM.bind_ok] at h
    obtain ⟨u, c₁, hargs, h⟩ := h
    have inv₁ := hP.argsN .proc args s u c₁ hb hargs
    generalize hL : args.length = L at h
    rcases L with _ | (_ | _ | (_ | n))
    · simp [throwE] at h
    · cases inList with
      | none =>
        simp only [EmitM.bind_def, EmitM.bind, EmitM.pure_def, EmitM.pureE,
          emit_ins_apply, Except.ok.injEq, Prod.mk.injEq] at h
        obtain ⟨rfl, rfl⟩ := h
        exact inv₁.ctrans (c5_snoc _ _ (by simp [Instruction.jumps]))
      | some e =>
        simp only [EmitM.bind_def, EmitM.bind_ok] at h
        obtain ⟨ke, c₂, he, _, c₃, hmove, h⟩ := h
        have inv₂ := hP.expr e c₁ ke c₂ (hb.preserve inv₁) he
        have inv₃ := c5_move_stack ke c₂ _ c₃ hmove
        simp only [EmitM.bind_def, EmitM.bind, EmitM.pure_def, EmitM.pureE,
          emit_ins_apply, Except.ok.injEq, Prod.mk.injEq] at h
        obtain ⟨-, c', ⟨-, hc⟩, hkk, hs⟩ := h
        subst hkk
        rw [← hs, ← hc]
        exact ((inv₁.ctrans inv₂).ctrans inv₃).ctrans
          (c5_snoc _ _ (by simp [Instruction.jumps]))
    · simp [throwE] at h
    · simp only [EmitM.bind_def, EmitM.bind, EmitM.pure_def, EmitM.pureE,
        emit_ins_apply, Except.ok.injEq, Prod.mk.injEq] at h
      obtain ⟨rfl, rfl⟩ := h
      exact inv₁.ctrans (c5_snoc _ _ (by simp [Instruction.jumps]))
    · simp [throwE] at h
  | list args =>
    rw [term_emit_step] at h
    simp only [EmitM.bind_def, EmitM.bind_ok] at h
    obtain ⟨res, c₁, hargs, h⟩ := h
    have inv₁ := hP.argsE .list args s res c₁ hb hargs
    cases res
    case normal =>
      simp only [EmitM.bind_def, EmitM.bind, EmitM.pure_def, EmitM.pureE,
        emit_ins_apply, Except.ok.injEq, Prod.mk.injEq] at h
      obtain ⟨rfl, rfl⟩ := h
      exact inv₁.ctrans (c5_snoc _ _ (by simp [Instruction.jumps]))
    case assoc =>
      simp only [EmitM.bind_def, EmitM.bind, EmitM.pure_def, EmitM.pureE,
        emit_ins_apply, Except.ok.injEq, Prod.mk.injEq] at h
      obtain ⟨rfl, rfl⟩ := h
      exact inv₁.ctrans (c5_snoc _ _ (by simp [Instruction.jumps]))
    case argList =>
      simp [throwE] at h
  | pick args =>
    rw [term_emit_step.eq_def] at h
    dsimp only at h
    match args, h with
    | [], h => simp [throwE] at h
    | [(some w, rhs)], h => simp [throwE] at h
    | [(none, rhs)], h =>
      dsimp only at h
      simp only [EmitM.bind_def, EmitM.bind_ok] at h
      obtain ⟨ke, c₁, he, _, c₂, hmove, h⟩ := h
      have inv₁ := hP.expr rhs s ke c₁ hb he
      have inv₂ := c5_move_stack ke c₁ _ c₂ hmove
      simp only [EmitM.bind_def, EmitM.bind, EmitM.pure_def, EmitM.pureE,
        emit_ins_apply, Except.ok.injEq, Prod.mk.injEq] at h
      obtain ⟨-, c', ⟨-, hc⟩, hk, hs⟩ := h
      subst hk
      rw [← hs, ← hc]
      exact (inv₁.ctrans inv₂).ctrans
        (c5_snoc _ _ (by simp [Instruction.jumps]))
    | a1 :: a2 :: restArgs, h =>
      dsimp only at h
      simp only [EmitM.bind_def, EmitM.bind_ok, alloc_label_apply,
        emit_ins_apply, emit_label_apply, EmitM.pure_def, EmitM.pureE,
        Except.ok.injEq, Prod.mk.injEq] at h
      obtain ⟨lEnd, c₁, ⟨hle, hc₁⟩, bs, c₂, hW, _, c₃, ⟨-, hc₃⟩, _, c₄,
        hB, _, c₅, ⟨-, hc₅⟩, hk, hs⟩ := h
      subst hle
      subst hk
      subst hs
      have h1lc : c₁.labelCount = s.labelCount + 1 := by rw [← hc₁]
      have h1scl : c₁.shortCircuitLabels = s.shortCircuitLabels := by
        rw [← hc₁]
      have h1n : c₁.nodes = s.nodes := by rw [← hc₁]
      have hb₁ : SclBelow c₁ := by
        intro x hx
        rw [show sclLabels c₁.shortCircuitLabels =
          sclLabels s.shortCircuitLabels from by rw [h1scl]] at hx
        rw [h1lc]
        exact Nat.lt_of_lt_of_le (hb x hx) (by omega)
      obtain ⟨hlcW, hmW, hndW, hfrW, ΔW, hnW, hrW, hdW, hbsW, hsW, hfW⟩ :=
        hP.pickW (a1 :: a2 :: restArgs) c₁ bs c₂ hb₁ hW
      rw [h1lc] at hlcW
      rw [h1n] at hnW
      have hfrW' : ∀ l ∈ bs.map Prod.fst,
          s.labelCount + 1 ≤ l ∧ l < c₂.labelCount := by
        intro l hl
        have := hfrW l hl
        rw [h1lc] at this
        exact this
      have hrW' : ∀ l ∈ emittedLabels ΔW,
          s.labelCount + 1 ≤ l ∧ l < c₂.labelCount := by
        intro l hl
        have := hrW l hl
        rw [h1lc] at this
        exact this
      have hsclW : sclLabels c₂.shortCircuitLabels =
          sclLabels s.shortCircuitLabels := by
        rw [hmW.labels_eq, h1scl]
      have hsW' : ∀ x ∈ sclLabels s.shortCircuitLabels,
          x ∉ emittedLabels ΔW := by
        intro x hx
        refine hsW x ?_
        rw [show sclLabels c₁.shortCircuitLabels =
          sclLabels s.shortCircuitLabels from by rw [h1scl]]
        exact hx
      have h3lc : c₃.labelCount = c₂.labelCount := by rw [← hc₃]
      have h3scl : c₃.shortCircuitLabels = c₂.shortCircuitLabels := by
        rw [← hc₃]
      have h3n : c₃.nodes = c₂.nodes ++
          [.instruction (.pickProb (bs.map Prod.fst))] := by rw [← hc₃]
      have hb₂ : SclBelow c₂ := by
        intro x hx
        rw [hsclW] at hx
        exact Nat.lt_of_lt_of_le (hb x hx) (by omega)
      have hb₃ : SclBelow c₃ := by
        intro x hx
        rw [show sclLabels c₃.shortCircuitLabels =
          sclLabels c₂.shortCircuitLabels from by rw [h3scl]] at hx
        rw [h3lc]
        exact hb₂ x hx
      obtain ⟨hlcB, hmB, ΔB, hnB, hrB, hdB, hinB, hsB, hfB⟩ :=
        hP.pickB bs s.labelCount c₃ _ c₄ hb₃ hndW
          (by
            intro l hl
            rw [h3lc]
            exact (hfrW' l hl).2)
          (by
            intro l hl
            rw [show sclLabels c₃.shortCircuitLabels =
              sclLabels s.shortCircuitLabels from by rw [h3scl, hsclW]]
            intro hmem
            have := hb l hmem
            have := (hfrW' l hl).1
            omega)
          hB
      rw [h3lc] at hlcB
      rw [h3n] at hnB
      have hrB' : ∀ l ∈ emittedLabels ΔB,
          l ∈ bs.map Prod.fst ∨
            (c₂.labelCount ≤ l ∧ l < c₄.labelCount) := by
        intro l hl
        rcases hrB l hl with hin | hrange
        · exact Or.inl hin
        · rw [h3lc] at hrange
          exact Or.inr hrange
      have hsB' : ∀ x ∈ sclLabels s.shortCircuitLabels,
          x ∉ emittedLabels ΔB := by
        intro x hx
        refine hsB x ?_
        rw [show sclLabels c₃.shortCircuitLabels =
          sclLabels s.shortCircuitLabels from by rw [h3scl, hsclW]]
        exact hx
      have h5lc : c₅.labelCount = c₄.labelCount := by rw [← hc₅]
      have h5scl : c₅.shortCircuitLabels = c₄.shortCircuitLabels := by
        rw [← hc₅]
      have h5n : c₅.nodes = c₄.nodes ++ [.label s.labelCount] := by
        rw [← hc₅]
      have hEq : emittedLabels
          (ΔW ++ .instruction (.pickProb (bs.map Prod.fst)) :: ΔB ++
            [Node.label s.labelCount]) =
          emittedLabels ΔW ++ (emittedLabels ΔB ++ [s.labelCount]) := by
        simp [emittedLabels_append]
      have hRq : referencedLabels
          (ΔW ++ .instruction (.pickProb (bs.map Prod.fst)) :: ΔB ++
            [Node.label s.labelCount]) =
          referencedLabels ΔW ++
            (bs.map Prod.fst ++ referencedLabels ΔB) := by
        simp [Instruction.jumps, referencedLabels_append]
      refine ⟨?_, ?_,
        ΔW ++ .instruction (.pickProb (bs.map Prod.fst)) :: ΔB ++
          [Node.label s.labelCount], ?_, ?_, ?_, ?_, ?_⟩
      · rw [h5lc]
        omega
      · rw [h5scl]
        have hm1 : SclMono s.shortCircuitLabels c₂.shortCircuitLabels := by
          rw [← h1scl]
          exact hmW
        refine hm1.mtrans ?_
        rw [← h3scl]
        exact hmB
      · rw [h5n, hnB, hnW]
        simp
      · intro x hx
        rw [hEq] at hx
        rw [h5lc]
        rcases List.mem_append.mp hx with hW1 | hrest
        · have := hrW' x hW1
          constructor <;> omega
        · rcases List.mem_append.mp hrest with hB1 | hlast
          · rcases hrB' x hB1 with hin | hrange
            · have := hfrW' x hin
              constructor <;> omega
            · constructor <;> omega
          · have := List.mem_singleton.mp hlast
            subst this
            constructor <;> omega
      · rw [hEq]
        rw [List.nodup_append]
        refine ⟨hdW, ?_, ?_⟩
        · rw [List.nodup_append]
          refine ⟨hdB, List.nodup_singleton _, ?_⟩
          intro x hB1 hlast
          have h2 := List.mem_singleton.mp hlast
          rcases hrB' x hB1 with hin | hrange
          · have := hfrW' x hin
            omega
          · omega
        · intro x hW1 hrest
          have hx1 := hrW' x hW1
          rcases List.mem_append.mp hrest with hB1 | hlast
          · rcases hrB' x hB1 with hin | hrange
            · exact hbsW x hin hW1
            · omega
          · have := List.mem_singleton.mp hlast
            omega
      · intro x hx
        have hxlt : x < s.labelCount := hb x hx
        rw [hEq]
        intro hmem
        rcases List.mem_append.mp hmem with hW1 | hrest
        · exact hsW' x hx hW1
        · rcases List.mem_append.mp hrest with hB1 | hlast
          · exact hsB' x hx hB1
          · have := List.mem_singleton.mp hlast
            omega
      · intro x hx
        rw [hRq] at hx
        rw [hEq]
        have husedEq : usedScl c₅.shortCircuitLabels =
            usedScl c₄.shortCircuitLabels := by rw [h5scl]
        rcases List.mem_append.mp hx with hW1 | hrest
        · rcases hfW x hW1 with hin | hused
          · exact Or.inl (List.mem_append_left _ hin)
          · refine Or.inr ?_
            rw [husedEq]
            refine usedScl_subset ?_ x hused
            rw [h3scl] at hmB
            exact hmB
        · rcases List.mem_append.mp hrest with hbs1 | hB1
          · exact Or.inl (List.mem_append_right _
              (List.mem_append_left _ (hinB x hbs1)))
          · rcases hfB x hB1 with hin | hor
            · exact Or.inl (List.mem_append_right _
                (List.mem_append_left _ hin))
            · rcases hor with hused | rfl
              · refine Or.inr ?_
                rw [husedEq]
                exact hused
              · exact Or.inl (List.mem_append_right _
                  (List.mem_append_right _ (List.mem_singleton.mpr rfl)))

/-- Every fuel level of the emitter bundle satisfies the label invariant. -/
theorem c5_emitters : ∀ fuel, C5all (emitters fuel) := by
  intro fuel
  induction fuel with
  | zero =>
    constructor <;>
      · intros
        rename_i h
        simp [emitters, stuckEmitters, stuckE] at h
  | succ n ih =>
    exact ⟨c5_step_expr (emitters n) ih, c5_step_inner (emitters n) ih,
      c5_step_term (emitters n) ih, c5_step_follow (emitters n) ih,
      c5_step_each (emitters n) ih, c5_step_argsE (emitters n) ih,
      c5_step_argsN (emitters n) ih, c5_step_new (emitters n) ih,
      c5_step_binary (emitters n) ih, c5_step_ternary (emitters n) ih,
      c5_step_assign (emitters n) ih, c5_step_pickW (emitters n) ih,
      c5_step_pickB (emitters n) ih⟩

/-- The parameter-echo loop satisfies the label invariant. -/
theorem c5_fetch_args :
    ∀ k i s u s', fetch_args i k s = .ok (u, s') → C5Inv s s' := by
  intro k
  induction k with
  | zero =>
    intro i s u s' h
    simp only [fetch_args, EmitM.pure_def, EmitM.pureE, Except.ok.injEq,
      Prod.mk.injEq] at h
    obtain ⟨-, rfl⟩ := h
    exact C5Inv.crefl s
  | succ m ih =>
    intro i s u s' h
    rw [fetch_args] at h
    simp only [EmitM.bind_def, EmitM.bind_ok, emit_ins_apply,
      Except.ok.injEq, Prod.mk.injEq, true_and, exists_eq_left] at h
    obtain ⟨-, -, rfl, h⟩ := h
    exact (c5_snoc s _ (by simp [Instruction.jumps])).ctrans (ih _ _ _ _ h)

/-- A balanced run from an empty short-circuit stack ends with an empty
stack. -/
theorem SclMono.nil_eq {b : List (Nat × Bool)} (h : SclMono [] b) :
    b = [] := by
  cases h
  rfl

/-- Claim C5: in every successfully compiled stream, every label referenced
by any instruction is emitted as a label node exactly once (the emitted
label nodes are, in fact, pairwise distinct). -/
theorem c5_labels_unique (fuel : Nat) (e : Expression)
    (params : List String) (ns : List Node)
    (h : compile_expr fuel e params = .ok ns) :
    ∀ l ∈ referencedLabels ns, (emittedLabels ns).count l = 1 := by
  rw [compile_expr] at h
  split at h
  case h_2 => cases h
  case h_1 u c heq =>
    simp only [Except.ok.injEq] at h
    subst h
    simp only [emit_expr, EmitM.bind_def, EmitM.bind_ok] at heq
    obtain ⟨kind, c₁, h₁, mv, c₂, h₂, u₁, c₃, h₃, u₂, c₄, h₄, h₅⟩ := heq
    have hbF : SclBelow (freshCompiler params) := by
      intro x hx
      simp [freshCompiler, sclLabels] at hx
    have inv₁ := (c5_emitters fuel).expr e (freshCompiler params) kind c₁
      hbF h₁
    have inv₂ := c5_move_stack kind c₁ _ c₂ h₂
    have inv₃ := c5_fetch_args params.length 0 c₂ _ c₃ h₃
    simp only [emit_ins_apply, Except.ok.injEq, Prod.mk.injEq] at h₄ h₅
    obtain ⟨-, rfl⟩ := h₄
    obtain ⟨-, rfl⟩ := h₅
    have invAll := (((inv₁.ctrans inv₂).ctrans inv₃).ctrans
      ((c5_snoc c₃ (.newList (params.length + 1))
        (by simp [Instruction.jumps])).ctrans
      (c5_snoc ⟨c₃.params,
        c₃.nodes ++ [.instruction (.newList (params.length + 1))],
        c₃.labelCount, c₃.shortCircuitLabels⟩ .ret
        (by simp [Instruction.jumps]))))
    obtain ⟨-, hm, Δ, hn, -, hd, -, hf⟩ := invAll
    have hscl : ∀ x, x ∉ usedScl
        (⟨c₃.params,
          (c₃.nodes ++ [.instruction (.newList (params.length + 1))]) ++
            [.instruction .ret],
          c₃.labelCount, c₃.shortCircuitLabels⟩ :
            Compiler).shortCircuitLabels := by
      have hnil := SclMono.nil_eq
        (show SclMono [] c₃.shortCircuitLabels from hm)
      intro x
      show x ∉ usedScl c₃.shortCircuitLabels
      rw [hnil]
      simp [usedScl]
    have hnodes : (⟨c₃.params,
        (c₃.nodes ++ [.instruction (.newList (params.length + 1))]) ++
          [.instruction .ret],
        c₃.labelCount, c₃.shortCircuitLabels⟩ : Compiler).nodes =
        (freshCompiler params).nodes ++ Δ := hn
    intro l hl
    rw [show ((⟨c₃.params,
      (c₃.nodes ++ [.instruction (.newList (params.length + 1))]) ++
        [.instruction .ret],
      c₃.labelCount, c₃.shortCircuitLabels⟩ : Compiler).nodes) =
        (freshCompiler params).nodes ++ Δ from hn] at hl ⊢
    rw [show (freshCompiler params).nodes =
      [.instruction (.dbgFile "<dmasm expression>")] from rfl] at hl ⊢
    rw [show emittedLabels
      ([Node.instruction (.dbgFile "<dmasm expression>")] ++ Δ) =
        emittedLabels Δ from by simp [emittedLabels_append]]
    rw [show referencedLabels
      ([Node.instruction (.dbgFile "<dmasm expression>")] ++ Δ) =
        referencedLabels Δ from by
          simp [referencedLabels_append, Instruction.jumps]] at hl
    rcases hf l hl with hin | hused
    · exact List.count_eq_one_of_mem hd hin
    · exact absurd hused (hscl l)

/-- Witness for Claim C5 at the concrete input `pick(1, 2)`: its stream
references labels 2, 3 and 1, and each is emitted exactly once. -/
theorem c5_labels_unique_witness :
    compile_expr 10 pickTwoExpr [] = .ok pickTwoStream ∧
    ∀ l ∈ referencedLabels pickTwoStream,
      (emittedLabels pickTwoStream).count l = 1 :=
  ⟨by decide,
    c5_labels_unique 10 pickTwoExpr [] pickTwoStream (by decide)⟩
